import Mathlib

/-!
# Proof-graph checker of OpenSMT (`src/proof/PGCheck.cc`)

Shallow embedding of `ProofGraph::checkClauseSorting`, `ProofGraph::checkClause`,
`ProofGraph::checkProof` and `ProofGraph::verifyLeavesInconsistency`.

Conventions of the embedding

* A `ProofNode *` is represented by the arena index of the node it points to, so
  `p->getId()` is the index itself and `getNode(id)` is a lookup in the arena.
* `assert` is modelled as enabled: a failed assertion stops the run with
  `Stop.assertion line`, where `line` is the source line of the assertion.
* Every `throw` of the source is an `InternalException` (or `std::logic_error`)
  preceded by a diagnostic line; `Stop.thrown f` records which diagnostic
  branch threw.
* Loops are written with a fuel argument that bounds the number of iterations;
  running out of fuel is the separate outcome `Stop.outOfFuel`.
* A read outside a vector, `front()` or `back()` of an empty container, or a use of a
  null node pointer stops the run with `Stop.undefinedBehaviour line`.
* Node ids (`clauseid_t`) and variables (`Var`) are natural numbers. The counters
  `visit_level` and `visited_count` never exceed the number of nodes and edges of
  the graph and are kept as natural numbers as well.
* Diagnostic output (`std::cerr`) has no influence on control flow and is not
  modelled, except that it identifies the failure branch.
-/

namespace opensmt

/-- Modelled from the spec: the literal type is declared outside the given sources.
A literal is a variable with a polarity; `sign = true` is the negated literal
(`checkPolarityAnt` returns `not sign(l)` for a positive occurrence). -/
structure Lit where
  var : Nat
  sign : Bool
  deriving DecidableEq, Repr

/-- Modelled from the spec: the enumeration `clause_type` is declared outside the given
sources; the spec knows original (input) clauses and derived ones. -/
inductive clause_type where
  | CLA_ORIG
  | CLA_DERIVED
  deriving DecidableEq, Repr

/-- Modelled from the spec: the two kinds of proof node (§3). A leaf has no antecedents
and no pivot; a derived node has two antecedent nodes (given by their ids) and a pivot. -/
inductive NodeKind where
  | leaf
  | derived (ant1 ant2 : Nat) (pivot : Nat)
  deriving DecidableEq, Repr

/-- Modelled from the spec: the class `ProofNode` is declared outside the given sources.
The id of a node is its index in the arena. `resolvents` lists the elements of the
`std::set<clauseid_t>` in iteration (ascending) order. -/
structure ProofNode where
  kind : NodeKind
  clause : List Lit
  resolvents : List Nat
  deriving DecidableEq, Repr

namespace ProofNode

def isLeaf (n : ProofNode) : Bool :=
  match n.kind with
  | .leaf => true
  | .derived _ _ _ => false

def getType (n : ProofNode) : clause_type :=
  match n.kind with
  | .leaf => .CLA_ORIG
  | .derived _ _ _ => .CLA_DERIVED

def getAnt1 (n : ProofNode) : Option Nat :=
  match n.kind with
  | .leaf => none
  | .derived a _ _ => some a

def getAnt2 (n : ProofNode) : Option Nat :=
  match n.kind with
  | .leaf => none
  | .derived _ b _ => some b

def getClauseSize (n : ProofNode) : Nat := n.clause.length

def getNumResolvents (n : ProofNode) : Nat := n.resolvents.length

end ProofNode

/-- Modelled from the spec: the class `ProofGraph` is declared outside the given sources.
`graph` is the node arena (an entry may be null), `visited_1` and `visited_2` are the
two visitation marker sets, each represented by the list of the ids whose marker is set. -/
structure ProofGraph where
  graph : List (Option ProofNode)
  root : Nat
  leaves_ids : List Nat
  visited_1 : List Nat
  visited_2 : List Nat
  deriving DecidableEq, Repr

namespace ProofGraph

def getGraphSize (g : ProofGraph) : Nat := g.graph.length

def getNode (g : ProofGraph) (id : Nat) : Option ProofNode :=
  match g.graph[id]? with
  | some (some n) => some n
  | _ => none

def isRoot (g : ProofGraph) (id : Nat) : Bool := decide (id = g.root)

def resetVisited1 (g : ProofGraph) : ProofGraph := { g with visited_1 := [] }

def resetVisited2 (g : ProofGraph) : ProofGraph := { g with visited_2 := [] }

end ProofGraph

/-- The diagnostic branch that precedes a `throw`. -/
inductive Failure where
  | badSorting
  | repetition
  | inconsistency
  | sinkNotEmpty
  | emptyOriginal
  | derivationMismatch
  | nullResolvent
  | unreachableTopDown (u : Nat)
  | unreachableBottomUp (u : Nat)
  | detachedLeaf (id : Nat)
  | leavesSatisfiable
  deriving DecidableEq, Repr

/-- Ways in which a run stops without completing normally. -/
inductive Stop where
  | thrown (f : Failure)
  | assertion (line : Nat)
  | undefinedBehaviour (line : Nat)
  | outOfFuel
  deriving DecidableEq, Repr

/-- Functions of the proof graph that the checker calls and that are defined outside the
given sources. The checker is embedded for arbitrary such functions.
`mergeClauses A B pivot` is the vector `resolv` filled by `mergeClauses(A, B, resolv, pivot)`;
`hasOccurrenceBin n v` is the `short` returned by `n->hasOccurrenceBin(v)`;
`impliesFalse F` is `VerificationUtils(logic_).impliesInternal(F, logic_.getTerm_false())`
for the conjunction `F` of the disjunctions of the listed clauses. -/
structure Externals where
  mergeClauses : List Lit → List Lit → Nat → List Lit
  hasOccurrenceBin : ProofNode → Nat → Int
  impliesFalse : List (List Lit) → Bool

/-! ## checkClauseSorting (lines 69-97) -/

/-- The loop of lines 76-96 over the adjacent pairs of the clause. -/
def sortingLoop : List Lit → Except Stop Unit
  | a :: b :: rest =>
    if a.var > b.var then .error (.thrown .badSorting)
    else if a.var = b.var ∧ a.sign = b.sign then .error (.thrown .repetition)
    else if a.var = b.var ∧ a.sign ≠ b.sign then .error (.thrown .inconsistency)
    else sortingLoop (b :: rest)
  | _ => .ok ()

def checkClauseSorting (g : ProofGraph) (nid : Nat) : Except Stop Unit :=
  match g.getNode nid with
  | none => .error (.assertion 71)
  | some n =>
    if n.getClauseSize = 0 then .ok ()
    else sortingLoop n.clause

/-! ## checkClause (lines 99-174) -/

/-- Lines 136-144: some position of the stored clause differs from the recomputed one
(called with two vectors of the same size). -/
def clauseDiffers : List Lit → List Lit → Bool
  | a :: as, b :: bs => a != b || clauseDiffers as bs
  | _, _ => false

/-- Lines 104-118: the sink check, the empty-original check and the sorting check. -/
def checkShape (g : ProofGraph) (nid : Nat) (n : ProofNode) : Except Stop Unit :=
  if g.isRoot nid ∧ n.getClauseSize ≠ 0 then .error (.thrown .sinkNotEmpty)
  else if n.getClauseSize = 0 then
    if n.getType = .CLA_ORIG then .error (.thrown .emptyOriginal) else .ok ()
  else checkClauseSorting g nid

/-- Lines 120-162: the checks made for a node that is not a leaf. The tautology scan of
lines 145-152 only prints and is left out. -/
def checkDerivation (X : Externals) (g : ProofGraph) (nid : Nat) (n : ProofNode) :
    Except Stop Unit :=
  match n.kind with
  | .leaf => .ok ()
  | .derived id1 id2 pivot =>
    if ¬ (nid ≠ id1 ∧ nid ≠ id2) then .error (.assertion 121)
    else
      match g.getNode id1 with
      | none => .error (.assertion 122)
      | some a1 =>
        match g.getNode id2 with
        | none => .error (.assertion 123)
        | some a2 =>
          if n.getClauseSize ≠ 0 then
            let v := X.mergeClauses a1.clause a2.clause pivot
            if v.length ≠ n.getClauseSize then .error (.thrown .derivationMismatch)
            else if clauseDiffers n.clause v then .error (.thrown .derivationMismatch)
            else
              let f1 := X.hasOccurrenceBin a1 pivot
              let f2 := X.hasOccurrenceBin a2 pivot
              if ¬ f1 ≠ -1 then .error (.assertion 156)
              else if ¬ f2 ≠ -1 then .error (.assertion 157)
              else if ¬ f1 ≠ f2 then .error (.assertion 158)
              else .ok ()
          else .ok ()

/-- Lines 163-173: every resolvent must be a node that has this node as an antecedent. -/
def checkResolvents (g : ProofGraph) (nid : Nat) : List Nat → Except Stop Unit
  | [] => .ok ()
  | id :: rest =>
    if ¬ id < g.getGraphSize then .error (.assertion 166)
    else
      match g.getNode id with
      | none => .error (.thrown .nullResolvent)
      | some res =>
        if res.getAnt1 = some nid ∨ res.getAnt2 = some nid then checkResolvents g nid rest
        else .error (.assertion 172)

def checkClause (X : Externals) (g : ProofGraph) (nid : Nat) : Except Stop Unit :=
  match g.getNode nid with
  | none => .error (.assertion 101)
  | some n =>
    match checkShape g nid n with
    | .error e => .error e
    | .ok _ =>
      match checkDerivation X g nid n with
      | .error e => .error e
      | .ok _ => checkResolvents g nid n.resolvents

/-! ## checkProof (lines 176-258) -/

/-- State of the top-down pass: the deque `q` (front first), the vector `visit_level`
and the marker set `visited_2`. -/
structure TopDown where
  q : List Nat
  visit_level : List Nat
  visited_2 : List Nat
  deriving DecidableEq, Repr

/-- Lines 201-204: every resolvent must still have level 0 and is pushed to the back. -/
def pushResolvents (visit_level : List Nat) :
    List Nat → List Nat → Except Stop (List Nat)
  | q, [] => .ok q
  | q, r :: rest =>
    match visit_level[r]? with
    | none => .error (.undefinedBehaviour 202)
    | some l =>
      if l = 0 then pushResolvents visit_level (q ++ [r]) rest
      else .error (.assertion 202)

/-- One iteration of the loop of lines 183-212. -/
def topDownStep (g : ProofGraph) (s : TopDown) : Except Stop TopDown :=
  match s.q with
  | [] => .error (.undefinedBehaviour 184)
  | id :: q =>
    match g.getNode id with
    | none => .error (.assertion 186)
    | some n =>
      if id ∉ s.visited_2 then
        if n.isLeaf then
          .ok { q := q ++ n.resolvents, visit_level := s.visit_level.set id 1,
                visited_2 := id :: s.visited_2 }
        else
          .ok { q := q, visit_level := s.visit_level, visited_2 := id :: s.visited_2 }
      else
        match n.kind with
        | .leaf => .error (.assertion 198)
        | .derived id1 id2 _ =>
          match s.visit_level[id]? with
          | none => .error (.undefinedBehaviour 199)
          | some l =>
            if l ≠ 0 then .error (.assertion 199)
            else
              match pushResolvents s.visit_level q n.resolvents with
              | .error e => .error e
              | .ok q2 =>
                match s.visit_level[id1]? with
                | none => .error (.undefinedBehaviour 208)
                | some l1 =>
                  if ¬ l1 > 0 then .error (.assertion 208)
                  else
                    match s.visit_level[id2]? with
                    | none => .error (.undefinedBehaviour 209)
                    | some l2 =>
                      if ¬ l2 > 0 then .error (.assertion 209)
                      else
                        .ok { q := q2,
                              visit_level :=
                                s.visit_level.set id (if l1 > l2 then l1 + 1 else l2 + 1),
                              visited_2 := s.visited_2 }

/-- The do-while loop of lines 183-212; the second component is the state in which
the loop stopped. -/
def topDownLoop (g : ProofGraph) : Nat → TopDown → Except Stop Unit × TopDown
  | 0, s => (.error .outOfFuel, s)
  | fuel + 1, s =>
    match topDownStep g s with
    | .error e => (.error e, s)
    | .ok s2 => if s2.q.isEmpty then (.ok (), s2) else topDownLoop g fuel s2

/-- State of the bottom-up pass: the deque `q` used as a stack (back first) and the
marker set `visited_1`. -/
structure BottomUp where
  q : List Nat
  visited_1 : List Nat
  deriving DecidableEq, Repr

/-- One iteration of the loop of lines 216-234. -/
def bottomUpStep (X : Externals) (g : ProofGraph) (check_clauses : Bool) (s : BottomUp) :
    Except Stop BottomUp :=
  match s.q with
  | [] => .error (.undefinedBehaviour 217)
  | id :: q =>
    match g.getNode id with
    | none => .error (.assertion 219)
    | some node =>
      match node.kind with
      | .leaf => .ok { q := q, visited_1 := id :: s.visited_1 }
      | .derived id1 id2 _ =>
        if ¬ id1 ≠ id2 then .error (.assertion 225)
        else
          let q2 := if id ∉ s.visited_1 then id2 :: id1 :: q else q
          match (if check_clauses then checkClause X g id else .ok ()) with
          | .error e => .error e
          | .ok _ => .ok { q := q2, visited_1 := id :: s.visited_1 }

/-- The do-while loop of lines 216-234; the second component is the state in which
the loop stopped. -/
def bottomUpLoop (X : Externals) (g : ProofGraph) (check_clauses : Bool) :
    Nat → BottomUp → Except Stop Unit × BottomUp
  | 0, s => (.error .outOfFuel, s)
  | fuel + 1, s =>
    match bottomUpStep X g check_clauses s with
    | .error e => (.error e, s)
    | .ok s2 => if s2.q.isEmpty then (.ok (), s2) else bottomUpLoop X g check_clauses fuel s2

/-- Lines 237-246, over the ids `0 .. getGraphSize() - 1`. -/
def consistencyLoop (visited_1 visited_2 : List Nat) : List Nat → Except Stop Unit
  | [] => .ok ()
  | u :: rest =>
    if u ∈ visited_1 ∧ u ∉ visited_2 then .error (.thrown (.unreachableTopDown u))
    else if u ∉ visited_1 ∧ u ∈ visited_2 then .error (.thrown (.unreachableBottomUp u))
    else consistencyLoop visited_1 visited_2 rest

/-- Lines 249-254. -/
def detachedLoop (visited_1 : List Nat) : List Nat → Except Stop Unit
  | [] => .ok ()
  | leave_id :: rest =>
    if leave_id ∉ visited_1 then .error (.thrown (.detachedLeaf leave_id))
    else detachedLoop visited_1 rest

/-- The initial state of the top-down pass (lines 180-182). -/
def topDownInit (g : ProofGraph) : TopDown :=
  { q := g.leaves_ids, visit_level := List.replicate g.getGraphSize 0, visited_2 := g.visited_2 }

/-- The function `checkProof(check_clauses)`: the outcome together with the proof graph as
it is when the run stops (only the visitation markers are ever written). -/
def checkProof (X : Externals) (fuel : Nat) (g : ProofGraph) (check_clauses : Bool) :
    Except Stop Unit × ProofGraph :=
  match topDownLoop g fuel (topDownInit g) with
  | (.error e, td) => (.error e, { g with visited_2 := td.visited_2 })
  | (.ok _, td) =>
    let g2 := { g with visited_2 := td.visited_2 }
    match g.getNode g.root with
    | none => (.error (.undefinedBehaviour 215), g2)
    | some _ =>
      match bottomUpLoop X g check_clauses fuel
              { q := g.root :: td.q.reverse, visited_1 := g.visited_1 } with
      | (.error e, bu) => (.error e, { g2 with visited_1 := bu.visited_1 })
      | (.ok _, bu) =>
        let g3 := { g2 with visited_1 := bu.visited_1 }
        match consistencyLoop g3.visited_1 g3.visited_2 (List.range g.getGraphSize) with
        | .error e => (.error e, g3)
        | .ok _ =>
          match detachedLoop g3.visited_1 g.leaves_ids with
          | .error e => (.error e, g3)
          | .ok _ => (.ok (), g3.resetVisited1.resetVisited2)

/-! ## verifyLeavesInconsistency (lines 16-58) -/

/-- State of the traversal of lines 19-44: the vector `q` used as a stack (back first),
the vector `visited_count` and the vector `proofleaves`. -/
structure Collect where
  q : List Nat
  visited_count : List Nat
  proofleaves : List Nat
  deriving DecidableEq, Repr

/-- One iteration of the loop of lines 23-44. -/
def collectStep (g : ProofGraph) (s : Collect) : Except Stop Collect :=
  match s.q with
  | [] => .error (.undefinedBehaviour 24)
  | id :: q =>
    match g.getNode id with
    | none => .error (.assertion 26)
    | some node =>
      match s.visited_count[id]? with
      | none => .error (.undefinedBehaviour 27)
      | some c =>
        let vc := s.visited_count.set id (c + 1)
        if id = g.root ∨ c + 1 = node.getNumResolvents then
          match node.kind with
          | .derived id1 id2 _ =>
            match g.getNode id1, vc[id1]? with
            | some a1, some c1 =>
              if ¬ c1 < a1.getNumResolvents then .error (.assertion 36)
              else
                match g.getNode id2, vc[id2]? with
                | some a2, some c2 =>
                  if ¬ c2 < a2.getNumResolvents then .error (.assertion 37)
                  else .ok { q := id2 :: id1 :: q, visited_count := vc,
                             proofleaves := s.proofleaves }
                | _, _ => .error (.undefinedBehaviour 37)
            | _, _ => .error (.undefinedBehaviour 36)
          | .leaf => .ok { q := q, visited_count := vc, proofleaves := s.proofleaves ++ [id] }
        else .ok { q := q, visited_count := vc, proofleaves := s.proofleaves }

/-- The do-while loop of lines 23-44. -/
def collectLoop (g : ProofGraph) : Nat → Collect → Except Stop Collect
  | 0, _ => .error .outOfFuel
  | fuel + 1, s =>
    match collectStep g s with
    | .error e => .error e
    | .ok s2 => if s2.q.isEmpty then .ok s2 else collectLoop g fuel s2

/-- Lines 19-44: the traversal that fills `proofleaves`. -/
def collectLeaves (g : ProofGraph) (fuel : Nat) : Except Stop Collect :=
  match g.getNode g.root with
  | none => .error (.undefinedBehaviour 22)
  | some _ =>
    collectLoop g fuel
      { q := [g.root], visited_count := List.replicate g.getGraphSize 0, proofleaves := [] }

/-- Lines 46-55: one disjunction per declared leaf, given by the literals of its clause;
the result stands for the conjunction of these disjunctions. -/
def leafClauses (g : ProofGraph) : List Nat → Except Stop (List (List Lit))
  | [] => .ok []
  | leaf_id :: rest =>
    match g.getNode leaf_id with
    | none => .error (.undefinedBehaviour 48)
    | some n =>
      match leafClauses g rest with
      | .error e => .error e
      | .ok cs => .ok (n.clause :: cs)

def verifyLeavesInconsistency (X : Externals) (fuel : Nat) (g : ProofGraph) : Except Stop Unit :=
  match collectLeaves g fuel with
  | .error e => .error e
  | .ok _ =>
    match leafClauses g g.leaves_ids with
    | .error e => .error e
    | .ok clauses =>
      if ¬ X.impliesFalse clauses then .error (.thrown .leavesSatisfiable) else .ok ()

/-! ## Propositional semantics and the collaborators modelled from the spec -/

def Lit.eval (a : Nat → Bool) (l : Lit) : Bool := a l.var != l.sign

def evalClause (a : Nat → Bool) (c : List Lit) : Bool := c.any (Lit.eval a)

/-- Value of the conjunction of the disjunctions of the listed clauses. -/
def evalClauses (a : Nat → Bool) (F : List (List Lit)) : Bool := F.all (evalClause a)

/-- The entailment oracle is sound and complete: it answers true exactly for the
formulas that no assignment satisfies. -/
def OracleExact (X : Externals) : Prop :=
  ∀ F : List (List Lit), X.impliesFalse F = true ↔ ∀ a : Nat → Bool, evalClauses a F = false

/-- Antecedent edge of the proof graph: `m` is an antecedent of the derived node `n`. -/
def IsAnt (g : ProofGraph) (n m : Nat) : Prop :=
  ∃ node id1 id2 pivot, g.getNode n = some node ∧ node.kind = .derived id1 id2 pivot ∧
    (m = id1 ∨ m = id2)

/-- Reachability from the root by zero or more antecedent edges. -/
def Reachable (g : ProofGraph) (m : Nat) : Prop :=
  Relation.ReflTransGen (IsAnt g) g.root m

/-- The outcome is one of the three malformed-clause errors of checkClauseSorting. -/
def IsMalformed (r : Except Stop Unit) : Prop :=
  r = .error (.thrown .badSorting) ∨ r = .error (.thrown .repetition) ∨
    r = .error (.thrown .inconsistency)


/-- Modelled from the spec: mergeClauses is defined outside the given sources. §4.1: the
merge of both clauses with the occurrences of the pivot variable removed from both sides,
duplicate literals collapsed, the result ordered by variable. -/
def mergeClauses (A B : List Lit) (pivot : Nat) : List Lit :=
  (((A ++ B).filter (fun l => l.var != pivot)).dedup).insertionSort (fun a b => a.var ≤ b.var)

/-- Modelled from the spec: hasOccurrenceBin is defined outside the given sources. §4.1: the
polarity with which a variable occurs in the clause of a node; -1 when it does not occur
(lines 156-157), 0 for a positive and 1 for a negative occurrence. -/
def hasOccurrenceBin (n : ProofNode) (v : Nat) : Int :=
  match n.clause.find? (fun l => l.var == v) with
  | none => -1
  | some l => if l.sign then 1 else 0

/-- No assignment that extends `a` on the listed variables satisfies the clauses. -/
def refutedOn : List Nat → (Nat → Bool) → List (List Lit) → Bool
  | [], a, F => !evalClauses a F
  | v :: vs, a, F =>
    refutedOn vs (Function.update a v true) F && refutedOn vs (Function.update a v false) F

/-- Modelled from the spec: the entailment oracle (VerificationUtils) is an external
collaborator. §6: it answers whether the formula entails false; here by trying every
assignment of the variables that occur in the formula. -/
def impliesFalse (F : List (List Lit)) : Bool :=
  refutedOn (F.flatten.map Lit.var) (fun _ => false) F

/-- The collaborators as modelled from the spec. -/
def specExternals : Externals :=
  { mergeClauses := mergeClauses, hasOccurrenceBin := hasOccurrenceBin,
    impliesFalse := impliesFalse }

/-- The graph of the acceptance test (§8): leaf 0 with clause ¬p, leaf 1 with clause p,
derived root 2 with antecedents 0 and 1, pivot p and the empty clause (p is variable 0). -/
def acceptanceGraph : ProofGraph :=
  { graph := [some { kind := .leaf, clause := [⟨0, true⟩], resolvents := [2] },
              some { kind := .leaf, clause := [⟨0, false⟩], resolvents := [2] },
              some { kind := .derived 0 1 0, clause := [], resolvents := [] }],
    root := 2, leaves_ids := [0, 1], visited_1 := [], visited_2 := [] }

/-- The graph `g` with the node at index `i` replaced by `n`. -/
def replaceNode (g : ProofGraph) (i : Nat) (n : ProofNode) : ProofGraph :=
  { g with graph := g.graph.set i (some n) }

/-- A refutation with two resolution steps over p (variable 0) and q (variable 1):
leaf 0 is p ∨ q, leaf 1 is ¬p, node 2 is their resolvent q on p, leaf 3 is ¬q and the
root 4 is the empty resolvent of nodes 2 and 3 on q. -/
def chainGraph : ProofGraph :=
  { graph := [some { kind := .leaf, clause := [⟨0, false⟩, ⟨1, false⟩], resolvents := [2] },
              some { kind := .leaf, clause := [⟨0, true⟩], resolvents := [2] },
              some { kind := .derived 0 1 0, clause := [⟨1, false⟩], resolvents := [4] },
              some { kind := .leaf, clause := [⟨1, true⟩], resolvents := [4] },
              some { kind := .derived 2 3 1, clause := [], resolvents := [] }],
    root := 4, leaves_ids := [0, 1, 3], visited_1 := [], visited_2 := [] }

/-- A graph whose root claims the empty clause although its antecedents p ∨ q (leaf 0) and
¬p (leaf 1) resolve on p to the clause q. -/
def emptyRootGraph : ProofGraph :=
  { graph := [some { kind := .leaf, clause := [⟨0, false⟩, ⟨1, false⟩], resolvents := [2] },
              some { kind := .leaf, clause := [⟨0, true⟩], resolvents := [2] },
              some { kind := .derived 0 1 0, clause := [], resolvents := [] }],
    root := 2, leaves_ids := [0, 1], visited_1 := [], visited_2 := [] }

/-- Level invariant of the top-down pass: a node with a positive level is a leaf of level 1
or a derived node whose antecedents have positive levels and whose level is one more than
the larger of the two. -/
def LevelInv (g : ProofGraph) (lv : List Nat) : Prop :=
  ∀ n, 0 < lv.getD n 0 →
    (∃ node, g.getNode n = some node ∧ node.kind = .leaf ∧ lv.getD n 0 = 1) ∨
    (∃ node id1 id2 pivot, g.getNode n = some node ∧ node.kind = .derived id1 id2 pivot ∧
      0 < lv.getD id1 0 ∧ 0 < lv.getD id2 0 ∧
      lv.getD n 0 = (if lv.getD id1 0 > lv.getD id2 0 then lv.getD id1 0 + 1
        else lv.getD id2 0 + 1))

/-- The id `m` is recorded as an antecedent of the node `n`. -/
def hasAnt (g : ProofGraph) (n m : Nat) : Bool :=
  match g.getNode n with
  | none => false
  | some node => node.getAnt1 = some m || node.getAnt2 = some m

/-- The resolvent sets agree with the antecedent pointers: every resolvent id is an id of
the arena, and `m` is a resolvent of `n` exactly when `n` is an antecedent of `m`. -/
def resolventsConsistent (g : ProofGraph) : Bool :=
  (List.range g.getGraphSize).all fun n =>
    match g.getNode n with
    | none => true
    | some node =>
      node.resolvents.all (fun r => decide (r < g.getGraphSize)) &&
      (List.range g.getGraphSize).all fun m => decide (m ∈ node.resolvents) == hasAnt g m n

/-- Every declared leaf id is the id of a leaf node. -/
def leavesAreLeaves (g : ProofGraph) : Bool :=
  g.leaves_ids.all fun l =>
    match g.getNode l with
    | none => false
    | some node => node.isLeaf

/-- A graph with a cycle: leaf 0 with clause p, and the derived nodes 1 (the root, with
antecedents 0 and 2) and 2 (with antecedents 0 and 1), both with the empty clause. The
resolvent sets agree with the antecedent pointers. -/
def cycleGraph : ProofGraph :=
  { graph := [some { kind := .leaf, clause := [⟨0, false⟩], resolvents := [1, 2] },
              some { kind := .derived 0 2 0, clause := [], resolvents := [2] },
              some { kind := .derived 0 1 0, clause := [], resolvents := [1] }],
    root := 1, leaves_ids := [0], visited_1 := [], visited_2 := [] }

/-- The graph of the rejection test (§8): both declared leaves 0 and 1 carry the clause p
(variable 0) and the root 2, derived from them, is marked with the empty clause. -/
def samePolarityGraph : ProofGraph :=
  { graph := [some { kind := .leaf, clause := [⟨0, false⟩], resolvents := [2] },
              some { kind := .leaf, clause := [⟨0, false⟩], resolvents := [2] },
              some { kind := .derived 0 1 0, clause := [], resolvents := [] }],
    root := 2, leaves_ids := [0, 1], visited_1 := [], visited_2 := [] }

/-- A circular derivation over p, a, q (variables 0, 1, 2) in which every stored clause is
the resolvent of its antecedents: the leaves are p ∨ a ∨ ¬q (0), ¬p ∨ q (1), ¬a (2) and
q (3); node 4 is a ∨ ¬q from nodes 0 and 5 on p; node 5 is ¬p ∨ a from nodes 1 and 4 on q;
node 6 is ¬q from nodes 4 and 2 on a; the root 7 is the empty clause from nodes 6 and 3
on q. Nodes 4 and 5 are derived from each other. -/
def circularGraph : ProofGraph :=
  { graph := [some { kind := .leaf, clause := [⟨0, false⟩, ⟨1, false⟩, ⟨2, true⟩],
                     resolvents := [4] },
              some { kind := .leaf, clause := [⟨0, true⟩, ⟨2, false⟩], resolvents := [5] },
              some { kind := .leaf, clause := [⟨1, true⟩], resolvents := [6] },
              some { kind := .leaf, clause := [⟨2, false⟩], resolvents := [7] },
              some { kind := .derived 0 5 0, clause := [⟨1, false⟩, ⟨2, true⟩],
                     resolvents := [5, 6] },
              some { kind := .derived 1 4 2, clause := [⟨0, true⟩, ⟨1, false⟩],
                     resolvents := [4] },
              some { kind := .derived 4 2 1, clause := [⟨2, true⟩], resolvents := [7] },
              some { kind := .derived 6 3 2, clause := [], resolvents := [] }],
    root := 7, leaves_ids := [0, 1, 2, 3], visited_1 := [], visited_2 := [] }

/-- The graph `g` with one more leaf node, carrying the single literal `l`, with no
resolvents, appended to the arena (no node names it as an antecedent) and its id added
to the declared leaves. -/
def addDetachedLeaf (g : ProofGraph) (l : Lit) : ProofGraph :=
  { g with
    graph := g.graph ++ [some { kind := .leaf, clause := [l], resolvents := [] }]
    leaves_ids := g.leaves_ids ++ [g.getGraphSize] }

/-- A graph with a tautological resolvent over p and a (variables 0 and 1): leaf 0 is
p ∨ a, leaf 1 is ¬p ∨ ¬a, node 2 stores their resolvent a ∨ ¬a on p, leaf 3 is ¬a and
the root 4 has the antecedents 2 and 3. -/
def tautologyGraph : ProofGraph :=
  { graph := [some { kind := .leaf, clause := [⟨0, false⟩, ⟨1, false⟩], resolvents := [2] },
              some { kind := .leaf, clause := [⟨0, true⟩, ⟨1, true⟩], resolvents := [2] },
              some { kind := .derived 0 1 0, clause := [⟨1, false⟩, ⟨1, true⟩],
                     resolvents := [4] },
              some { kind := .leaf, clause := [⟨1, true⟩], resolvents := [4] },
              some { kind := .derived 2 3 1, clause := [], resolvents := [] }],
    root := 4, leaves_ids := [0, 1, 3], visited_1 := [], visited_2 := [] }

/-- The acceptance graph with malformed leaves: leaf 0 has the empty clause and leaf 1 the
unsorted clause q ∨ p (variables 1 and 0). -/
def malformedLeavesGraph : ProofGraph :=
  { graph := [some { kind := .leaf, clause := [], resolvents := [2] },
              some { kind := .leaf, clause := [⟨1, false⟩, ⟨0, false⟩], resolvents := [2] },
              some { kind := .derived 0 1 0, clause := [], resolvents := [] }],
    root := 2, leaves_ids := [0, 1], visited_1 := [], visited_2 := [] }

/-- The two-step refutation with skewed back-references: leaf 1 is an antecedent of node 2
but does not list it as a resolvent, and leaf 3 lists node 2 as a resolvent although it is
not one of its antecedents. -/
def skewedGraph : ProofGraph :=
  { graph := [some { kind := .leaf, clause := [⟨0, false⟩, ⟨1, false⟩], resolvents := [2] },
              some { kind := .leaf, clause := [⟨0, true⟩], resolvents := [] },
              some { kind := .derived 0 1 0, clause := [⟨1, false⟩], resolvents := [4] },
              some { kind := .leaf, clause := [⟨1, true⟩], resolvents := [2, 4] },
              some { kind := .derived 2 3 1, clause := [], resolvents := [] }],
    root := 4, leaves_ids := [0, 1, 3], visited_1 := [], visited_2 := [] }

/-- What is left of a node when its clause and its pivot are forgotten: the kind, the
antecedent ids and the resolvent set. -/
def ProofNode.shape (n : ProofNode) : ProofNode :=
  { kind := match n.kind with
      | .leaf => .leaf
      | .derived id1 id2 _ => .derived id1 id2 0
    clause := []
    resolvents := n.resolvents }

/-- The graph with the clauses and pivots of all nodes forgotten. Two graphs with the same
shape have the same node ids, kinds, antecedent ids, resolvent sets, root, declared leaves
and markers, and differ only in stored clauses and pivots. -/
def ProofGraph.shape (g : ProofGraph) : ProofGraph :=
  { g with graph := g.graph.map (Option.map ProofNode.shape) }

/-- One iteration of the top-down loop leads from `s` to `s2` (no assertion fails). -/
def TopDownNext (g : ProofGraph) (s s2 : TopDown) : Prop := topDownStep g s = .ok s2

/-- The states in which the top-down loop of checkProof can be at the start or at the end
of an iteration: those reached from the initial state by iterations in which no assertion
fails. -/
def TopDownReach (g : ProofGraph) (s : TopDown) : Prop :=
  Relation.ReflTransGen (TopDownNext g) (topDownInit g) s

/-- The node whose antecedents the iteration of the bottom-up loop that starts in `s`
pushes (lines 227-230), if there is one. -/
def bottomUpPusher (g : ProofGraph) (s : BottomUp) : Option Nat :=
  match s.q with
  | [] => none
  | id :: _ =>
    match g.getNode id with
    | none => none
    | some node =>
      match node.kind with
      | .leaf => none
      | .derived id1 id2 _ => if id1 ≠ id2 ∧ id ∉ s.visited_1 then some id else none

/-- The nodes that push their antecedents, in order, during at most `fuel` iterations of
the bottom-up loop started in `s` (an iteration in which checkClause fails included). -/
def bottomUpPushLog (X : Externals) (g : ProofGraph) (check_clauses : Bool) :
    Nat → BottomUp → List Nat
  | 0, _ => []
  | fuel + 1, s =>
    (bottomUpPusher g s).toList ++
      match bottomUpStep X g check_clauses s with
      | .error _ => []
      | .ok s2 => if s2.q.isEmpty then [] else bottomUpPushLog X g check_clauses fuel s2

/-- The ids that an iteration of the bottom-up loop leading from state `s` to state `s2`
pushed: the stack of `s2` without the part of the stack of `s` that lay below its top (the
iteration pops the top at line 220 and pushes at lines 228-229). -/
def bottomUpPushed (s s2 : BottomUp) : List Nat :=
  s2.q.take (s2.q.length - s.q.tail.length)

/-- Record of the completed iterations of the bottom-up loop started in `s`, at most `fuel`
of them: for each iteration the id it popped and the ids it pushed, read off the stacks
before and after the iteration. -/
def bottomUpTrace (X : Externals) (g : ProofGraph) (check_clauses : Bool) :
    Nat → BottomUp → List (Nat × List Nat)
  | 0, _ => []
  | fuel + 1, s =>
    match s.q, bottomUpStep X g check_clauses s with
    | id :: _, .ok s2 =>
      (id, bottomUpPushed s s2) ::
        (if s2.q.isEmpty then [] else bottomUpTrace X g check_clauses fuel s2)
    | _, _ => []

/-- In state `s` of the bottom-up loop the node `x` can still push its antecedents: it is
an inner node without marker. -/
def CanPushAntecedents (g : ProofGraph) (s : BottomUp) (x : Nat) : Prop :=
  ∃ n, g.getNode x = some n ∧ n.isLeaf = false ∧ x ∉ s.visited_1

/-- The node that the iteration of the loop of lines 23-44 starting in `s` expands (the
condition of line 30 holds, so lines 31-41 run), if there is one. -/
def collectExpander (g : ProofGraph) (s : Collect) : Option Nat :=
  match s.q with
  | [] => none
  | id :: _ =>
    match g.getNode id, s.visited_count[id]? with
    | some node, some c =>
      if id = g.root ∨ c + 1 = node.getNumResolvents then some id else none
    | _, _ => none

/-- The nodes expanded, in order, during at most `fuel` iterations of the loop of lines
23-44 started in `s` (an iteration that ends in a failed assertion included). -/
def collectExpandLog (g : ProofGraph) : Nat → Collect → List Nat
  | 0, _ => []
  | fuel + 1, s =>
    (collectExpander g s).toList ++
      match collectStep g s with
      | .error _ => []
      | .ok s2 => if s2.q.isEmpty then [] else collectExpandLog g fuel s2

/-- State of the traversal when the loop of lines 23-44 is entered: the root on the stack
(line 22), all counters 0 (line 21) and no leaf collected. -/
def collectStart (g : ProofGraph) : Collect :=
  { q := [g.root], visited_count := List.replicate g.getGraphSize 0, proofleaves := [] }

/-- Number of resolvents of `node` that occur in the list `E`. -/
def expandedResolvents (E : List Nat) (node : ProofNode) : Nat :=
  (node.resolvents.filter (fun m => decide (m ∈ E))).length

/-- Graphs on which the leaf collection of lines 19-44 is verified: the root is a node without resolvents, no node
reaches itself by one or more antecedent edges, every node is reachable from the root, the
resolvent sets are exactly the back-references of the antecedent edges, the two antecedents
of a derived node are distinct nodes, and a resolvent set holds each id once. -/
structure CollectGraph (g : ProofGraph) : Prop where
  root : ∃ r, g.getNode g.root = some r ∧ r.resolvents = []
  acyclic : ∀ n, ¬ Relation.TransGen (IsAnt g) n n
  reach : ∀ n node, g.getNode n = some node → Reachable g n
  back : ∀ n m node, g.getNode n = some node → (m ∈ node.resolvents ↔ IsAnt g m n)
  distinct : ∀ n node id1 id2 p, g.getNode n = some node → node.kind = .derived id1 id2 p →
    id1 ≠ id2
  nodup : ∀ n node, g.getNode n = some node → node.resolvents.Nodup
  ants : ∀ n m, IsAnt g n m → ∃ node, g.getNode m = some node

/-- Invariant of the loop of lines 23-44, for the state `s` and the list `E` of the nodes
expanded so far. -/
structure CollectInv (g : ProofGraph) (s : Collect) (E : List Nat) : Prop where
  len : s.visited_count.length = g.getGraphSize
  qnodes : ∀ x ∈ s.q, ∃ node, g.getNode x = some node
  nodup : E.Nodup
  nodes : ∀ x ∈ E, ∃ node, g.getNode x = some node
  bal : ∀ n node, g.getNode n = some node →
    s.visited_count[n]?.getD 0 + s.q.count n =
      (if n = g.root then 1 else 0) + expandedResolvents E node
  exp : ∀ n node, g.getNode n = some node → n ≠ g.root →
    (n ∈ E ↔ s.visited_count[n]?.getD 0 = node.getNumResolvents)
  expRoot : g.root ∈ E ↔ 1 ≤ s.visited_count[g.root]?.getD 0
  order : ∀ pre n post node, E = pre ++ n :: post → g.getNode n = some node →
    ∀ m ∈ node.resolvents, m ∈ pre
  leaves : s.proofleaves = E.filter (fun x =>
    match g.getNode x with
    | some node => node.isLeaf
    | none => false)

/-- A graph in which a derived node names the same node twice as antecedent: the leaves
are p (0) and ¬p (1); node 2 has leaf 0 as both antecedents, node 3 has the antecedents 0
and 1, and the root 4 has the antecedents 3 and 2. The resolvent sets are the
back-references of the antecedent pointers. -/
def sharedAntecedentGraph : ProofGraph :=
  { graph := [some { kind := .leaf, clause := [⟨0, false⟩], resolvents := [2, 3] },
              some { kind := .leaf, clause := [⟨0, true⟩], resolvents := [3] },
              some { kind := .derived 0 0 0, clause := [⟨0, false⟩], resolvents := [4] },
              some { kind := .derived 0 1 0, clause := [], resolvents := [4] },
              some { kind := .derived 3 2 0, clause := [], resolvents := [] }],
    root := 4, leaves_ids := [0, 1], visited_1 := [], visited_2 := [] }

/-! ## Theorems -/

theorem sortingLoop_ok_iff (c : List Lit) :
    sortingLoop c = .ok () ↔ c.Chain' (fun a b => a.var < b.var) := by
  induction c with
  | nil => simp [sortingLoop]
  | cons a t ih =>
    cases t with
    | nil => simp [sortingLoop]
    | cons b rest =>
      rw [sortingLoop, List.chain'_cons, ← ih]
      by_cases h1 : a.var > b.var
      · simp [h1]; omega
      · by_cases h2 : a.var = b.var
        · by_cases h3 : a.sign = b.sign <;> simp [h2, h3]
        · have : a.var < b.var := by omega
          simp [h1, h2, this]

theorem sortingLoop_malformed_or_ok (c : List Lit) :
    sortingLoop c = .ok () ∨ IsMalformed (sortingLoop c) := by
  induction c with
  | nil => simp [sortingLoop]
  | cons a t ih =>
    cases t with
    | nil => simp [sortingLoop]
    | cons b rest =>
      rw [sortingLoop]
      by_cases h1 : a.var > b.var
      · simp [h1, IsMalformed]
      · by_cases h2 : a.var = b.var
        · by_cases h3 : a.sign = b.sign <;> simp [h2, h3, IsMalformed]
        · simpa [h1, h2] using ih

theorem sortingLoop_first_violation (pre : List Lit) (a b : Lit) (post : List Lit)
    (hpre : (pre ++ [a]).Chain' (fun a b => a.var < b.var)) (hv : ¬ a.var < b.var) :
    sortingLoop (pre ++ a :: b :: post) =
      .error (.thrown (if b.var < a.var then .badSorting
        else if a.sign = b.sign then .repetition else .inconsistency)) := by
  induction pre with
  | nil =>
    simp only [List.nil_append]
    rw [sortingLoop]
    by_cases h1 : a.var > b.var
    · simp [h1]
    · have h2 : a.var = b.var := by omega
      by_cases h3 : a.sign = b.sign <;> simp [h2, h3]
  | cons x t ih =>
    cases t with
    | nil =>
      simp only [List.cons_append, List.nil_append] at hpre ⊢
      rw [List.chain'_cons] at hpre
      rw [sortingLoop]
      have hx : ¬ x.var > a.var := by omega
      have hx2 : ¬ x.var = a.var := by omega
      simp only [hx, hx2, if_false, false_and]
      exact ih (by simp)
    | cons y t2 =>
      simp only [List.cons_append] at hpre ⊢
      rw [List.chain'_cons] at hpre
      rw [sortingLoop]
      have hx : ¬ x.var > y.var := by omega
      have hx2 : ¬ x.var = y.var := by omega
      simp only [hx, hx2, if_false, false_and]
      exact ih hpre.2

theorem checkClauseSorting_eq (g : ProofGraph) (nid : Nat) (n : ProofNode)
    (hn : g.getNode nid = some n) : checkClauseSorting g nid = sortingLoop n.clause := by
  unfold checkClauseSorting
  rw [hn]
  simp only [ProofNode.getClauseSize]
  split
  · rename_i h
    rw [List.length_eq_zero] at h
    rw [h]; rfl
  · rfl

theorem checkShape_nonroot (g : ProofGraph) (nid : Nat) (n : ProofNode)
    (hr : nid ≠ g.root) (hne : n.clause ≠ []) :
    checkShape g nid n = checkClauseSorting g nid := by
  have hl : n.clause.length ≠ 0 := by simpa [List.length_eq_zero] using hne
  simp [checkShape, ProofGraph.isRoot, hr, ProofNode.getClauseSize, hl]

theorem checkShape_root (g : ProofGraph) (nid : Nat) (n : ProofNode)
    (hr : nid = g.root) (hne : n.clause ≠ []) :
    checkShape g nid n = .error (.thrown .sinkNotEmpty) := by
  have hl : n.clause.length ≠ 0 := by simpa [List.length_eq_zero] using hne
  simp [checkShape, ProofGraph.isRoot, hr, ProofNode.getClauseSize, hl]

theorem checkClause_of_shape_error (X : Externals) (g : ProofGraph) (nid : Nat) (n : ProofNode)
    (hn : g.getNode nid = some n) (e : Stop) (h : checkShape g nid n = .error e) :
    checkClause X g nid = .error e := by
  simp [checkClause, hn, h]

theorem checkClause_ok_parts (X : Externals) (g : ProofGraph) (nid : Nat) (n : ProofNode)
    (hn : g.getNode nid = some n) (h : checkClause X g nid = .ok ()) :
    checkShape g nid n = .ok () ∧ checkDerivation X g nid n = .ok () ∧
      checkResolvents g nid n.resolvents = .ok () := by
  simp only [checkClause, hn] at h
  cases h1 : checkShape g nid n with
  | error e => rw [h1] at h; cases h
  | ok u =>
    cases h2 : checkDerivation X g nid n with
    | error e => rw [h1, h2] at h; cases h
    | ok u2 =>
      rw [h1, h2] at h
      exact ⟨rfl, rfl, h⟩

theorem checkDerivation_not_malformed (X : Externals) (g : ProofGraph) (nid : Nat)
    (n : ProofNode) : ¬ IsMalformed (checkDerivation X g nid n) := by
  unfold checkDerivation IsMalformed
  cases n.kind with
  | leaf => simp
  | derived id1 id2 pivot =>
    simp only
    cases g.getNode id1 with
    | none => split_ifs <;> simp
    | some a1 =>
      cases g.getNode id2 with
      | none => split_ifs <;> simp
      | some a2 => repeat (first | split_ifs | simp)

theorem checkResolvents_not_malformed (g : ProofGraph) (nid : Nat) (rs : List Nat) :
    ¬ IsMalformed (checkResolvents g nid rs) := by
  induction rs with
  | nil => simp [checkResolvents, IsMalformed]
  | cons r rest ih =>
    unfold checkResolvents
    repeat' split
    all_goals first | exact ih | simp [IsMalformed]

theorem checkProof_keeps_nodes (X : Externals) (fuel : Nat) (g : ProofGraph) (b : Bool) :
    (checkProof X fuel g b).2.graph = g.graph := by
  unfold checkProof
  repeat' split
  all_goals first
    | rfl
    | (simp only []
       repeat' split
       all_goals rfl)

/-- C2 (as amended). For a node with a non-empty clause, checkClauseSorting completes
normally exactly when the variables of the clause are strictly increasing over every
adjacent pair; at the first adjacent pair violating this it throws bad sorting when the left
variable is larger, repetition when the variables are equal with equal polarity and
inconsistency when they are equal with opposite polarity. For every such node other than the
root, checkClause raises no malformed-clause error exactly when the clause is strictly
increasing, and an error of checkClauseSorting is the outcome of checkClause. At the root a
non-empty clause, sorted or not, is rejected before the sorting check as a sink that is not
empty. For every node, a normal completion of checkClause implies a strictly increasing
clause. The stored clause is never modified: checkClause and checkClauseSorting return an
outcome only, and the graph that a run of checkProof leaves behind, whatever its outcome,
stores the same node under the id. -/
theorem checkClause_sortedness (X : Externals) (g : ProofGraph) (nid : Nat) (n : ProofNode)
    (hn : g.getNode nid = some n) (hne : n.clause ≠ []) :
    (checkClauseSorting g nid = .ok () ↔ n.clause.Chain' (fun a b => a.var < b.var)) ∧
    (∀ pre a b post, n.clause = pre ++ a :: b :: post →
        (pre ++ [a]).Chain' (fun a b => a.var < b.var) → ¬ a.var < b.var →
        (b.var < a.var → checkClauseSorting g nid = .error (.thrown .badSorting)) ∧
        (a.var = b.var → a.sign = b.sign →
          checkClauseSorting g nid = .error (.thrown .repetition)) ∧
        (a.var = b.var → a.sign ≠ b.sign →
          checkClauseSorting g nid = .error (.thrown .inconsistency))) ∧
    (nid ≠ g.root →
        (¬ IsMalformed (checkClause X g nid) ↔ n.clause.Chain' (fun a b => a.var < b.var)) ∧
        (∀ e, checkClauseSorting g nid = .error e → checkClause X g nid = .error e)) ∧
    (nid = g.root → checkClause X g nid = .error (.thrown .sinkNotEmpty)) ∧
    (checkClause X g nid = .ok () → n.clause.Chain' (fun a b => a.var < b.var)) ∧
    (∀ fuel b, (checkProof X fuel g b).2.getNode nid = some n) := by
  have hs := checkClauseSorting_eq g nid n hn
  refine ⟨?_, ?_, ?_, ?_, ?_, ?_⟩
  · rw [hs]; exact sortingLoop_ok_iff _
  · intro pre a b post hc hpre hv
    rw [hs, hc, sortingLoop_first_violation pre a b post hpre hv]
    refine ⟨?_, ?_, ?_⟩
    · intro h; simp [h]
    · intro h1 h2
      have : ¬ b.var < a.var := by omega
      simp [this, h2]
    · intro h1 h2
      have : ¬ b.var < a.var := by omega
      simp [this, h2]
  · intro hr
    have hsh := checkShape_nonroot g nid n hr hne
    have herr : ∀ e, checkClauseSorting g nid = .error e → checkClause X g nid = .error e := by
      intro e he
      exact checkClause_of_shape_error X g nid n hn e (by rw [hsh]; exact he)
    refine ⟨?_, herr⟩
    rw [← sortingLoop_ok_iff, ← hs]
    constructor
    · intro hm
      rcases sortingLoop_malformed_or_ok n.clause with h | h
      · rw [hs]; exact h
      · exfalso
        apply hm
        rw [← hs] at h
        rcases h with h | h | h
        · rw [herr _ h]; exact Or.inl rfl
        · rw [herr _ h]; exact Or.inr (Or.inl rfl)
        · rw [herr _ h]; exact Or.inr (Or.inr rfl)
    · intro hok hm
      simp only [checkClause, hn, hsh, hok] at hm
      split at hm
      · rename_i e he
        exact checkDerivation_not_malformed X g nid n (by rw [he]; exact hm)
      · exact checkResolvents_not_malformed g nid _ hm
  · intro hr
    exact checkClause_of_shape_error X g nid n hn _ (checkShape_root g nid n hr hne)
  · intro hok
    have h1 := (checkClause_ok_parts X g nid n hn hok).1
    by_cases hr : nid = g.root
    · rw [checkShape_root g nid n hr hne] at h1; cases h1
    · rw [checkShape_nonroot g nid n hr hne, hs] at h1
      exact (sortingLoop_ok_iff _).1 h1
  · intro fuel b
    unfold ProofGraph.getNode at hn ⊢
    rw [checkProof_keeps_nodes]
    exact hn
theorem clauseDiffers_self (c : List Lit) : clauseDiffers c c = false := by
  induction c with
  | nil => rfl
  | cons a t ih => simp [clauseDiffers, ih]

theorem eq_of_clauseDiffers_false : ∀ (c v : List Lit), c.length = v.length →
    clauseDiffers c v = false → c = v
  | [], [], _, _ => rfl
  | [], _ :: _, hl, _ => by simp at hl
  | _ :: _, [], hl, _ => by simp at hl
  | a :: as, b :: bs, hl, hd => by
    simp only [clauseDiffers, Bool.or_eq_false_iff, bne_eq_false_iff_eq] at hd
    simp only [List.length_cons, add_left_inj] at hl
    rw [hd.1, eq_of_clauseDiffers_false as bs hl hd.2]

theorem checkDerivation_derived (X : Externals) (g : ProofGraph) (nid : Nat) (n : ProofNode)
    (id1 id2 pivot : Nat) (a1 a2 : ProofNode) (hk : n.kind = .derived id1 id2 pivot)
    (hne : n.clause ≠ []) (hs1 : nid ≠ id1) (hs2 : nid ≠ id2)
    (h1 : g.getNode id1 = some a1) (h2 : g.getNode id2 = some a2) :
    checkDerivation X g nid n =
      if n.clause ≠ X.mergeClauses a1.clause a2.clause pivot then
        .error (.thrown .derivationMismatch)
      else if X.hasOccurrenceBin a1 pivot = -1 then .error (.assertion 156)
      else if X.hasOccurrenceBin a2 pivot = -1 then .error (.assertion 157)
      else if X.hasOccurrenceBin a1 pivot = X.hasOccurrenceBin a2 pivot then
        .error (.assertion 158)
      else .ok () := by
  have hl : n.clause.length ≠ 0 := by simpa [List.length_eq_zero] using hne
  simp only [checkDerivation, hk, h1, h2, ProofNode.getClauseSize]
  simp only [hs1, hs2, hl, ne_eq, not_false_eq_true, and_self, not_true_eq_false, if_false,
    if_true, not_not]
  by_cases hlen : (X.mergeClauses a1.clause a2.clause pivot).length = n.clause.length
  · by_cases hd : clauseDiffers n.clause (X.mergeClauses a1.clause a2.clause pivot) = true
    · have hneq : n.clause ≠ X.mergeClauses a1.clause a2.clause pivot := by
        intro h
        rw [← h, clauseDiffers_self] at hd
        cases hd
      simp [hlen, hd, hneq]
    · have heq : n.clause = X.mergeClauses a1.clause a2.clause pivot :=
        eq_of_clauseDiffers_false _ _ hlen.symm (by simpa using hd)
      have hd2 : clauseDiffers n.clause (X.mergeClauses a1.clause a2.clause pivot) = false := by
        simpa using hd
      rw [if_neg (not_not.2 hlen), hd2, if_neg Bool.false_ne_true,
        if_neg (not_not.2 heq)]
  · have hneq : n.clause ≠ X.mergeClauses a1.clause a2.clause pivot := by
      intro h
      rw [← h] at hlen
      exact hlen rfl
    simp [hlen, hneq]

theorem checkDerivation_ok_derived (X : Externals) (g : ProofGraph) (nid : Nat) (n : ProofNode)
    (id1 id2 pivot : Nat) (hk : n.kind = .derived id1 id2 pivot)
    (h : checkDerivation X g nid n = .ok ()) :
    nid ≠ id1 ∧ nid ≠ id2 ∧ ∃ a1 a2, g.getNode id1 = some a1 ∧ g.getNode id2 = some a2 := by
  simp only [checkDerivation, hk] at h
  by_cases hs : nid ≠ id1 ∧ nid ≠ id2
  · refine ⟨hs.1, hs.2, ?_⟩
    cases h1 : g.getNode id1 with
    | none => simp [hs, h1] at h
    | some a1 =>
      cases h2 : g.getNode id2 with
      | none => simp [hs, h1, h2] at h
      | some a2 => exact ⟨a1, a2, rfl, rfl⟩
  · simp [hs] at h

theorem checkClause_of_derivation_error (X : Externals) (g : ProofGraph) (nid : Nat)
    (n : ProofNode) (hn : g.getNode nid = some n) (e : Stop)
    (hsh : checkShape g nid n = .ok ()) (h : checkDerivation X g nid n = .error e) :
    checkClause X g nid = .error e := by
  simp [checkClause, hn, hsh, h]

/-- C4. For a derived node with a non-empty clause, checkClause completes normally only if
hasOccurrenceBin finds the pivot in both antecedents (neither result is -1) and the two
results differ (opposite polarity); otherwise checkClause does not complete normally, and
once every earlier check has passed the stop is the failed assertion of line 156, 157
or 158. -/
theorem checkClause_pivot_occurrence (X : Externals) (g : ProofGraph) (nid : Nat)
    (n : ProofNode) (id1 id2 pivot : Nat) (hn : g.getNode nid = some n)
    (hk : n.kind = .derived id1 id2 pivot) (hne : n.clause ≠ []) :
    (checkClause X g nid = .ok () → ∃ a1 a2, g.getNode id1 = some a1 ∧
        g.getNode id2 = some a2 ∧ X.hasOccurrenceBin a1 pivot ≠ -1 ∧
        X.hasOccurrenceBin a2 pivot ≠ -1 ∧
        X.hasOccurrenceBin a1 pivot ≠ X.hasOccurrenceBin a2 pivot) ∧
    (∀ a1 a2, g.getNode id1 = some a1 → g.getNode id2 = some a2 →
        ¬ (X.hasOccurrenceBin a1 pivot ≠ -1 ∧ X.hasOccurrenceBin a2 pivot ≠ -1 ∧
            X.hasOccurrenceBin a1 pivot ≠ X.hasOccurrenceBin a2 pivot) →
        checkClause X g nid ≠ .ok () ∧
        (checkShape g nid n = .ok () → nid ≠ id1 → nid ≠ id2 →
          n.clause = X.mergeClauses a1.clause a2.clause pivot →
          checkClause X g nid = .error (.assertion 156) ∨
          checkClause X g nid = .error (.assertion 157) ∨
          checkClause X g nid = .error (.assertion 158))) := by
  have key : ∀ a1 a2, g.getNode id1 = some a1 → g.getNode id2 = some a2 →
      checkClause X g nid = .ok () → X.hasOccurrenceBin a1 pivot ≠ -1 ∧
        X.hasOccurrenceBin a2 pivot ≠ -1 ∧
        X.hasOccurrenceBin a1 pivot ≠ X.hasOccurrenceBin a2 pivot := by
    intro a1 a2 h1 h2 hok
    obtain ⟨_, hd, _⟩ := checkClause_ok_parts X g nid n hn hok
    obtain ⟨hs1, hs2, _⟩ := checkDerivation_ok_derived X g nid n id1 id2 pivot hk hd
    rw [checkDerivation_derived X g nid n id1 id2 pivot a1 a2 hk hne hs1 hs2 h1 h2] at hd
    split_ifs at hd with c1 c2 c3 c4
    exact ⟨c2, c3, c4⟩
  constructor
  · intro hok
    obtain ⟨_, hd, _⟩ := checkClause_ok_parts X g nid n hn hok
    obtain ⟨_, _, a1, a2, h1, h2⟩ := checkDerivation_ok_derived X g nid n id1 id2 pivot hk hd
    exact ⟨a1, a2, h1, h2, key a1 a2 h1 h2 hok⟩
  · intro a1 a2 h1 h2 hbad
    refine ⟨fun hok => hbad (key a1 a2 h1 h2 hok), ?_⟩
    intro hsh hs1 hs2 heq
    have hd := checkDerivation_derived X g nid n id1 id2 pivot a1 a2 hk hne hs1 hs2 h1 h2
    rw [if_neg (by simp [heq])] at hd
    by_cases c2 : X.hasOccurrenceBin a1 pivot = -1
    · rw [if_pos c2] at hd
      exact Or.inl (checkClause_of_derivation_error X g nid n hn _ hsh hd)
    · rw [if_neg c2] at hd
      by_cases c3 : X.hasOccurrenceBin a2 pivot = -1
      · rw [if_pos c3] at hd
        exact Or.inr (Or.inl (checkClause_of_derivation_error X g nid n hn _ hsh hd))
      · rw [if_neg c3] at hd
        by_cases c4 : X.hasOccurrenceBin a1 pivot = X.hasOccurrenceBin a2 pivot
        · rw [if_pos c4] at hd
          exact Or.inr (Or.inr (checkClause_of_derivation_error X g nid n hn _ hsh hd))
        · exact absurd ⟨c2, c3, c4⟩ hbad

theorem checkDerivation_not_thrown_shape (X : Externals) (g : ProofGraph) (nid : Nat)
    (n : ProofNode) :
    checkDerivation X g nid n ≠ .error (.thrown .sinkNotEmpty) ∧
      checkDerivation X g nid n ≠ .error (.thrown .emptyOriginal) := by
  unfold checkDerivation
  cases n.kind with
  | leaf => simp
  | derived id1 id2 pivot =>
    simp only
    cases g.getNode id1 with
    | none => split_ifs <;> simp
    | some a1 =>
      cases g.getNode id2 with
      | none => split_ifs <;> simp
      | some a2 => repeat (first | split_ifs | simp)

theorem checkResolvents_not_thrown_shape (g : ProofGraph) (nid : Nat) (rs : List Nat) :
    checkResolvents g nid rs ≠ .error (.thrown .sinkNotEmpty) ∧
      checkResolvents g nid rs ≠ .error (.thrown .emptyOriginal) := by
  induction rs with
  | nil => simp [checkResolvents]
  | cons r rest ih =>
    unfold checkResolvents
    repeat' split
    all_goals first | exact ih | simp

/-- C5. For every node of the graph, checkClause throws the sink error if the node is the
root and its clause is non-empty, and throws the empty-original error if the clause is
empty and the node is a leaf; a derived node with an empty clause, root or not, raises
neither of these two errors. -/
theorem checkClause_invalid_sink (X : Externals) (g : ProofGraph) (nid : Nat) (n : ProofNode)
    (hn : g.getNode nid = some n) :
    (nid = g.root → n.clause ≠ [] → checkClause X g nid = .error (.thrown .sinkNotEmpty)) ∧
    (n.clause = [] → n.isLeaf = true →
      checkClause X g nid = .error (.thrown .emptyOriginal)) ∧
    (n.clause = [] → n.isLeaf = false →
      checkClause X g nid ≠ .error (.thrown .sinkNotEmpty) ∧
      checkClause X g nid ≠ .error (.thrown .emptyOriginal)) := by
  refine ⟨?_, ?_, ?_⟩
  · intro hr hne
    exact checkClause_of_shape_error X g nid n hn _ (checkShape_root g nid n hr hne)
  · intro hc hl
    apply checkClause_of_shape_error X g nid n hn
    have ht : n.getType = .CLA_ORIG := by
      unfold ProofNode.isLeaf at hl
      unfold ProofNode.getType
      cases hkind : n.kind <;> simp_all
    simp [checkShape, ProofNode.getClauseSize, hc, ht]
  · intro hc hl
    have ht : n.getType ≠ .CLA_ORIG := by
      unfold ProofNode.isLeaf at hl
      unfold ProofNode.getType
      cases hkind : n.kind <;> simp_all
    have hsh : checkShape g nid n = .ok () := by
      simp [checkShape, ProofNode.getClauseSize, hc, ht]
    simp only [checkClause, hn, hsh]
    cases hd : checkDerivation X g nid n with
    | error e =>
      have := checkDerivation_not_thrown_shape X g nid n
      rw [hd] at this
      simpa using this
    | ok u => exact checkResolvents_not_thrown_shape g nid n.resolvents
theorem evalClauses_congr (a b : Nat → Bool) (F : List (List Lit))
    (h : ∀ x ∈ F.flatten.map Lit.var, a x = b x) : evalClauses a F = evalClauses b F := by
  have hl : ∀ c ∈ F, ∀ l ∈ c, Lit.eval a l = Lit.eval b l := by
    intro c hc l hl
    unfold Lit.eval
    rw [h l.var]
    simp only [List.mem_map, List.mem_flatten]
    exact ⟨l, ⟨c, hc, hl⟩, rfl⟩
  unfold evalClauses evalClause
  rw [Bool.eq_iff_iff]
  simp only [List.all_eq_true, List.any_eq_true]
  constructor
  · intro h1 c hc
    obtain ⟨l, hlc, he⟩ := h1 c hc
    exact ⟨l, hlc, by rw [← hl c hc l hlc]; exact he⟩
  · intro h1 c hc
    obtain ⟨l, hlc, he⟩ := h1 c hc
    exact ⟨l, hlc, by rw [hl c hc l hlc]; exact he⟩

theorem refutedOn_iff (vs : List Nat) (F : List (List Lit)) : ∀ a : Nat → Bool,
    refutedOn vs a F = true ↔
      ∀ b : Nat → Bool, (∀ x, x ∉ vs → b x = a x) → evalClauses b F = false := by
  induction vs with
  | nil =>
    intro a
    simp only [refutedOn, Bool.not_eq_true', List.not_mem_nil, not_false_eq_true, true_implies]
    constructor
    · intro h b hb
      have : b = a := funext hb
      rw [this]; exact h
    · intro h
      exact h a (fun _ => rfl)
  | cons v vs ih =>
    intro a
    simp only [refutedOn, Bool.and_eq_true, ih]
    constructor
    · rintro ⟨ht, hf⟩ b hb
      have hagree : ∀ t, b v = t → ∀ x, x ∉ vs → b x = Function.update a v t x := by
        intro t hv x hx
        by_cases hxv : x = v
        · subst hxv; simp [hv]
        · rw [Function.update_noteq hxv]
          exact hb x (by simp [hxv, hx])
      cases hv : b v with
      | true => exact ht b (hagree true hv)
      | false => exact hf b (hagree false hv)
    · intro h
      constructor
      · intro b hb
        apply h b
        intro x hx
        simp only [List.mem_cons, not_or] at hx
        rw [hb x hx.2, Function.update_noteq hx.1]
      · intro b hb
        apply h b
        intro x hx
        simp only [List.mem_cons, not_or] at hx
        rw [hb x hx.2, Function.update_noteq hx.1]

theorem specExternals_exact : OracleExact specExternals := by
  intro F
  show impliesFalse F = true ↔ _
  unfold impliesFalse
  rw [refutedOn_iff]
  constructor
  · intro h a
    have := h (fun x => if x ∈ F.flatten.map Lit.var then a x else false)
      (fun x hx => by simp only [hx, if_false])
    rw [← this]
    apply evalClauses_congr
    intro x hx
    simp only [hx, if_true]
  · intro h b _
    exact h b
/-- C1. On the three-node graph of the acceptance test (leaf 0 with clause ¬p, leaf 1 with
clause p, derived root 2 with antecedents 0 and 1, pivot p and the empty clause, resolvent
sets {2}, {2}, {} and declared leaves {0, 1}), checkProof(true) completes normally (with any
fuel of at least 4) and leaves the graph as it was, and verifyLeavesInconsistency completes
normally (with any fuel of at least 3) whenever the entailment oracle is sound and
complete. -/
theorem acceptance_graph_passes (X : Externals) (hX : OracleExact X) (k : Nat) :
    checkProof X (k + 4) acceptanceGraph true = (.ok (), acceptanceGraph) ∧
    verifyLeavesInconsistency X (k + 3) acceptanceGraph = .ok () := by
  refine ⟨rfl, ?_⟩
  have hc : collectLeaves acceptanceGraph (k + 3) =
      .ok { q := [], visited_count := [1, 1, 1], proofleaves := [1, 0] } := rfl
  have hl : leafClauses acceptanceGraph acceptanceGraph.leaves_ids =
      .ok [[⟨0, true⟩], [⟨0, false⟩]] := rfl
  have ho : X.impliesFalse [[⟨0, true⟩], [⟨0, false⟩]] = true := by
    rw [hX]
    intro a
    cases h : a 0 <;> simp [evalClauses, evalClause, Lit.eval, h]
  simp only [verifyLeavesInconsistency, hc, hl, ho, not_true_eq_false, if_false]

theorem acceptance_graph_passes_witness :
    OracleExact specExternals ∧
    checkProof specExternals 4 acceptanceGraph true = (.ok (), acceptanceGraph) ∧
    verifyLeavesInconsistency specExternals 3 acceptanceGraph = .ok () :=
  ⟨specExternals_exact, acceptance_graph_passes specExternals specExternals_exact 0⟩

theorem checkClause_sortedness_witness :
    checkClauseSorting
        (replaceNode chainGraph 0
          { kind := .leaf, clause := [⟨1, false⟩, ⟨0, false⟩], resolvents := [2] }) 0 =
      .error (.thrown .badSorting) ∧
    checkClause specExternals
        (replaceNode chainGraph 0
          { kind := .leaf, clause := [⟨1, false⟩, ⟨0, false⟩], resolvents := [2] }) 0 =
      .error (.thrown .badSorting) :=
  have h := checkClause_sortedness specExternals
    (replaceNode chainGraph 0
      { kind := .leaf, clause := [⟨1, false⟩, ⟨0, false⟩], resolvents := [2] }) 0
    { kind := .leaf, clause := [⟨1, false⟩, ⟨0, false⟩], resolvents := [2] } rfl (by decide)
  have hb := (h.2.1 [] ⟨1, false⟩ ⟨0, false⟩ [] rfl (by simp) (by decide)).1 (by decide)
  ⟨hb, (h.2.2.1 (by decide)).2 _ hb⟩

/-- C2 (as stated) fails at the root: the root 4 of the graph stores the non-empty clause
q ∨ p, whose only adjacent pair has the larger variable on the left, and checkClause throws
the sink-not-empty error of lines 105-110 on it, which is no malformed-clause error:
checkClauseSorting is not reached, so there is no bad-sorting throw although the clause is
not strictly increasing. -/
theorem checkClause_root_unsorted_not_malformed :
    (replaceNode chainGraph 4
      { kind := .derived 2 3 1, clause := [⟨1, false⟩, ⟨0, false⟩], resolvents := [] }).root =
      4 ∧
    (replaceNode chainGraph 4
      { kind := .derived 2 3 1, clause := [⟨1, false⟩, ⟨0, false⟩],
        resolvents := [] }).getNode 4 =
      some { kind := .derived 2 3 1, clause := [⟨1, false⟩, ⟨0, false⟩], resolvents := [] } ∧
    ¬ List.Chain' (fun a b : Lit => a.var < b.var) [⟨1, false⟩, ⟨0, false⟩] ∧
    checkClause specExternals
      (replaceNode chainGraph 4
        { kind := .derived 2 3 1, clause := [⟨1, false⟩, ⟨0, false⟩], resolvents := [] }) 4 =
      .error (.thrown .sinkNotEmpty) ∧
    checkClause specExternals
      (replaceNode chainGraph 4
        { kind := .derived 2 3 1, clause := [⟨1, false⟩, ⟨0, false⟩], resolvents := [] }) 4 ≠
      .error (.thrown .badSorting) ∧
    ¬ IsMalformed (checkClause specExternals
      (replaceNode chainGraph 4
        { kind := .derived 2 3 1, clause := [⟨1, false⟩, ⟨0, false⟩], resolvents := [] }) 4) := by
  have h : checkClause specExternals
      (replaceNode chainGraph 4
        { kind := .derived 2 3 1, clause := [⟨1, false⟩, ⟨0, false⟩], resolvents := [] }) 4 =
      .error (.thrown .sinkNotEmpty) := rfl
  refine ⟨rfl, rfl, by simp, h, ?_, ?_⟩
  · rw [h]
    intro hc
    cases hc
  · rw [h]
    simp [IsMalformed]

theorem checkClause_pivot_occurrence_witness :
    checkClause specExternals
        (replaceNode chainGraph 2
          { kind := .derived 1 3 5, clause := [⟨0, true⟩, ⟨1, true⟩], resolvents := [4] }) 2 ≠
      .ok () ∧
    (checkClause specExternals
        (replaceNode chainGraph 2
          { kind := .derived 1 3 5, clause := [⟨0, true⟩, ⟨1, true⟩], resolvents := [4] }) 2 =
      .error (.assertion 156) ∨
    checkClause specExternals
        (replaceNode chainGraph 2
          { kind := .derived 1 3 5, clause := [⟨0, true⟩, ⟨1, true⟩], resolvents := [4] }) 2 =
      .error (.assertion 157) ∨
    checkClause specExternals
        (replaceNode chainGraph 2
          { kind := .derived 1 3 5, clause := [⟨0, true⟩, ⟨1, true⟩], resolvents := [4] }) 2 =
      .error (.assertion 158)) :=
  have h := (checkClause_pivot_occurrence specExternals
    (replaceNode chainGraph 2
      { kind := .derived 1 3 5, clause := [⟨0, true⟩, ⟨1, true⟩], resolvents := [4] }) 2
    { kind := .derived 1 3 5, clause := [⟨0, true⟩, ⟨1, true⟩], resolvents := [4] } 1 3 5
    rfl rfl (by decide)).2 _ _ rfl rfl (by decide)
  ⟨h.1, h.2 rfl (by decide) (by decide) (by decide)⟩

theorem checkClause_invalid_sink_witness :
    checkClause specExternals
        (replaceNode chainGraph 4
          { kind := .derived 2 3 1, clause := [⟨1, false⟩], resolvents := [] }) 4 =
      .error (.thrown .sinkNotEmpty) :=
  (checkClause_invalid_sink specExternals
    (replaceNode chainGraph 4
      { kind := .derived 2 3 1, clause := [⟨1, false⟩], resolvents := [] }) 4
    { kind := .derived 2 3 1, clause := [⟨1, false⟩], resolvents := [] } rfl).1 rfl (by decide)
theorem topDownLoop_ok_q (g : ProofGraph) : ∀ (fuel : Nat) (s s2 : TopDown),
    topDownLoop g fuel s = (.ok (), s2) → s2.q = [] := by
  intro fuel
  induction fuel with
  | zero => intro s s2 h; simp [topDownLoop] at h
  | succ k ih =>
    intro s s2 h
    simp only [topDownLoop] at h
    cases hs : topDownStep g s with
    | error e => rw [hs] at h; simp at h
    | ok s3 =>
      rw [hs] at h
      simp only at h
      by_cases hq : s3.q.isEmpty
      · rw [if_pos hq] at h
        simp only [Prod.mk.injEq, true_and] at h
        rw [← h]
        simpa using hq
      · rw [if_neg hq] at h
        exact ih s3 s2 h

theorem bottomUpLoop_invariant (X : Externals) (g : ProofGraph) (b : Bool)
    (P : BottomUp → Prop)
    (hstep : ∀ s s2, P s → bottomUpStep X g b s = .ok s2 → P s2) :
    ∀ (fuel : Nat) (s s2 : BottomUp), P s →
      bottomUpLoop X g b fuel s = (.ok (), s2) → P s2 ∧ s2.q = [] := by
  intro fuel
  induction fuel with
  | zero => intro s s2 _ h; simp [bottomUpLoop] at h
  | succ k ih =>
    intro s s2 hP h
    simp only [bottomUpLoop] at h
    cases hs : bottomUpStep X g b s with
    | error e => rw [hs] at h; simp at h
    | ok s3 =>
      rw [hs] at h
      simp only at h
      by_cases hq : s3.q.isEmpty
      · rw [if_pos hq] at h
        simp only [Prod.mk.injEq, true_and] at h
        rw [← h]
        exact ⟨hstep s s3 hP hs, by simpa using hq⟩
      · rw [if_neg hq] at h
        exact ih s3 s2 (hstep s s3 hP hs) h

/-- What a successful iteration of the bottom-up loop does. -/
theorem bottomUpStep_ok (X : Externals) (g : ProofGraph) (b : Bool) (s s2 : BottomUp)
    (h : bottomUpStep X g b s = .ok s2) :
    ∃ id q node, s.q = id :: q ∧ g.getNode id = some node ∧
      s2.visited_1 = id :: s.visited_1 ∧
      ((node.kind = .leaf ∧ s2.q = q) ∨
       (∃ id1 id2 pivot, node.kind = .derived id1 id2 pivot ∧ id1 ≠ id2 ∧
          (b = true → checkClause X g id = .ok ()) ∧
          s2.q = if id ∉ s.visited_1 then id2 :: id1 :: q else q)) := by
  unfold bottomUpStep at h
  cases hq : s.q with
  | nil => rw [hq] at h; simp at h
  | cons id q =>
    rw [hq] at h
    simp only at h
    cases hn : g.getNode id with
    | none => rw [hn] at h; simp at h
    | some node =>
      rw [hn] at h
      simp only at h
      refine ⟨id, q, node, rfl, hn, ?_⟩
      cases hk : node.kind with
      | leaf =>
        rw [hk] at h
        simp only [Except.ok.injEq] at h
        rw [← h]
        exact ⟨rfl, Or.inl ⟨rfl, rfl⟩⟩
      | derived id1 id2 pivot =>
        rw [hk] at h
        simp only at h
        by_cases hd : id1 ≠ id2
        · rw [if_neg (not_not.2 hd)] at h
          cases b with
          | false =>
            simp only [Bool.false_eq_true, if_false, Except.ok.injEq] at h
            rw [← h]
            exact ⟨rfl, Or.inr ⟨id1, id2, pivot, rfl, hd, by simp, rfl⟩⟩
          | true =>
            simp only [if_true] at h
            cases hc : checkClause X g id with
            | error e => rw [hc] at h; simp at h
            | ok u =>
              rw [hc] at h
              simp only [Except.ok.injEq] at h
              rw [← h]
              exact ⟨rfl, Or.inr ⟨id1, id2, pivot, rfl, hd, fun _ => rfl, rfl⟩⟩
        · rw [if_pos hd] at h; simp at h
theorem consistencyLoop_ok (v1 v2 : List Nat) : ∀ l : List Nat,
    consistencyLoop v1 v2 l = .ok () → ∀ u ∈ l, (u ∈ v1 ↔ u ∈ v2) := by
  intro l
  induction l with
  | nil => intro _ u hu; simp at hu
  | cons x rest ih =>
    intro h u hu
    unfold consistencyLoop at h
    split_ifs at h with c1 c2
    rcases List.mem_cons.1 hu with rfl | hr
    · constructor
      · intro hx; by_contra hn; exact c1 ⟨hx, hn⟩
      · intro hx; by_contra hn; exact c2 ⟨hn, hx⟩
    · exact ih h u hr

theorem detachedLoop_ok (v1 : List Nat) : ∀ l : List Nat,
    detachedLoop v1 l = .ok () → ∀ u ∈ l, u ∈ v1 := by
  intro l
  induction l with
  | nil => intro _ u hu; simp at hu
  | cons x rest ih =>
    intro h u hu
    unfold detachedLoop at h
    split_ifs at h with c1
    rcases List.mem_cons.1 hu with rfl | hr
    · exact c1
    · exact ih h u hr

/-- The parts of a run of checkProof that completes normally. -/
theorem checkProof_ok (X : Externals) (fuel : Nat) (g : ProofGraph) (b : Bool)
    (h : (checkProof X fuel g b).1 = .ok ()) :
    ∃ td bu, topDownLoop g fuel (topDownInit g) = (.ok (), td) ∧
      bottomUpLoop X g b fuel { q := [g.root], visited_1 := g.visited_1 } = (.ok (), bu) ∧
      bu.q = [] ∧
      consistencyLoop bu.visited_1 td.visited_2 (List.range g.getGraphSize) = .ok () ∧
      detachedLoop bu.visited_1 g.leaves_ids = .ok () ∧
      (checkProof X fuel g b).2 = { g with visited_1 := [], visited_2 := [] } := by
  unfold checkProof at h ⊢
  rcases hA : topDownLoop g fuel (topDownInit g) with ⟨r, td⟩
  rw [hA] at h
  cases r with
  | error e => simp at h
  | ok u =>
    have hq := topDownLoop_ok_q g fuel _ td hA
    simp only [hq, List.reverse_nil] at h ⊢
    cases hr : g.getNode g.root with
    | none => rw [hr] at h; simp at h
    | some rn =>
      rw [hr] at h
      simp only at h ⊢
      rcases hB : bottomUpLoop X g b fuel { q := [g.root], visited_1 := g.visited_1 }
        with ⟨r2, bu⟩
      rw [hB] at h
      cases r2 with
      | error e => simp at h
      | ok u2 =>
        simp only at h ⊢
        have hbq := (bottomUpLoop_invariant X g b (fun _ => True) (fun _ _ _ _ => trivial)
          fuel _ bu trivial hB).2
        cases hC : consistencyLoop bu.visited_1 td.visited_2 (List.range g.getGraphSize) with
        | error e => rw [hC] at h; simp at h
        | ok u3 =>
          rw [hC] at h
          simp only at h ⊢
          cases hD : detachedLoop bu.visited_1 g.leaves_ids with
          | error e => rw [hD] at h; simp at h
          | ok u4 =>
            refine ⟨td, bu, rfl, rfl, hbq, hC, hD, ?_⟩
            simp [hD, ProofGraph.resetVisited1, ProofGraph.resetVisited2]

theorem bottomUp_visited_reachable (X : Externals) (g : ProofGraph) (b : Bool) (fuel : Nat)
    (bu : BottomUp)
    (h : bottomUpLoop X g b fuel { q := [g.root], visited_1 := [] } = (.ok (), bu)) :
    ∀ x ∈ bu.visited_1, Reachable g x := by
  have key := bottomUpLoop_invariant X g b
    (fun s => (∀ x ∈ s.q, Reachable g x) ∧ (∀ x ∈ s.visited_1, Reachable g x)) ?_
    fuel _ bu ?_ h
  · exact key.1.2
  · rintro s s2 ⟨hq, hv⟩ hs
    obtain ⟨id, q, node, hsq, hn, hv2, hcase⟩ := bottomUpStep_ok X g b s s2 hs
    have hid : Reachable g id := hq id (by rw [hsq]; simp)
    have hqq : ∀ x ∈ q, Reachable g x := fun x hx => hq x (by rw [hsq]; simp [hx])
    constructor
    · rcases hcase with ⟨_, h2⟩ | ⟨id1, id2, pivot, hk, _, _, h2⟩
      · rw [h2]; exact hqq
      · rw [h2]
        intro x hx
        split_ifs at hx
        · exact hqq x hx
        · simp only [List.mem_cons] at hx
          rcases hx with rfl | rfl | hx
          · exact Relation.ReflTransGen.tail hid ⟨node, id1, x, pivot, hn, hk, Or.inr rfl⟩
          · exact Relation.ReflTransGen.tail hid ⟨node, x, id2, pivot, hn, hk, Or.inl rfl⟩
          · exact hqq x hx
    · rw [hv2]
      intro x hx
      rcases List.mem_cons.1 hx with rfl | hx
      · exact hid
      · exact hv x hx
  · constructor
    · intro x hx
      simp only [List.mem_singleton] at hx
      rw [hx]
      exact Relation.ReflTransGen.refl
    · intro x hx; simp at hx

/-- C6. If checkProof is entered with the markers of the bottom-up pass clear and completes
normally, for either value of check_clauses, then every id in the declared leaf set is
reachable from the root by following antecedent edges. -/
theorem checkProof_leaves_reachable (X : Externals) (fuel : Nat) (g : ProofGraph) (b : Bool)
    (hv : g.visited_1 = []) (h : (checkProof X fuel g b).1 = .ok ()) :
    ∀ l ∈ g.leaves_ids, Reachable g l := by
  obtain ⟨td, bu, _, hB, _, _, hD, _⟩ := checkProof_ok X fuel g b h
  rw [hv] at hB
  intro l hl
  exact bottomUp_visited_reachable X g b fuel bu hB l (detachedLoop_ok _ _ hD l hl)

theorem checkProof_leaves_reachable_witness :
    chainGraph.visited_1 = [] ∧ (checkProof specExternals 8 chainGraph true).1 = .ok () ∧
      ∀ l ∈ chainGraph.leaves_ids, Reachable chainGraph l :=
  ⟨rfl, rfl, checkProof_leaves_reachable specExternals 8 chainGraph true rfl rfl⟩

/-- C8. If checkProof is entered with both marker sets clear and completes normally, for
either value of check_clauses, then on return both marker sets are clear again and the
graph is unchanged, so a second call with the same argument completes normally too. -/
theorem checkProof_idempotent (X : Externals) (fuel : Nat) (g : ProofGraph) (b : Bool)
    (hv1 : g.visited_1 = []) (hv2 : g.visited_2 = [])
    (h : (checkProof X fuel g b).1 = .ok ()) :
    (checkProof X fuel g b).2.visited_1 = [] ∧ (checkProof X fuel g b).2.visited_2 = [] ∧
    (checkProof X fuel g b).2 = g ∧
    (checkProof X fuel (checkProof X fuel g b).2 b).1 = .ok () := by
  obtain ⟨td, bu, _, _, _, _, _, hg⟩ := checkProof_ok X fuel g b h
  have hgg : (checkProof X fuel g b).2 = g := by
    rw [hg]
    cases g
    simp only at hv1 hv2
    simp [hv1, hv2]
  refine ⟨?_, ?_, hgg, ?_⟩
  · rw [hgg]; exact hv1
  · rw [hgg]; exact hv2
  · rw [hgg]; exact h

theorem checkProof_idempotent_witness :
    (checkProof specExternals 8 chainGraph true).2 = chainGraph ∧
    (checkProof specExternals 8 (checkProof specExternals 8 chainGraph true).2 true).1 =
      .ok () :=
  have h := checkProof_idempotent specExternals 8 chainGraph true rfl rfl rfl
  ⟨h.2.2.1, h.2.2.2⟩
theorem bottomUp_closed (X : Externals) (g : ProofGraph) (b : Bool) (fuel : Nat)
    (v : List Nat) (bu : BottomUp)
    (hv : ∀ x ∈ v, ∀ y, IsAnt g x y → y ∈ v)
    (hc : ∀ x ∈ v, ∀ node, g.getNode x = some node → node.isLeaf = false → b = true →
      checkClause X g x = .ok ())
    (h : bottomUpLoop X g b fuel { q := [g.root], visited_1 := v } = (.ok (), bu)) :
    (∀ m, Reachable g m → m ∈ bu.visited_1) ∧
    (∀ x ∈ bu.visited_1, ∀ node, g.getNode x = some node → node.isLeaf = false → b = true →
      checkClause X g x = .ok ()) := by
  have key := bottomUpLoop_invariant X g b
    (fun s => (g.root ∈ s.visited_1 ∨ g.root ∈ s.q) ∧
      (∀ x ∈ s.visited_1, ∀ y, IsAnt g x y → y ∈ s.visited_1 ∨ y ∈ s.q) ∧
      (∀ x ∈ s.visited_1, ∀ node, g.getNode x = some node → node.isLeaf = false → b = true →
        checkClause X g x = .ok ())) ?_ fuel _ bu ?_ h
  · obtain ⟨⟨hroot, hcl, hchk⟩, hq⟩ := key
    rw [hq] at hroot hcl
    simp only [List.not_mem_nil, or_false] at hroot hcl
    refine ⟨?_, hchk⟩
    intro m hm
    induction hm with
    | refl => exact hroot
    | tail _ hxy ih => exact hcl _ ih _ hxy
  · rintro s s2 ⟨hroot, hcl, hchk⟩ hs
    obtain ⟨id, q, node, hsq, hn, hv2, hcase⟩ := bottomUpStep_ok X g b s s2 hs
    have hsub : ∀ y, y ∈ s.visited_1 ∨ y ∈ s.q → y ∈ s2.visited_1 ∨ y ∈ s2.q := by
      intro y hy
      rw [hv2]
      rcases hy with hy | hy
      · exact Or.inl (List.mem_cons_of_mem _ hy)
      · rw [hsq] at hy
        rcases List.mem_cons.1 hy with rfl | hy
        · exact Or.inl (List.mem_cons_self _ _)
        · right
          rcases hcase with ⟨_, h2⟩ | ⟨id1, id2, pivot, _, _, _, h2⟩
          · rw [h2]; exact hy
          · rw [h2]
            split_ifs
            · exact hy
            · simp [hy]
    refine ⟨hsub _ hroot, ?_, ?_⟩
    · intro x hx y hxy
      rw [hv2] at hx
      by_cases hxv : x ∈ s.visited_1
      · exact hsub y (hcl x hxv y hxy)
      · have hxid : x = id := by
          rcases List.mem_cons.1 hx with h1 | h1
          · exact h1
          · exact absurd h1 hxv
        subst hxid
        obtain ⟨node2, a1, a2, p, hn2, hk2, hy⟩ := hxy
        rw [hn] at hn2
        cases hn2
        rcases hcase with ⟨hk, _⟩ | ⟨id1, id2, pivot, hk, _, _, h2⟩
        · rw [hk] at hk2; cases hk2
        · rw [hk] at hk2
          cases hk2
          right
          rw [h2, if_pos hxv]
          rcases hy with rfl | rfl <;> simp
    · intro x hx nd hnd hleaf hb
      rw [hv2] at hx
      rcases List.mem_cons.1 hx with rfl | hx
      · rw [hn] at hnd
        cases hnd
        rcases hcase with ⟨hk, _⟩ | ⟨id1, id2, pivot, hk, _, hck, _⟩
        · simp [ProofNode.isLeaf, hk] at hleaf
        · exact hck hb
      · exact hchk x hx nd hnd hleaf hb
  · refine ⟨Or.inr (by simp), ?_, hc⟩
    intro x hx y hxy
    exact Or.inl (hv x hx y hxy)

/-- C9 (as amended). If checkProof(true) is entered with the markers of the bottom-up pass
clear and completes normally, then every derived node reachable from the root whose stored
clause is non-empty has both antecedents in the graph and a stored clause equal to the
clause recomputed by mergeClauses from the clauses of its two antecedents and its pivot. -/
theorem checkProof_checks_nonempty_derived (X : Externals) (fuel : Nat) (g : ProofGraph)
    (hv : g.visited_1 = []) (h : (checkProof X fuel g true).1 = .ok ())
    (m : Nat) (node : ProofNode) (id1 id2 pivot : Nat) (hm : Reachable g m)
    (hn : g.getNode m = some node) (hk : node.kind = .derived id1 id2 pivot)
    (hne : node.clause ≠ []) :
    ∃ a1 a2, g.getNode id1 = some a1 ∧ g.getNode id2 = some a2 ∧
      node.clause = X.mergeClauses a1.clause a2.clause pivot := by
  obtain ⟨td, bu, _, hB, _, _, _, _⟩ := checkProof_ok X fuel g true h
  rw [hv] at hB
  obtain ⟨hall, hchk⟩ := bottomUp_closed X g true fuel [] bu (by simp) (by simp) hB
  have hok : checkClause X g m = .ok () :=
    hchk m (hall m hm) node hn (by simp [ProofNode.isLeaf, hk]) rfl
  obtain ⟨_, hd, _⟩ := checkClause_ok_parts X g m node hn hok
  obtain ⟨hs1, hs2, a1, a2, h1, h2⟩ :=
    checkDerivation_ok_derived X g m node id1 id2 pivot hk hd
  refine ⟨a1, a2, h1, h2, ?_⟩
  rw [checkDerivation_derived X g m node id1 id2 pivot a1 a2 hk hne hs1 hs2 h1 h2] at hd
  by_contra hneq
  rw [if_pos hneq] at hd
  cases hd

theorem checkProof_checks_nonempty_derived_witness :
    ∃ a1 a2, chainGraph.getNode 0 = some a1 ∧ chainGraph.getNode 1 = some a2 ∧
      [(⟨1, false⟩ : Lit)] = specExternals.mergeClauses a1.clause a2.clause 0 :=
  checkProof_checks_nonempty_derived specExternals 8 chainGraph rfl rfl 2
    { kind := .derived 0 1 0, clause := [⟨1, false⟩], resolvents := [4] } 0 1 0
    (Relation.ReflTransGen.single
      ⟨{ kind := .derived 2 3 1, clause := [], resolvents := [] }, 2, 3, 1, rfl, rfl,
        Or.inl rfl⟩)
    rfl rfl (by decide)

/-- C9 (as stated) fails: checkProof(true) completes normally on a graph whose root, a
derived node reachable from the root, stores the empty clause although mergeClauses
recomputes the clause q from its antecedents p ∨ q and ¬p on the pivot p. -/
theorem checkProof_accepts_wrong_empty_clause :
    (checkProof specExternals 4 emptyRootGraph true).1 = .ok () ∧
    Reachable emptyRootGraph 2 ∧
    emptyRootGraph.getNode 2 = some { kind := .derived 0 1 0, clause := [], resolvents := [] } ∧
    emptyRootGraph.getNode 0 =
      some { kind := .leaf, clause := [⟨0, false⟩, ⟨1, false⟩], resolvents := [2] } ∧
    emptyRootGraph.getNode 1 =
      some { kind := .leaf, clause := [⟨0, true⟩], resolvents := [2] } ∧
    specExternals.mergeClauses [⟨0, false⟩, ⟨1, false⟩] [⟨0, true⟩] 0 = [⟨1, false⟩] ∧
    ([] : List Lit) ≠ specExternals.mergeClauses [⟨0, false⟩, ⟨1, false⟩] [⟨0, true⟩] 0 :=
  ⟨rfl, Relation.ReflTransGen.refl, rfl, rfl, rfl, by decide, by decide⟩
theorem getD_set_level (l : List Nat) (i j v : Nat) :
    (l.set i v).getD j 0 = if i = j ∧ i < l.length then v else l.getD j 0 := by
  simp only [List.getD_eq_getElem?_getD, List.getElem?_set]
  by_cases h : i = j
  · subst h
    by_cases h2 : i < l.length
    · simp [h2]
    · simp [h2, List.getElem?_eq_none (Nat.le_of_not_lt h2)]
  · simp [h]

theorem getD_of_getElem? (l : List Nat) (i v : Nat) (h : l[i]? = some v) : l.getD i 0 = v := by
  simp [List.getD_eq_getElem?_getD, h]

theorem getNode_lt (g : ProofGraph) (id : Nat) (n : ProofNode) (h : g.getNode id = some n) :
    id < g.getGraphSize := by
  unfold ProofGraph.getNode at h
  unfold ProofGraph.getGraphSize
  by_contra hlt
  rw [List.getElem?_eq_none (by omega)] at h
  simp at h

theorem pushResolvents_ok (lv : List Nat) : ∀ (rs q q2 : List Nat),
    pushResolvents lv q rs = .ok q2 → q2 = q ++ rs ∧ ∀ r ∈ rs, lv[r]? = some 0 := by
  intro rs
  induction rs with
  | nil =>
    intro q q2 h
    simp only [pushResolvents, Except.ok.injEq] at h
    simp [h]
  | cons r rest ih =>
    intro q q2 h
    simp only [pushResolvents] at h
    cases hr : lv[r]? with
    | none => rw [hr] at h; simp at h
    | some l =>
      rw [hr] at h
      simp only at h
      by_cases hl : l = 0
      · rw [if_pos hl] at h
        obtain ⟨h1, h2⟩ := ih _ _ h
        refine ⟨by simp [h1], ?_⟩
        intro x hx
        rcases List.mem_cons.1 hx with rfl | hx
        · rw [hr, hl]
        · exact h2 x hx
      · rw [if_neg hl] at h; simp at h

/-- What a successful iteration of the top-down loop does. -/
theorem topDownStep_ok (g : ProofGraph) (s s2 : TopDown) (h : topDownStep g s = .ok s2) :
    ∃ id q n, s.q = id :: q ∧ g.getNode id = some n ∧
      ((id ∉ s.visited_2 ∧ n.kind = .leaf ∧ s2.q = q ++ n.resolvents ∧
          s2.visit_level = s.visit_level.set id 1 ∧ s2.visited_2 = id :: s.visited_2) ∨
       (id ∉ s.visited_2 ∧ n.isLeaf = false ∧ s2.q = q ∧
          s2.visit_level = s.visit_level ∧ s2.visited_2 = id :: s.visited_2) ∨
       (∃ id1 id2 pivot l1 l2, id ∈ s.visited_2 ∧ n.kind = .derived id1 id2 pivot ∧
          s.visit_level[id]? = some 0 ∧ s2.q = q ++ n.resolvents ∧
          (∀ r ∈ n.resolvents, s.visit_level[r]? = some 0) ∧
          s.visit_level[id1]? = some l1 ∧ 0 < l1 ∧
          s.visit_level[id2]? = some l2 ∧ 0 < l2 ∧
          s2.visit_level = s.visit_level.set id (if l1 > l2 then l1 + 1 else l2 + 1) ∧
          s2.visited_2 = s.visited_2)) := by
  unfold topDownStep at h
  cases hq : s.q with
  | nil => rw [hq] at h; simp at h
  | cons id q =>
    rw [hq] at h
    simp only at h
    cases hn : g.getNode id with
    | none => rw [hn] at h; simp at h
    | some n =>
      rw [hn] at h
      simp only at h
      refine ⟨id, q, n, rfl, hn, ?_⟩
      by_cases hv : id ∈ s.visited_2
      · rw [if_neg (not_not.2 hv)] at h
        right; right
        cases hk : n.kind with
        | leaf => rw [hk] at h; simp at h
        | derived id1 id2 pivot =>
          rw [hk] at h
          simp only at h
          cases hl : s.visit_level[id]? with
          | none => rw [hl] at h; simp at h
          | some l =>
            rw [hl] at h
            simp only at h
            by_cases hl0 : l = 0
            · rw [if_neg (not_not.2 hl0)] at h
              cases hp : pushResolvents s.visit_level q n.resolvents with
              | error e => rw [hp] at h; simp at h
              | ok q2 =>
                rw [hp] at h
                simp only at h
                obtain ⟨hq2, hres⟩ := pushResolvents_ok _ _ _ _ hp
                cases h1 : s.visit_level[id1]? with
                | none => rw [h1] at h; simp at h
                | some l1 =>
                  rw [h1] at h
                  simp only at h
                  by_cases hl1 : l1 > 0
                  · rw [if_neg (not_not.2 hl1)] at h
                    cases h2 : s.visit_level[id2]? with
                    | none => rw [h2] at h; simp at h
                    | some l2 =>
                      rw [h2] at h
                      simp only at h
                      by_cases hl2 : l2 > 0
                      · rw [if_neg (not_not.2 hl2)] at h
                        simp only [Except.ok.injEq] at h
                        rw [← h]
                        exact ⟨id1, id2, pivot, l1, l2, hv, rfl, by rw [hl0], hq2, hres,
                          h1, hl1, h2, hl2, rfl, rfl⟩
                      · rw [if_pos hl2] at h; simp at h
                  · rw [if_pos hl1] at h; simp at h
            · rw [if_pos hl0] at h; simp at h
      · rw [if_pos hv] at h
        cases hk : n.kind with
        | leaf =>
          left
          simp only [ProofNode.isLeaf, hk, if_true, Except.ok.injEq] at h
          rw [← h]
          exact ⟨hv, rfl, rfl, rfl, rfl⟩
        | derived id1 id2 pivot =>
          right; left
          simp only [ProofNode.isLeaf, hk, Bool.false_eq_true, if_false, Except.ok.injEq] at h
          rw [← h]
          exact ⟨hv, by simp [ProofNode.isLeaf, hk], rfl, rfl, rfl⟩

theorem topDownLoop_invariant (g : ProofGraph) (P : TopDown → Prop)
    (hstep : ∀ s s2, P s → topDownStep g s = .ok s2 → P s2) :
    ∀ (fuel : Nat) (s s2 : TopDown), P s →
      topDownLoop g fuel s = (.ok (), s2) → P s2 := by
  intro fuel
  induction fuel with
  | zero => intro s s2 _ h; simp [topDownLoop] at h
  | succ k ih =>
    intro s s2 hP h
    simp only [topDownLoop] at h
    cases hs : topDownStep g s with
    | error e => rw [hs] at h; simp at h
    | ok s3 =>
      rw [hs] at h
      simp only at h
      by_cases hq : s3.q.isEmpty
      · rw [if_pos hq] at h
        simp only [Prod.mk.injEq, true_and] at h
        rw [← h]
        exact hstep s s3 hP hs
      · rw [if_neg hq] at h
        exact ih s3 s2 (hstep s s3 hP hs) h
theorem getD_replicate_zero (k n : Nat) : (List.replicate k 0).getD n 0 = 0 := by
  simp only [List.getD_eq_getElem?_getD, List.getElem?_replicate]
  split <;> rfl

theorem topDownStep_levelInv (g : ProofGraph) (s s2 : TopDown)
    (hP : s.visit_level.length = g.getGraphSize ∧ LevelInv g s.visit_level)
    (h : topDownStep g s = .ok s2) :
    s2.visit_level.length = g.getGraphSize ∧ LevelInv g s2.visit_level := by
  obtain ⟨hlen, hinv⟩ := hP
  obtain ⟨id, q, n, _, hn, hcase⟩ := topDownStep_ok g s s2 h
  have hid : id < s.visit_level.length := by rw [hlen]; exact getNode_lt g id n hn
  rcases hcase with ⟨_, hk, _, hlv, _⟩ | ⟨_, _, _, hlv, _⟩ |
    ⟨id1, id2, pivot, l1, l2, _, hk, hl0, _, _, h1, hl1, h2, hl2, hlv, _⟩
  · -- a leaf gets level 1
    refine ⟨by rw [hlv, List.length_set]; exact hlen, ?_⟩
    have hold : s.visit_level.getD id 0 = 0 ∨ s.visit_level.getD id 0 = 1 := by
      by_cases h0 : 0 < s.visit_level.getD id 0
      · right
        rcases hinv id h0 with ⟨nd, hnd, _, h1⟩ | ⟨nd, a, b, p, hnd, hkd, _⟩
        · exact h1
        · rw [hn] at hnd; cases hnd; rw [hk] at hkd; cases hkd
      · left; omega
    have hsame : ∀ x, 0 < s.visit_level.getD x 0 →
        s2.visit_level.getD x 0 = s.visit_level.getD x 0 := by
      intro x hx
      rw [hlv, getD_set_level]
      by_cases c : id = x ∧ id < s.visit_level.length
      · rw [if_pos c]
        obtain ⟨rfl, _⟩ := c
        omega
      · rw [if_neg c]
    intro x hx
    by_cases hxid : x = id
    · subst hxid
      left
      refine ⟨n, hn, hk, ?_⟩
      rw [hlv, getD_set_level, if_pos ⟨rfl, hid⟩]
    · have hx' : s2.visit_level.getD x 0 = s.visit_level.getD x 0 := by
        rw [hlv, getD_set_level, if_neg (fun c => hxid c.1.symm)]
      rw [hx'] at hx
      rcases hinv x hx with ⟨nd, hnd, hkd, h1⟩ | ⟨nd, a, b, p, hnd, hkd, ha, hb, hl⟩
      · left; exact ⟨nd, hnd, hkd, by rw [hx']; exact h1⟩
      · right
        refine ⟨nd, a, b, p, hnd, hkd, ?_, ?_, ?_⟩
        · rw [hsame a ha]; exact ha
        · rw [hsame b hb]; exact hb
        · rw [hx', hsame a ha, hsame b hb]; exact hl
  · rw [hlv]; exact ⟨hlen, hinv⟩
  · -- a derived node gets its level on the second visit
    refine ⟨by rw [hlv, List.length_set]; exact hlen, ?_⟩
    have hz : s.visit_level.getD id 0 = 0 := getD_of_getElem? _ _ _ hl0
    have e1 : s.visit_level.getD id1 0 = l1 := getD_of_getElem? _ _ _ h1
    have e2 : s.visit_level.getD id2 0 = l2 := getD_of_getElem? _ _ _ h2
    have hsame : ∀ x, 0 < s.visit_level.getD x 0 →
        s2.visit_level.getD x 0 = s.visit_level.getD x 0 := by
      intro x hx
      rw [hlv, getD_set_level]
      by_cases c : id = x ∧ id < s.visit_level.length
      · obtain ⟨rfl, _⟩ := c
        omega
      · rw [if_neg c]
    intro x hx
    by_cases hxid : x = id
    · subst hxid
      right
      refine ⟨n, id1, id2, pivot, hn, hk, ?_, ?_, ?_⟩
      · rw [hsame id1 (by omega)]; omega
      · rw [hsame id2 (by omega)]; omega
      · rw [hsame id1 (by omega), hsame id2 (by omega), e1, e2, hlv, getD_set_level,
          if_pos ⟨rfl, hid⟩]
    · have hx' : s2.visit_level.getD x 0 = s.visit_level.getD x 0 := by
        rw [hlv, getD_set_level, if_neg (fun c => hxid c.1.symm)]
      rw [hx'] at hx
      rcases hinv x hx with ⟨nd, hnd, hkd, h1'⟩ | ⟨nd, a, b, p, hnd, hkd, ha, hb, hl⟩
      · left; exact ⟨nd, hnd, hkd, by rw [hx']; exact h1'⟩
      · right
        refine ⟨nd, a, b, p, hnd, hkd, ?_, ?_, ?_⟩
        · rw [hsame a ha]; exact ha
        · rw [hsame b hb]; exact hb
        · rw [hx', hsame a ha, hsame b hb]; exact hl

theorem topDownLoop_levelInv (g : ProofGraph) (fuel : Nat) (td : TopDown)
    (h : topDownLoop g fuel (topDownInit g) = (.ok (), td)) :
    td.visit_level.length = g.getGraphSize ∧ LevelInv g td.visit_level := by
  refine topDownLoop_invariant g
    (fun s => s.visit_level.length = g.getGraphSize ∧ LevelInv g s.visit_level)
    (topDownStep_levelInv g) fuel _ td ?_ h
  refine ⟨by simp [topDownInit], ?_⟩
  intro n hn
  simp only [topDownInit, getD_replicate_zero] at hn
  omega

theorem levelInv_edge (g : ProofGraph) (lv : List Nat) (hinv : LevelInv g lv) (n m : Nat)
    (hn : 0 < lv.getD n 0) (hnm : IsAnt g n m) :
    0 < lv.getD m 0 ∧ lv.getD m 0 < lv.getD n 0 := by
  obtain ⟨node, a, b, p, hnode, hk, hm⟩ := hnm
  rcases hinv n hn with ⟨nd, hnd, hkd, _⟩ | ⟨nd, a2, b2, p2, hnd, hkd, ha, hb, hl⟩
  · rw [hnode] at hnd; cases hnd; rw [hk] at hkd; cases hkd
  · rw [hnode] at hnd
    cases hnd
    rw [hk] at hkd
    cases hkd
    rcases hm with rfl | rfl
    · refine ⟨ha, ?_⟩
      rw [hl]; split_ifs <;> omega
    · refine ⟨hb, ?_⟩
      rw [hl]; split_ifs <;> omega

theorem levelInv_path (g : ProofGraph) (lv : List Nat) (hinv : LevelInv g lv) (n m : Nat)
    (hn : 0 < lv.getD n 0) (hnm : Relation.TransGen (IsAnt g) n m) :
    0 < lv.getD m 0 ∧ lv.getD m 0 < lv.getD n 0 := by
  induction hnm with
  | single h => exact levelInv_edge g lv hinv n _ hn h
  | tail _ h ih =>
    have := levelInv_edge g lv hinv _ _ ih.1 h
    exact ⟨this.1, by omega⟩

/-- C10 (as amended). If checkProof completes normally, for either value of check_clauses,
then the top-down pass has completed and no node to which it assigned a positive level
(a leaf on its first visit, a derived node on its second visit) is its own ancestor through
antecedent edges: along every antecedent edge that leaves such a node the level is positive
and strictly smaller. -/
theorem checkProof_levelled_acyclic (X : Externals) (fuel : Nat) (g : ProofGraph) (b : Bool)
    (h : (checkProof X fuel g b).1 = .ok ()) :
    ∃ td, topDownLoop g fuel (topDownInit g) = (.ok (), td) ∧
      (∀ n m, 0 < td.visit_level.getD n 0 → IsAnt g n m →
        0 < td.visit_level.getD m 0 ∧ td.visit_level.getD m 0 < td.visit_level.getD n 0) ∧
      (∀ n, 0 < td.visit_level.getD n 0 → ¬ Relation.TransGen (IsAnt g) n n) := by
  obtain ⟨td, bu, hA, _⟩ := checkProof_ok X fuel g b h
  have hinv := (topDownLoop_levelInv g fuel td hA).2
  refine ⟨td, hA, fun n m hn hnm => levelInv_edge g _ hinv n m hn hnm, ?_⟩
  intro n hn hcyc
  have := levelInv_path g _ hinv n n hn hcyc
  omega

theorem checkProof_levelled_acyclic_witness :
    ∃ td, topDownLoop chainGraph 8 (topDownInit chainGraph) = (.ok (), td) ∧
      (∀ n m, 0 < td.visit_level.getD n 0 → IsAnt chainGraph n m →
        0 < td.visit_level.getD m 0 ∧ td.visit_level.getD m 0 < td.visit_level.getD n 0) ∧
      (∀ n, 0 < td.visit_level.getD n 0 → ¬ Relation.TransGen (IsAnt chainGraph) n n) :=
  checkProof_levelled_acyclic specExternals 8 chainGraph true rfl

/-- C10 (as stated) fails: the resolvent sets of the graph agree with the antecedent
pointers, its declared leaf is a leaf node, its root is a derived node that is its own
ancestor through antecedent edges (1 → 2 → 1), and checkProof completes normally for both
values of check_clauses; the top-down pass visits nodes 1 and 2 once each and leaves their
levels at 0. -/
theorem checkProof_accepts_cycle :
    resolventsConsistent cycleGraph = true ∧ leavesAreLeaves cycleGraph = true ∧
    cycleGraph.visited_1 = [] ∧ cycleGraph.visited_2 = [] ∧
    Reachable cycleGraph 1 ∧ Relation.TransGen (IsAnt cycleGraph) 1 1 ∧
    (checkProof specExternals 5 cycleGraph true).1 = .ok () ∧
    (checkProof specExternals 5 cycleGraph false).1 = .ok () ∧
    (topDownLoop cycleGraph 5 (topDownInit cycleGraph)).2.visit_level = [1, 0, 0] :=
  ⟨by decide, by decide, rfl, rfl, Relation.ReflTransGen.refl,
    Relation.TransGen.tail
      (Relation.TransGen.single
        ⟨{ kind := .derived 0 2 0, clause := [], resolvents := [2] }, 0, 2, 0, rfl, rfl,
          Or.inr rfl⟩)
      ⟨{ kind := .derived 0 1 0, clause := [], resolvents := [1] }, 0, 1, 0, rfl, rfl,
        Or.inr rfl⟩,
    rfl, rfl, rfl⟩
theorem leafClauses_ok (g : ProofGraph) : ∀ (ls : List Nat) (F : List (List Lit)),
    leafClauses g ls = .ok F →
      List.map some F = ls.map (fun id => (g.getNode id).map (fun n => n.clause)) := by
  intro ls
  induction ls with
  | nil =>
    intro F h
    simp only [leafClauses, Except.ok.injEq] at h
    simp [← h]
  | cons l rest ih =>
    intro F h
    simp only [leafClauses] at h
    cases hn : g.getNode l with
    | none => rw [hn] at h; simp at h
    | some n =>
      rw [hn] at h
      simp only at h
      cases hr : leafClauses g rest with
      | error e => rw [hr] at h; simp at h
      | ok cs =>
        rw [hr] at h
        simp only [Except.ok.injEq] at h
        rw [← h]
        simp [hn, ih cs hr]

theorem leafClauses_error (g : ProofGraph) : ∀ (ls : List Nat) (e : Stop),
    leafClauses g ls = .error e → e = .undefinedBehaviour 48 := by
  intro ls
  induction ls with
  | nil => intro e h; simp [leafClauses] at h
  | cons l rest ih =>
    intro e h
    simp only [leafClauses] at h
    cases hn : g.getNode l with
    | none => rw [hn] at h; simp at h; exact h.symm
    | some n =>
      rw [hn] at h
      simp only at h
      cases hr : leafClauses g rest with
      | error e2 =>
        rw [hr] at h
        simp only [Except.error.injEq] at h
        rw [← h]
        exact ih e2 hr
      | ok cs => rw [hr] at h; simp at h

/-- C7. On a graph on which the traversal of verifyLeavesInconsistency finishes (without a
failed assertion), the outcome is decided by the declared leaves alone: the formula handed
to the oracle has one disjunction per declared leaf id, the clause of that node, in the
order of leaves_ids, and verifyLeavesInconsistency throws exactly when the oracle answers
false to it and completes normally exactly when the oracle answers true; the state left by
the traversal, proofleaves included, plays no part. When a declared leaf id is not a node
the formula cannot be built and the run stops at line 48. With a sound and complete oracle
the graph whose two declared leaves both carry the clause p makes it throw. -/
theorem verifyLeaves_decided_by_declared (X : Externals) (fuel : Nat) (g : ProofGraph)
    (s : Collect) (hc : collectLeaves g fuel = .ok s) :
    (∀ F, leafClauses g g.leaves_ids = .ok F →
      List.map some F = g.leaves_ids.map (fun id => (g.getNode id).map (fun n => n.clause)) ∧
      (verifyLeavesInconsistency X fuel g = .error (.thrown .leavesSatisfiable) ↔
        X.impliesFalse F = false) ∧
      (verifyLeavesInconsistency X fuel g = .ok () ↔ X.impliesFalse F = true)) ∧
    (∀ e, leafClauses g g.leaves_ids = .error e →
      verifyLeavesInconsistency X fuel g = .error e ∧ e = .undefinedBehaviour 48) ∧
    (OracleExact X → ∀ k, verifyLeavesInconsistency X (k + 3) samePolarityGraph =
      .error (.thrown .leavesSatisfiable)) := by
  refine ⟨?_, ?_, ?_⟩
  · intro F hF
    refine ⟨leafClauses_ok g _ F hF, ?_, ?_⟩
    · simp only [verifyLeavesInconsistency, hc, hF]
      cases X.impliesFalse F <;> simp
    · simp only [verifyLeavesInconsistency, hc, hF]
      cases X.impliesFalse F <;> simp
  · intro e he
    refine ⟨?_, leafClauses_error g _ e he⟩
    simp only [verifyLeavesInconsistency, hc, he]
  · intro hX k
    have hcl : collectLeaves samePolarityGraph (k + 3) =
        .ok { q := [], visited_count := [1, 1, 1], proofleaves := [1, 0] } := rfl
    have hl : leafClauses samePolarityGraph samePolarityGraph.leaves_ids =
        .ok [[⟨0, false⟩], [⟨0, false⟩]] := rfl
    have ho : X.impliesFalse [[⟨0, false⟩], [⟨0, false⟩]] = false := by
      cases hv : X.impliesFalse [[⟨0, false⟩], [⟨0, false⟩]] with
      | false => rfl
      | true =>
        have := (hX _).1 hv (fun _ => true)
        simp [evalClauses, evalClause, Lit.eval] at this
    simp only [verifyLeavesInconsistency, hcl, hl, ho]
    simp

theorem verifyLeaves_decided_by_declared_witness :
    verifyLeavesInconsistency specExternals 3 samePolarityGraph =
      .error (.thrown .leavesSatisfiable) ∧
    specExternals.impliesFalse [[⟨0, false⟩], [⟨0, false⟩]] = false :=
  have h := verifyLeaves_decided_by_declared specExternals 3 samePolarityGraph
    { q := [], visited_count := [1, 1, 1], proofleaves := [1, 0] } rfl
  ⟨h.2.2 specExternals_exact 0, ((h.1 _ rfl).2.1).1 (h.2.2 specExternals_exact 0)⟩

/-- A circular derivation with non-empty, correctly resolved clauses is accepted as well:
checkProof(true) completes normally on a graph in which nodes 4 and 5 are derived from each
other, although its declared leaves are jointly satisfiable (p and q true, a false). -/
theorem checkProof_accepts_circular_derivation :
    resolventsConsistent circularGraph = true ∧ leavesAreLeaves circularGraph = true ∧
    Relation.TransGen (IsAnt circularGraph) 4 4 ∧
    (checkProof specExternals 9 circularGraph true).1 = .ok () ∧
    (checkProof specExternals 9 circularGraph false).1 = .ok () ∧
    (leafClauses circularGraph circularGraph.leaves_ids).map
      (evalClauses (fun v => decide (v ≠ 1))) = .ok true :=
  ⟨by decide, by decide,
    Relation.TransGen.tail
      (Relation.TransGen.single
        ⟨{ kind := .derived 0 5 0, clause := [⟨1, false⟩, ⟨2, true⟩], resolvents := [5, 6] },
          0, 5, 0, rfl, rfl, Or.inr rfl⟩)
      ⟨{ kind := .derived 1 4 2, clause := [⟨0, true⟩, ⟨1, false⟩], resolvents := [4] },
        1, 4, 2, rfl, rfl, Or.inr rfl⟩,
    rfl, rfl, rfl⟩
/-- C11. The visitation markers are not cleared when checkProof throws: entered with both
marker sets clear, checkProof throws on the acceptance graph extended by a detached
declared leaf (unreachable going bottom-up, for both values of check_clauses) and on the
two-step refutation whose node 2 stores ¬q instead of q (derivation mismatch), and in both
runs the markers set so far are still set when the exception leaves the function; the
resets of lines 256-257 are reached on the normal path only. -/
theorem checkProof_throw_keeps_markers :
    (addDetachedLeaf acceptanceGraph ⟨1, false⟩).visited_1 = [] ∧
    (addDetachedLeaf acceptanceGraph ⟨1, false⟩).visited_2 = [] ∧
    (checkProof specExternals 5 (addDetachedLeaf acceptanceGraph ⟨1, false⟩) false).1 =
      .error (.thrown (.unreachableBottomUp 3)) ∧
    (checkProof specExternals 5 (addDetachedLeaf acceptanceGraph ⟨1, false⟩) false).2.visited_1 =
      [0, 1, 2] ∧
    (checkProof specExternals 5 (addDetachedLeaf acceptanceGraph ⟨1, false⟩) false).2.visited_2 =
      [2, 3, 1, 0] ∧
    (checkProof specExternals 5 (addDetachedLeaf acceptanceGraph ⟨1, false⟩) true).2.visited_2 =
      [2, 3, 1, 0] ∧
    (checkProof specExternals 8
      (replaceNode chainGraph 2
        { kind := .derived 0 1 0, clause := [⟨1, true⟩], resolvents := [4] }) true).1 =
      .error (.thrown .derivationMismatch) ∧
    (checkProof specExternals 8
      (replaceNode chainGraph 2
        { kind := .derived 0 1 0, clause := [⟨1, true⟩], resolvents := [4] }) true).2.visited_1 =
      [3, 4] ∧
    (checkProof specExternals 8
      (replaceNode chainGraph 2
        { kind := .derived 0 1 0, clause := [⟨1, true⟩], resolvents := [4] }) true).2.visited_2 =
      [4, 2, 3, 1, 0] :=
  ⟨rfl, rfl, rfl, rfl, rfl, rfl, rfl, rfl, rfl⟩

theorem checkResolvents_ok_of (g : ProofGraph) (nid : Nat) : ∀ rs : List Nat,
    (∀ r ∈ rs, r < g.getGraphSize ∧ ∃ res, g.getNode r = some res ∧
      (res.getAnt1 = some nid ∨ res.getAnt2 = some nid)) →
    checkResolvents g nid rs = .ok () := by
  intro rs
  induction rs with
  | nil => intro _; rfl
  | cons r rest ih =>
    intro h
    obtain ⟨hlt, res, hres, hant⟩ := h r (List.mem_cons_self _ _)
    simp only [checkResolvents, hlt, not_true_eq_false, if_false, hres, hant, if_true]
    exact ih (fun x hx => h x (List.mem_cons_of_mem _ hx))

theorem checkResolvents_ok (g : ProofGraph) (nid : Nat) : ∀ rs : List Nat,
    checkResolvents g nid rs = .ok () →
    ∀ r ∈ rs, r < g.getGraphSize ∧ ∃ res, g.getNode r = some res ∧
      (res.getAnt1 = some nid ∨ res.getAnt2 = some nid) := by
  intro rs
  induction rs with
  | nil => intro _ r hr; simp at hr
  | cons x rest ih =>
    intro h r hr
    simp only [checkResolvents] at h
    by_cases hlt : x < g.getGraphSize
    · rw [if_neg (not_not.2 hlt)] at h
      cases hx : g.getNode x with
      | none => rw [hx] at h; simp at h
      | some res =>
        rw [hx] at h
        simp only at h
        by_cases hant : res.getAnt1 = some nid ∨ res.getAnt2 = some nid
        · rw [if_pos hant] at h
          rcases List.mem_cons.1 hr with rfl | hr
          · exact ⟨hlt, res, hx, hant⟩
          · exact ih h r hr
        · rw [if_neg hant] at h; simp at h
    · rw [if_pos hlt] at h; simp at h

/-- C13 (as amended). A derived node that is not the root, none of whose antecedents is the
node itself, whose stored clause is non-empty and equals the clause recomputed by
mergeClauses, whose pivot is found by hasOccurrenceBin in both antecedents with different
results and whose resolvents are nodes that have it as an antecedent, passes checkClause
when its stored clause is strictly increasing by variable; when the stored clause has two
adjacent literals on the same variable checkClause stops with a malformed-clause error,
thrown by the sorting check before the tautology scan is reached. -/
theorem checkClause_resolvent_accepted_iff_sorted (X : Externals) (g : ProofGraph) (nid : Nat)
    (n : ProofNode) (id1 id2 pivot : Nat) (a1 a2 : ProofNode)
    (hn : g.getNode nid = some n) (hk : n.kind = .derived id1 id2 pivot)
    (hne : n.clause ≠ []) (hr : nid ≠ g.root) (hs1 : nid ≠ id1) (hs2 : nid ≠ id2)
    (h1 : g.getNode id1 = some a1) (h2 : g.getNode id2 = some a2)
    (heq : n.clause = X.mergeClauses a1.clause a2.clause pivot)
    (hf1 : X.hasOccurrenceBin a1 pivot ≠ -1) (hf2 : X.hasOccurrenceBin a2 pivot ≠ -1)
    (hf : X.hasOccurrenceBin a1 pivot ≠ X.hasOccurrenceBin a2 pivot)
    (hres : ∀ r ∈ n.resolvents, r < g.getGraphSize ∧ ∃ res, g.getNode r = some res ∧
      (res.getAnt1 = some nid ∨ res.getAnt2 = some nid)) :
    (n.clause.Chain' (fun a b => a.var < b.var) → checkClause X g nid = .ok ()) ∧
    (∀ pre a b post, n.clause = pre ++ a :: b :: post → a.var = b.var →
      IsMalformed (checkClause X g nid)) := by
  have hsh := checkShape_nonroot g nid n hr hne
  have hs := checkClauseSorting_eq g nid n hn
  constructor
  · intro hc
    have hsh2 : checkShape g nid n = .ok () := by
      rw [hsh, hs]; exact (sortingLoop_ok_iff _).2 hc
    have hd : checkDerivation X g nid n = .ok () := by
      rw [checkDerivation_derived X g nid n id1 id2 pivot a1 a2 hk hne hs1 hs2 h1 h2,
        if_neg (not_not.2 heq), if_neg hf1, if_neg hf2, if_neg hf]
    simp only [checkClause, hn, hsh2, hd]
    exact checkResolvents_ok_of g nid _ hres
  · intro pre a b post hc hab
    have hnc : ¬ n.clause.Chain' (fun a b => a.var < b.var) := by
      intro hch
      rw [hc, List.chain'_append_cons_cons] at hch
      omega
    have hm : IsMalformed (checkClauseSorting g nid) := by
      rcases sortingLoop_malformed_or_ok n.clause with h | h
      · exact absurd ((sortingLoop_ok_iff _).1 h) hnc
      · rw [hs]; exact h
    have hpass : ∀ e, checkClauseSorting g nid = .error e → checkClause X g nid = .error e :=
      fun e he => checkClause_of_shape_error X g nid n hn e (by rw [hsh]; exact he)
    rcases hm with h | h | h
    · exact Or.inl (hpass _ h)
    · exact Or.inr (Or.inl (hpass _ h))
    · exact Or.inr (Or.inr (hpass _ h))

theorem checkClause_resolvent_accepted_iff_sorted_witness :
    checkClause specExternals chainGraph 2 = .ok () :=
  (checkClause_resolvent_accepted_iff_sorted specExternals chainGraph 2
    { kind := .derived 0 1 0, clause := [⟨1, false⟩], resolvents := [4] } 0 1 0
    { kind := .leaf, clause := [⟨0, false⟩, ⟨1, false⟩], resolvents := [2] }
    { kind := .leaf, clause := [⟨0, true⟩], resolvents := [2] }
    rfl rfl (by decide) (by decide) (by decide) (by decide) rfl rfl (by decide) (by decide)
    (by decide) (by decide)
    (by
      intro r hr
      simp only [List.mem_singleton] at hr
      subst hr
      exact ⟨by decide, { kind := .derived 2 3 1, clause := [], resolvents := [] }, rfl,
        Or.inl rfl⟩)).1 (by simp)

/-- C13 (as stated) fails: node 2 of the graph is a derived node whose stored clause
a ∨ ¬a is non-empty and equals the clause recomputed by mergeClauses from p ∨ a and
¬p ∨ ¬a on p, whose pivot occurs with opposite polarity in both antecedents and whose
resolvent 4 has it as an antecedent; checkClause throws the inconsistency error on it. -/
theorem checkClause_rejects_tautological_resolvent :
    tautologyGraph.getNode 2 =
      some { kind := .derived 0 1 0, clause := [⟨1, false⟩, ⟨1, true⟩], resolvents := [4] } ∧
    tautologyGraph.getNode 0 =
      some { kind := .leaf, clause := [⟨0, false⟩, ⟨1, false⟩], resolvents := [2] } ∧
    tautologyGraph.getNode 1 =
      some { kind := .leaf, clause := [⟨0, true⟩, ⟨1, true⟩], resolvents := [2] } ∧
    specExternals.mergeClauses [⟨0, false⟩, ⟨1, false⟩] [⟨0, true⟩, ⟨1, true⟩] 0 =
      [⟨1, false⟩, ⟨1, true⟩] ∧
    specExternals.hasOccurrenceBin
      { kind := .leaf, clause := [⟨0, false⟩, ⟨1, false⟩], resolvents := [2] } 0 = 0 ∧
    specExternals.hasOccurrenceBin
      { kind := .leaf, clause := [⟨0, true⟩, ⟨1, true⟩], resolvents := [2] } 0 = 1 ∧
    checkResolvents tautologyGraph 2 [4] = .ok () ∧
    checkClause specExternals tautologyGraph 2 = .error (.thrown .inconsistency) :=
  ⟨rfl, rfl, rfl, by decide, by decide, by decide, rfl, rfl⟩
theorem isAnt_iff_hasAnt (g : ProofGraph) (n m : Nat) : IsAnt g n m ↔ hasAnt g n m = true := by
  unfold IsAnt hasAnt
  cases hn : g.getNode n with
  | none => simp
  | some node =>
    cases hk : node.kind with
    | leaf => simp [ProofNode.getAnt1, ProofNode.getAnt2, hk]
    | derived a b p =>
      simp only [Option.some.injEq, ProofNode.getAnt1, ProofNode.getAnt2, hk,
        Bool.or_eq_true, decide_eq_true_eq]
      constructor
      · rintro ⟨nd, x, y, z, rfl, h2, h3⟩
        rw [hk] at h2
        cases h2
        rcases h3 with rfl | rfl
        · exact Or.inl rfl
        · exact Or.inr rfl
      · intro h
        exact ⟨node, a, b, p, rfl, hk, by rcases h with h | h <;> simp [h]⟩

/-- C15 (as amended). If checkProof(true) is entered with the markers of the bottom-up pass
clear and completes normally, then every derived node reachable from the root has a clause
whose literals are strictly increasing by variable; the clauses of leaf nodes are not
examined. -/
theorem checkProof_derived_clauses_sorted (X : Externals) (fuel : Nat) (g : ProofGraph)
    (hv : g.visited_1 = []) (h : (checkProof X fuel g true).1 = .ok ())
    (m : Nat) (node : ProofNode) (hm : Reachable g m) (hn : g.getNode m = some node)
    (hd : node.isLeaf = false) :
    node.clause.Chain' (fun a b => a.var < b.var) := by
  obtain ⟨td, bu, _, hB, _, _, _, _⟩ := checkProof_ok X fuel g true h
  rw [hv] at hB
  obtain ⟨hall, hchk⟩ := bottomUp_closed X g true fuel [] bu (by simp) (by simp) hB
  have hok : checkClause X g m = .ok () := hchk m (hall m hm) node hn hd rfl
  by_cases hne : node.clause = []
  · rw [hne]; exact List.chain'_nil
  · have hsh := (checkClause_ok_parts X g m node hn hok).1
    by_cases hr : m = g.root
    · rw [checkShape_root g m node hr hne] at hsh; cases hsh
    · rw [checkShape_nonroot g m node hr hne, checkClauseSorting_eq g m node hn] at hsh
      exact (sortingLoop_ok_iff _).1 hsh

theorem checkProof_derived_clauses_sorted_witness :
    (checkProof specExternals 8 chainGraph true).1 = .ok () ∧
    chainGraph.getNode 2 =
      some { kind := .derived 0 1 0, clause := [⟨1, false⟩], resolvents := [4] } ∧
    List.Chain' (fun a b : Lit => a.var < b.var) [⟨1, false⟩] :=
  ⟨rfl, rfl, checkProof_derived_clauses_sorted specExternals 8 chainGraph rfl rfl 2
    { kind := .derived 0 1 0, clause := [⟨1, false⟩], resolvents := [4] }
    (Relation.ReflTransGen.single
      ⟨{ kind := .derived 2 3 1, clause := [], resolvents := [] }, 2, 3, 1, rfl, rfl,
        Or.inl rfl⟩)
    rfl rfl⟩

/-- C15 (as stated) fails: checkProof(true) completes normally on a graph whose leaves, both
reachable from the root, carry the empty clause (leaf 0) and the unsorted clause q ∨ p
(leaf 1). -/
theorem checkProof_accepts_malformed_leaves :
    (checkProof specExternals 4 malformedLeavesGraph true).1 = .ok () ∧
    Reachable malformedLeavesGraph 0 ∧ Reachable malformedLeavesGraph 1 ∧
    malformedLeavesGraph.getNode 0 = some { kind := .leaf, clause := [], resolvents := [2] } ∧
    malformedLeavesGraph.getNode 1 =
      some { kind := .leaf, clause := [⟨1, false⟩, ⟨0, false⟩], resolvents := [2] } ∧
    ¬ List.Chain' (fun a b : Lit => a.var < b.var) [⟨1, false⟩, ⟨0, false⟩] :=
  ⟨rfl,
    Relation.ReflTransGen.single
      ⟨{ kind := .derived 0 1 0, clause := [], resolvents := [] }, 0, 1, 0, rfl, rfl,
        Or.inl rfl⟩,
    Relation.ReflTransGen.single
      ⟨{ kind := .derived 0 1 0, clause := [], resolvents := [] }, 0, 1, 0, rfl, rfl,
        Or.inr rfl⟩,
    rfl, rfl, by simp⟩

/-- C14 (as amended). If checkProof(true) is entered with the markers of the bottom-up pass
clear and completes normally, then for every derived node n reachable from the root, every
m in the resolvent set of n is a node of the graph that has n as one of its two
antecedents. -/
theorem checkProof_resolvents_point_back (X : Externals) (fuel : Nat) (g : ProofGraph)
    (hv : g.visited_1 = []) (h : (checkProof X fuel g true).1 = .ok ())
    (n : Nat) (node : ProofNode) (hr : Reachable g n) (hn : g.getNode n = some node)
    (hd : node.isLeaf = false) :
    ∀ m ∈ node.resolvents, m < g.getGraphSize ∧ IsAnt g m n := by
  obtain ⟨td, bu, _, hB, _, _, _, _⟩ := checkProof_ok X fuel g true h
  rw [hv] at hB
  obtain ⟨hall, hchk⟩ := bottomUp_closed X g true fuel [] bu (by simp) (by simp) hB
  have hok : checkClause X g n = .ok () := hchk n (hall n hr) node hn hd rfl
  have hres := (checkClause_ok_parts X g n node hn hok).2.2
  intro m hm
  obtain ⟨hlt, res, hres2, hant⟩ := checkResolvents_ok g n _ hres m hm
  refine ⟨hlt, ?_⟩
  rw [isAnt_iff_hasAnt]
  simp only [hasAnt, hres2, Bool.or_eq_true, decide_eq_true_eq]
  exact hant

theorem checkProof_resolvents_point_back_witness :
    (checkProof specExternals 8 chainGraph true).1 = .ok () ∧
    chainGraph.getNode 2 =
      some { kind := .derived 0 1 0, clause := [⟨1, false⟩], resolvents := [4] } ∧
    4 < chainGraph.getGraphSize ∧ IsAnt chainGraph 4 2 :=
  ⟨rfl, rfl, checkProof_resolvents_point_back specExternals 8 chainGraph rfl rfl 2
    { kind := .derived 0 1 0, clause := [⟨1, false⟩], resolvents := [4] }
    (Relation.ReflTransGen.single
      ⟨{ kind := .derived 2 3 1, clause := [], resolvents := [] }, 2, 3, 1, rfl, rfl,
        Or.inl rfl⟩)
    rfl rfl 4 (List.mem_singleton.2 rfl)⟩

/-- C14 (as stated) fails: checkProof(true) completes normally on a graph in which the
nodes 1, 2 and 3 are reachable from the root, leaf 1 is an antecedent of node 2 although
node 2 is not in the resolvent set of leaf 1, and node 2 is in the resolvent set of leaf 3
although leaf 3 is not an antecedent of node 2. -/
theorem checkProof_accepts_skewed_resolvents :
    (checkProof specExternals 8 skewedGraph true).1 = .ok () ∧
    Reachable skewedGraph 1 ∧ Reachable skewedGraph 2 ∧ Reachable skewedGraph 3 ∧
    skewedGraph.getNode 1 = some { kind := .leaf, clause := [⟨0, true⟩], resolvents := [] } ∧
    IsAnt skewedGraph 2 1 ∧
    skewedGraph.getNode 3 =
      some { kind := .leaf, clause := [⟨1, true⟩], resolvents := [2, 4] } ∧
    ¬ IsAnt skewedGraph 2 3 :=
  have h42 : IsAnt skewedGraph 4 2 :=
    ⟨{ kind := .derived 2 3 1, clause := [], resolvents := [] }, 2, 3, 1, rfl, rfl, Or.inl rfl⟩
  have h43 : IsAnt skewedGraph 4 3 :=
    ⟨{ kind := .derived 2 3 1, clause := [], resolvents := [] }, 2, 3, 1, rfl, rfl, Or.inr rfl⟩
  have h21 : IsAnt skewedGraph 2 1 :=
    ⟨{ kind := .derived 0 1 0, clause := [⟨1, false⟩], resolvents := [4] }, 0, 1, 0, rfl, rfl,
      Or.inr rfl⟩
  ⟨rfl, Relation.ReflTransGen.tail (Relation.ReflTransGen.single h42) h21,
    Relation.ReflTransGen.single h42, Relation.ReflTransGen.single h43, rfl, h21, rfl,
    fun h => by
      rw [isAnt_iff_hasAnt] at h
      exact absurd h (by decide)⟩
theorem getNode_shape (g : ProofGraph) (i : Nat) :
    g.shape.getNode i = (g.getNode i).map ProofNode.shape := by
  unfold ProofGraph.getNode ProofGraph.shape
  simp only [List.getElem?_map]
  cases h : g.graph[i]? with
  | none => rfl
  | some o =>
    cases o with
    | none => rfl
    | some n => rfl

theorem topDownStep_shape (g : ProofGraph) (s : TopDown) :
    topDownStep g.shape s = topDownStep g s := by
  unfold topDownStep
  cases s.q with
  | nil => rfl
  | cons id q =>
    simp only [getNode_shape]
    cases g.getNode id with
    | none => rfl
    | some n =>
      cases hk : n.kind with
      | leaf => simp [ProofNode.shape, ProofNode.isLeaf, hk]
      | derived a b p => simp [ProofNode.shape, ProofNode.isLeaf, hk]

theorem topDownLoop_shape (g : ProofGraph) : ∀ (fuel : Nat) (s : TopDown),
    topDownLoop g.shape fuel s = topDownLoop g fuel s := by
  intro fuel
  induction fuel with
  | zero => intro s; rfl
  | succ k ih =>
    intro s
    simp only [topDownLoop, topDownStep_shape]
    cases topDownStep g s with
    | error e => rfl
    | ok s2 => simp only [ih]

theorem bottomUpStep_shape (X Y : Externals) (g : ProofGraph) (s : BottomUp) :
    bottomUpStep X g.shape false s = bottomUpStep Y g false s := by
  unfold bottomUpStep
  cases s.q with
  | nil => rfl
  | cons id q =>
    simp only [getNode_shape]
    cases g.getNode id with
    | none => rfl
    | some n =>
      cases hk : n.kind with
      | leaf => simp [ProofNode.shape, hk]
      | derived a b p => simp [ProofNode.shape, hk]

theorem bottomUpLoop_shape (X Y : Externals) (g : ProofGraph) : ∀ (fuel : Nat) (s : BottomUp),
    bottomUpLoop X g.shape false fuel s = bottomUpLoop Y g false fuel s := by
  intro fuel
  induction fuel with
  | zero => intro s; rfl
  | succ k ih =>
    intro s
    simp only [bottomUpLoop, bottomUpStep_shape X Y]
    cases bottomUpStep Y g false s with
    | error e => rfl
    | ok s2 => simp only [ih]

theorem checkProof_shape (X Y : Externals) (fuel : Nat) (g : ProofGraph) :
    (checkProof X fuel g.shape false).1 = (checkProof Y fuel g false).1 ∧
    (checkProof X fuel g.shape false).2.visited_1 = (checkProof Y fuel g false).2.visited_1 ∧
    (checkProof X fuel g.shape false).2.visited_2 = (checkProof Y fuel g false).2.visited_2 := by
  have hroot : g.shape.root = g.root := rfl
  have hleaves : g.shape.leaves_ids = g.leaves_ids := rfl
  have hsize : g.shape.getGraphSize = g.getGraphSize := by
    simp [ProofGraph.getGraphSize, ProofGraph.shape]
  have hinit : topDownInit g.shape = topDownInit g := by
    simp only [topDownInit, hsize]
    rfl
  have hv1 : g.shape.visited_1 = g.visited_1 := rfl
  unfold checkProof
  rw [topDownLoop_shape, hinit]
  rcases topDownLoop g fuel (topDownInit g) with ⟨r, td⟩
  cases r with
  | error e => exact ⟨rfl, rfl, rfl⟩
  | ok u =>
    simp only [getNode_shape, hroot, hv1, hsize, hleaves]
    cases g.getNode g.root with
    | none => exact ⟨rfl, rfl, rfl⟩
    | some rn =>
      simp only [Option.map_some']
      rw [bottomUpLoop_shape X Y]
      rcases bottomUpLoop Y g false fuel { q := g.root :: td.q.reverse, visited_1 := g.visited_1 }
        with ⟨r2, bu⟩
      cases r2 with
      | error e => exact ⟨rfl, rfl, rfl⟩
      | ok u2 =>
        simp only
        cases consistencyLoop bu.visited_1 td.visited_2 (List.range g.getGraphSize) with
        | error e => exact ⟨rfl, rfl, rfl⟩
        | ok u3 =>
          simp only
          cases detachedLoop bu.visited_1 g.leaves_ids with
          | error e => exact ⟨rfl, rfl, rfl⟩
          | ok u4 => exact ⟨rfl, rfl, rfl⟩

theorem shape_replaceNode_clause (g : ProofGraph) (i : Nat) (n : ProofNode) (c : List Lit)
    (hn : g.getNode i = some n) :
    (replaceNode g i { n with clause := c }).shape = g.shape := by
  unfold replaceNode ProofGraph.shape
  simp only
  congr 1
  have hi : g.graph[i]? = some (some n) := by
    unfold ProofGraph.getNode at hn
    cases h : g.graph[i]? with
    | none => rw [h] at hn; simp at hn
    | some o =>
      cases o with
      | none => rw [h] at hn; simp at hn
      | some n2 => rw [h] at hn; simp at hn; rw [hn]
  apply List.ext_getElem?
  intro j
  simp only [List.getElem?_map, List.getElem?_set]
  by_cases hij : i = j
  · subst hij
    have hlt : i < g.graph.length := by
      by_contra hc
      rw [List.getElem?_eq_none (by omega)] at hi
      cases hi
    simp [hlt, hi, ProofNode.shape]
  · simp [hij]

/-- C16. Two graphs that differ only in the stored clauses and pivots of their nodes (same
ids, kinds, antecedent ids, resolvent sets, root, declared leaves and markers on entry)
get the same outcome from checkProof(false), the same error when it fails, and leave the
same markers; in particular replacing the stored clause of a node by any other clause,
such as the clause with one literal dropped, does not change the outcome of
checkProof(false). -/
theorem checkProof_false_ignores_clauses (X Y : Externals) (fuel : Nat) (g g2 : ProofGraph)
    (hs : g.shape = g2.shape) :
    (checkProof X fuel g false).1 = (checkProof Y fuel g2 false).1 ∧
    (checkProof X fuel g false).2.visited_1 = (checkProof Y fuel g2 false).2.visited_1 ∧
    (checkProof X fuel g false).2.visited_2 = (checkProof Y fuel g2 false).2.visited_2 ∧
    (∀ i n c, g.getNode i = some n →
      (checkProof X fuel (replaceNode g i { n with clause := c }) false).1 =
        (checkProof X fuel g false).1) := by
  have h1 := checkProof_shape X X fuel g
  have h2 := checkProof_shape X Y fuel g2
  rw [← hs] at h2
  refine ⟨?_, ?_, ?_, ?_⟩
  · rw [← h1.1, h2.1]
  · rw [← h1.2.1, h2.2.1]
  · rw [← h1.2.2, h2.2.2]
  · intro i n c hn
    have h3 := checkProof_shape X X fuel (replaceNode g i { n with clause := c })
    rw [shape_replaceNode_clause g i n c hn] at h3
    rw [← h3.1, h1.1]

theorem checkProof_false_ignores_clauses_witness :
    (checkProof specExternals 8
      (replaceNode chainGraph 2 { kind := .derived 0 1 0, clause := [], resolvents := [4] })
      false).1 = .ok () ∧
    (checkProof specExternals 8 chainGraph false).1 = .ok () :=
  have h := checkProof_false_ignores_clauses specExternals specExternals 8
    (replaceNode chainGraph 2 { kind := .derived 0 1 0, clause := [], resolvents := [4] })
    chainGraph rfl
  ⟨h.1.trans rfl, rfl⟩
theorem topDownStep_level_kept (g : ProofGraph) (s s2 : TopDown)
    (hP : s.visit_level.length = g.getGraphSize ∧ LevelInv g s.visit_level)
    (h : topDownStep g s = .ok s2) :
    ∀ x, 0 < s.visit_level.getD x 0 → s2.visit_level.getD x 0 = s.visit_level.getD x 0 := by
  obtain ⟨hlen, hinv⟩ := hP
  obtain ⟨id, q, n, _, hn, hcase⟩ := topDownStep_ok g s s2 h
  rcases hcase with ⟨_, hk, _, hlv, _⟩ | ⟨_, _, _, hlv, _⟩ |
    ⟨id1, id2, pivot, l1, l2, _, hk, hl0, _, _, h1, hl1, h2, hl2, hlv, _⟩
  · intro x hx
    rw [hlv, getD_set_level]
    by_cases c : id = x ∧ id < s.visit_level.length
    · rw [if_pos c]
      obtain ⟨rfl, _⟩ := c
      rcases hinv id hx with ⟨nd, hnd, _, h1⟩ | ⟨nd, a, b, p, hnd, hkd, _⟩
      · exact h1.symm
      · rw [hn] at hnd; cases hnd; rw [hk] at hkd; cases hkd
    · rw [if_neg c]
  · intro x _; rw [hlv]
  · intro x hx
    have hz : s.visit_level.getD id 0 = 0 := getD_of_getElem? _ _ _ hl0
    rw [hlv, getD_set_level]
    by_cases c : id = x ∧ id < s.visit_level.length
    · obtain ⟨rfl, _⟩ := c
      omega
    · rw [if_neg c]

theorem topDownReach_levelInv (g : ProofGraph) (s : TopDown) (h : TopDownReach g s) :
    s.visit_level.length = g.getGraphSize ∧ LevelInv g s.visit_level := by
  induction h with
  | refl =>
    refine ⟨by simp [topDownInit], ?_⟩
    intro n hn
    simp only [topDownInit, getD_replicate_zero] at hn
    omega
  | tail _ hstep ih => exact topDownStep_levelInv g _ _ ih hstep

theorem topDownLoop_steps (g : ProofGraph) : ∀ (fuel : Nat) (s s2 : TopDown),
    topDownLoop g fuel s = (.ok (), s2) → Relation.ReflTransGen (TopDownNext g) s s2 := by
  intro fuel
  induction fuel with
  | zero => intro s s2 h; simp [topDownLoop] at h
  | succ k ih =>
    intro s s2 h
    simp only [topDownLoop] at h
    cases hs : topDownStep g s with
    | error e => rw [hs] at h; simp at h
    | ok s3 =>
      rw [hs] at h
      simp only at h
      by_cases hq : s3.q.isEmpty
      · rw [if_pos hq] at h
        simp only [Prod.mk.injEq, true_and] at h
        rw [← h]
        exact Relation.ReflTransGen.single hs
      · rw [if_neg hq] at h
        exact Relation.ReflTransGen.head hs (ih s3 s2 h)

/-- C18. In every state that the top-down loop of checkProof reaches (at every iteration,
and at the end of the loop when no assertion fails), a node whose level is positive is
either a leaf of level exactly 1 or a derived node whose two antecedents have positive
levels and whose level is 1 plus the larger of them; an iteration, or any number of
iterations, leaves every positive level as it is; and the level is positive and strictly
smaller at the end of every antecedent edge that leaves a levelled node. -/
theorem topDown_level_invariant (g : ProofGraph) :
    (∀ s, TopDownReach g s →
      LevelInv g s.visit_level ∧
      (∀ s2, Relation.ReflTransGen (TopDownNext g) s s2 → ∀ n, 0 < s.visit_level.getD n 0 →
        s2.visit_level.getD n 0 = s.visit_level.getD n 0) ∧
      (∀ n m, 0 < s.visit_level.getD n 0 → IsAnt g n m →
        0 < s.visit_level.getD m 0 ∧ s.visit_level.getD m 0 < s.visit_level.getD n 0)) ∧
    (∀ fuel td, topDownLoop g fuel (topDownInit g) = (.ok (), td) → TopDownReach g td) := by
  constructor
  · intro s hs
    have hinv := topDownReach_levelInv g s hs
    refine ⟨hinv.2, ?_, fun n m hn hnm => levelInv_edge g _ hinv.2 n m hn hnm⟩
    intro s2 hpath
    induction hpath with
    | refl => intro n _; rfl
    | tail hab hbc ih =>
      intro n hn
      have hb := topDownReach_levelInv g _ (Relation.ReflTransGen.trans hs hab)
      have h1 := ih n hn
      rw [topDownStep_level_kept g _ _ hb hbc n (by rw [h1]; exact hn), h1]
  · intro fuel td h
    exact topDownLoop_steps g fuel _ td h

theorem topDown_level_invariant_witness :
    TopDownReach chainGraph
      { q := [], visit_level := [1, 1, 2, 1, 3], visited_2 := [4, 2, 3, 1, 0] } ∧
    LevelInv chainGraph [1, 1, 2, 1, 3] :=
  have h := (topDown_level_invariant chainGraph).2 8
    { q := [], visit_level := [1, 1, 2, 1, 3], visited_2 := [4, 2, 3, 1, 0] } rfl
  ⟨h, ((topDown_level_invariant chainGraph).1 _ h).1⟩
theorem bottomUpPusher_some (g : ProofGraph) (s : BottomUp) (x : Nat)
    (h : bottomUpPusher g s = some x) :
    ∃ q n, s.q = x :: q ∧ g.getNode x = some n ∧ n.isLeaf = false ∧ x ∉ s.visited_1 := by
  unfold bottomUpPusher at h
  cases hq : s.q with
  | nil => rw [hq] at h; simp at h
  | cons id q =>
    rw [hq] at h
    simp only at h
    cases hn : g.getNode id with
    | none => rw [hn] at h; simp at h
    | some n =>
      rw [hn] at h
      simp only at h
      cases hk : n.kind with
      | leaf => rw [hk] at h; simp at h
      | derived a b p =>
        rw [hk] at h
        simp only at h
        split_ifs at h with c
        simp only [Option.some.injEq] at h
        subst h
        exact ⟨q, n, rfl, hn, by simp [ProofNode.isLeaf, hk], c.2⟩

theorem bottomUpPushLog_nodup (X : Externals) (g : ProofGraph) (b : Bool) :
    ∀ (fuel : Nat) (s : BottomUp),
    (bottomUpPushLog X g b fuel s).Nodup ∧
    ∀ x ∈ bottomUpPushLog X g b fuel s, CanPushAntecedents g s x := by
  intro fuel
  induction fuel with
  | zero => intro s; simp [bottomUpPushLog]
  | succ k ih =>
    intro s
    have hhead : ∀ x, bottomUpPusher g s = some x → CanPushAntecedents g s x := by
      intro x hx
      obtain ⟨q, n, _, hn, hl, hv⟩ := bottomUpPusher_some g s x hx
      exact ⟨n, hn, hl, hv⟩
    simp only [bottomUpPushLog]
    cases hs : bottomUpStep X g b s with
    | error e =>
      simp only [List.append_nil]
      constructor
      · cases bottomUpPusher g s <;> simp
      · intro x hx
        exact hhead x (by simpa [Option.mem_toList] using hx)
    | ok s2 =>
      simp only
      obtain ⟨id, q, node, hq, hn, hv2, _⟩ := bottomUpStep_ok X g b s s2 hs
      by_cases hqe : s2.q.isEmpty
      · rw [if_pos hqe]
        simp only [List.append_nil]
        constructor
        · cases bottomUpPusher g s <;> simp
        · intro x hx
          exact hhead x (by simpa [Option.mem_toList] using hx)
      · rw [if_neg hqe]
        obtain ⟨hnd, hmem⟩ := ih s2
        constructor
        · rw [List.nodup_append]
          refine ⟨by cases bottomUpPusher g s <;> simp, hnd, ?_⟩
          intro x hx1 hx2
          have hx1' : bottomUpPusher g s = some x := by
            simpa [Option.mem_toList] using hx1
          obtain ⟨q2, _, hq2, _⟩ := bottomUpPusher_some g s x hx1'
          obtain ⟨_, _, _, hnv⟩ := hmem x hx2
          rw [hq] at hq2
          rw [hv2] at hnv
          have hxid : id = x := by injection hq2
          rw [hxid] at hnv
          exact hnv (List.mem_cons_self _ _)
        · intro x hx
          rcases List.mem_append.1 hx with hx | hx
          · exact hhead x (by simpa [Option.mem_toList] using hx)
          · obtain ⟨n, hn2, hl, hnv⟩ := hmem x hx
            rw [hv2] at hnv
            exact ⟨n, hn2, hl, fun hc => hnv (List.mem_cons_of_mem _ hc)⟩
theorem bottomUpPusher_eq (g : ProofGraph) (s : BottomUp) (id : Nat) (q : List Nat)
    (node : ProofNode) (id1 id2 pivot : Nat) (hq : s.q = id :: q)
    (hn : g.getNode id = some node) (hk : node.kind = .derived id1 id2 pivot)
    (hd : id1 ≠ id2) (hv : id ∉ s.visited_1) : bottomUpPusher g s = some id := by
  simp [bottomUpPusher, hq, hn, hk, hd, hv]

theorem bottomUpPushLog_spec (X : Externals) (g : ProofGraph) (b : Bool) :
    ∀ (fuel : Nat) (s bu : BottomUp), bottomUpLoop X g b fuel s = (.ok (), bu) →
      (∀ x ∈ s.visited_1, x ∈ bu.visited_1) ∧
      (∀ x ∈ bottomUpPushLog X g b fuel s, x ∈ bu.visited_1) ∧
      (∀ x n, g.getNode x = some n → n.isLeaf = false → x ∈ bu.visited_1 →
        x ∉ s.visited_1 → x ∈ bottomUpPushLog X g b fuel s) := by
  intro fuel
  induction fuel with
  | zero => intro s bu h; simp [bottomUpLoop] at h
  | succ k ih =>
    intro s bu h
    simp only [bottomUpLoop] at h
    cases hs : bottomUpStep X g b s with
    | error e => rw [hs] at h; simp at h
    | ok s2 =>
      rw [hs] at h
      simp only at h
      obtain ⟨id, q, node, hq, hn, hv2, hcase⟩ := bottomUpStep_ok X g b s s2 hs
      have hhead : ∀ x, bottomUpPusher g s = some x → x = id := by
        intro x hx
        obtain ⟨q2, _, hq2, _⟩ := bottomUpPusher_some g s x hx
        rw [hq] at hq2
        injection hq2 with h1 _
        exact h1.symm
      have hpush : ∀ n, g.getNode id = some n → n.isLeaf = false → id ∉ s.visited_1 →
          bottomUpPusher g s = some id := by
        intro n hn2 hl hnv
        rw [hn] at hn2
        cases hn2
        rcases hcase with ⟨hk, _⟩ | ⟨id1, id2, pivot, hk, hd, _, _⟩
        · simp [ProofNode.isLeaf, hk] at hl
        · exact bottomUpPusher_eq g s id q node id1 id2 pivot hq hn hk hd hnv
      simp only [bottomUpPushLog, hs]
      by_cases hqe : s2.q.isEmpty
      · rw [if_pos hqe] at h ⊢
        simp only [Prod.mk.injEq, true_and] at h
        subst h
        simp only [List.append_nil]
        refine ⟨?_, ?_, ?_⟩
        · intro x hx; rw [hv2]; exact List.mem_cons_of_mem _ hx
        · intro x hx
          have := hhead x (by simpa [Option.mem_toList] using hx)
          rw [hv2, this]; exact List.mem_cons_self _ _
        · intro x n hnx hl hin hnv
          rw [hv2] at hin
          rcases List.mem_cons.1 hin with rfl | hin
          · rw [hpush n hnx hl hnv]; simp
          · exact absurd hin hnv
      · rw [if_neg hqe] at h ⊢
        obtain ⟨h1, h2, h3⟩ := ih s2 bu h
        refine ⟨?_, ?_, ?_⟩
        · intro x hx
          exact h1 x (by rw [hv2]; exact List.mem_cons_of_mem _ hx)
        · intro x hx
          rcases List.mem_append.1 hx with hx | hx
          · have := hhead x (by simpa [Option.mem_toList] using hx)
            exact h1 x (by rw [hv2, this]; exact List.mem_cons_self _ _)
          · exact h2 x hx
        · intro x n hnx hl hin hnv
          by_cases hx2 : x ∈ s2.visited_1
          · rw [hv2] at hx2
            rcases List.mem_cons.1 hx2 with rfl | hx2
            · rw [hpush n hnx hl hnv]; simp
            · exact absurd hx2 hnv
          · exact List.mem_append_right _ (h3 x n hnx hl hin hx2)

theorem bottomUpTrace_spec (X : Externals) (g : ProofGraph) (b : Bool) :
    ∀ (fuel : Nat) (s bu : BottomUp), bottomUpLoop X g b fuel s = (.ok (), bu) →
      bu.visited_1 = ((bottomUpTrace X g b fuel s).map Prod.fst).reverse ++ s.visited_1 ∧
      (∀ e ∈ bottomUpTrace X g b fuel s, e.2 = [] ∨
        ∃ node id1 id2 pivot, g.getNode e.1 = some node ∧
          node.kind = .derived id1 id2 pivot ∧ e.2 = [id2, id1]) ∧
      ((bottomUpTrace X g b fuel s).filter (fun e => !e.2.isEmpty)).map Prod.fst =
        bottomUpPushLog X g b fuel s := by
  intro fuel
  induction fuel with
  | zero => intro s bu h; simp [bottomUpLoop] at h
  | succ k ih =>
    intro s bu h
    simp only [bottomUpLoop] at h
    cases hs : bottomUpStep X g b s with
    | error e => rw [hs] at h; simp at h
    | ok s2 =>
      rw [hs] at h
      simp only at h
      obtain ⟨id, q, node, hq, hn, hv2, hcase⟩ := bottomUpStep_ok X g b s s2 hs
      have hhead : bottomUpPushed s s2 = [] ∧ bottomUpPusher g s = none ∨
          (∃ id1 id2 pivot, node.kind = .derived id1 id2 pivot ∧
            bottomUpPushed s s2 = [id2, id1]) ∧ bottomUpPusher g s = some id := by
        rcases hcase with ⟨hk, hq2⟩ | ⟨id1, id2, pivot, hk, hd, _, hq2⟩
        · left
          constructor
          · simp [bottomUpPushed, hq, hq2]
          · simp [bottomUpPusher, hq, hn, hk]
        · by_cases hvis : id ∈ s.visited_1
          · left
            rw [if_neg (not_not.2 hvis)] at hq2
            constructor
            · simp [bottomUpPushed, hq, hq2]
            · simp [bottomUpPusher, hq, hn, hk, hvis]
          · right
            rw [if_pos hvis] at hq2
            refine ⟨⟨id1, id2, pivot, hk, ?_⟩,
              bottomUpPusher_eq g s id q node id1 id2 pivot hq hn hk hd hvis⟩
            have h2 : q.length + 1 + 1 - q.length = 2 := by omega
            simp [bottomUpPushed, hq, hq2, h2]
      have htail : ∀ (T : List (Nat × List Nat)) (L : List Nat) (v : List Nat),
          v = (T.map Prod.fst).reverse ++ s2.visited_1 →
          (∀ e ∈ T, e.2 = [] ∨ ∃ node id1 id2 pivot, g.getNode e.1 = some node ∧
            node.kind = .derived id1 id2 pivot ∧ e.2 = [id2, id1]) →
          (T.filter (fun e => !e.2.isEmpty)).map Prod.fst = L →
          v = (((id, bottomUpPushed s s2) :: T).map Prod.fst).reverse ++ s.visited_1 ∧
          (∀ e ∈ (id, bottomUpPushed s s2) :: T, e.2 = [] ∨
            ∃ node id1 id2 pivot, g.getNode e.1 = some node ∧
              node.kind = .derived id1 id2 pivot ∧ e.2 = [id2, id1]) ∧
          (((id, bottomUpPushed s s2) :: T).filter (fun e => !e.2.isEmpty)).map Prod.fst =
            (bottomUpPusher g s).toList ++ L := by
        intro T L v h1 h2 h3
        refine ⟨?_, ?_, ?_⟩
        · rw [h1, hv2]; simp
        · intro e he
          rcases List.mem_cons.1 he with rfl | he
          · rcases hhead with ⟨hp, _⟩ | ⟨⟨id1, id2, pivot, hk, hp⟩, _⟩
            · exact Or.inl hp
            · exact Or.inr ⟨node, id1, id2, pivot, hn, hk, hp⟩
          · exact h2 e he
        · rcases hhead with ⟨hp, hpu⟩ | ⟨⟨id1, id2, pivot, hk, hp⟩, hpu⟩
          · rw [hpu, List.filter_cons]
            simp [hp, h3]
          · rw [hpu, List.filter_cons]
            simp [hp, h3]
      by_cases he : s2.q.isEmpty = true
      · rw [if_pos he] at h
        have hbu : bu = s2 := by injection h with _ h2; exact h2.symm
        subst hbu
        simp only [bottomUpTrace, bottomUpPushLog, hq, hs, he, if_true]
        exact htail [] [] _ (by simp) (by intro e he2; cases he2) rfl
      · rw [if_neg he] at h
        obtain ⟨i1, i2, i3⟩ := ih s2 bu h
        simp only [bottomUpTrace, bottomUpPushLog, hq, hs, he]
        exact htail _ _ _ i1 i2 i3

/-- C17. If checkProof is entered with visited_1 clear and the bottom-up loop, started
after the top-down loop with the root on the stack, finishes without a fatal error, then the
ids marked visited_1 at the end of the loop are exactly the ids reachable from the root by
zero or more antecedent edges, whether or not the graph has cycles; they are the ids popped
by the iterations of the loop, every popped id is reachable, an iteration pushes nothing or
pushes exactly the two antecedents of the derived node it popped, and for every reachable
derived node exactly one iteration of the run pushes: the pushes are read off the stacks
that bottomUpStep leaves, iteration by iteration. -/
theorem bottomUp_computes_reachability (X : Externals) (g : ProofGraph) (b : Bool)
    (fuel fuel2 : Nat) (td : TopDown) (bu : BottomUp) (hv : g.visited_1 = [])
    (hA : topDownLoop g fuel (topDownInit g) = (.ok (), td))
    (hB : bottomUpLoop X g b fuel2
      { q := g.root :: td.q.reverse, visited_1 := g.visited_1 } = (.ok (), bu)) :
    (∀ x, x ∈ bu.visited_1 ↔ Reachable g x) ∧
    bu.visited_1 = ((bottomUpTrace X g b fuel2
      { q := g.root :: td.q.reverse, visited_1 := g.visited_1 }).map Prod.fst).reverse ∧
    (∀ e ∈ bottomUpTrace X g b fuel2
        { q := g.root :: td.q.reverse, visited_1 := g.visited_1 },
      Reachable g e.1 ∧ (e.2 = [] ∨ ∃ node id1 id2 pivot, g.getNode e.1 = some node ∧
        node.kind = .derived id1 id2 pivot ∧ e.2 = [id2, id1])) ∧
    (∀ x n, Reachable g x → g.getNode x = some n → n.isLeaf = false →
      (((bottomUpTrace X g b fuel2
        { q := g.root :: td.q.reverse, visited_1 := g.visited_1 }).filter
          (fun e => !e.2.isEmpty)).map Prod.fst).count x = 1) := by
  have hq := topDownLoop_ok_q g fuel _ td hA
  rw [hq, hv] at hB ⊢
  simp only [List.reverse_nil] at hB ⊢
  have hsound := bottomUp_visited_reachable X g b fuel2 bu hB
  have hcomplete := (bottomUp_closed X g b fuel2 [] bu (by simp) (by simp) hB).1
  obtain ⟨_, hlog1, hlog2⟩ := bottomUpPushLog_spec X g b fuel2 _ bu hB
  obtain ⟨hnd, _⟩ := bottomUpPushLog_nodup X g b fuel2 { q := [g.root], visited_1 := [] }
  obtain ⟨htr1, htr2, htr3⟩ := bottomUpTrace_spec X g b fuel2 _ bu hB
  simp only [List.append_nil] at htr1
  refine ⟨fun x => ⟨hsound x, hcomplete x⟩, htr1, ?_, ?_⟩
  · intro e he
    refine ⟨hsound e.1 ?_, htr2 e he⟩
    rw [htr1, List.mem_reverse]
    exact List.mem_map_of_mem Prod.fst he
  · intro x n hr hn hl
    rw [htr3]
    exact List.count_eq_one_of_mem hnd (hlog2 x n hn hl (hcomplete x hr) (by simp))

theorem bottomUp_computes_reachability_witness :
    (∀ x, x ∈ [0, 0, 1, 2, 1] ↔ Reachable cycleGraph x) ∧
    bottomUpTrace specExternals cycleGraph true 5 { q := [1], visited_1 := [] } =
      [(1, [2, 0]), (2, [1, 0]), (1, []), (0, []), (0, [])] :=
  have h := bottomUp_computes_reachability specExternals cycleGraph true 5 5
    { q := [], visit_level := [1, 0, 0], visited_2 := [2, 1, 0] }
    { q := [], visited_1 := [0, 0, 1, 2, 1] } rfl rfl rfl
  ⟨h.1, rfl⟩
theorem getNode_addDetachedLeaf (g : ProofGraph) (l : Lit) (x : Nat) (node : ProofNode)
    (h : g.getNode x = some node) : (addDetachedLeaf g l).getNode x = some node := by
  have hlt := getNode_lt g x node h
  unfold ProofGraph.getNode addDetachedLeaf at *
  unfold ProofGraph.getGraphSize at hlt
  simp only
  rw [List.getElem?_append_left hlt]
  exact h

theorem getNode_addDetachedLeaf_new (g : ProofGraph) (l : Lit) :
    (addDetachedLeaf g l).getNode g.getGraphSize =
      some { kind := .leaf, clause := [l], resolvents := [] } := by
  unfold ProofGraph.getNode addDetachedLeaf ProofGraph.getGraphSize
  simp

theorem getGraphSize_addDetachedLeaf (g : ProofGraph) (l : Lit) :
    (addDetachedLeaf g l).getGraphSize = g.getGraphSize + 1 := by
  unfold addDetachedLeaf ProofGraph.getGraphSize
  simp

theorem checkDerivation_ext (X : Externals) (g g2 : ProofGraph) (nid : Nat) (n : ProofNode)
    (hext : ∀ x node, g.getNode x = some node → g2.getNode x = some node)
    (h : checkDerivation X g nid n = .ok ()) : checkDerivation X g2 nid n = .ok () := by
  unfold checkDerivation at h ⊢
  cases hk : n.kind with
  | leaf => rfl
  | derived id1 id2 pivot =>
    rw [hk] at h
    simp only at h ⊢
    cases h1 : g.getNode id1 with
    | none =>
      rw [h1] at h
      split_ifs at h
    | some a1 =>
      cases h2 : g.getNode id2 with
      | none =>
        rw [h1, h2] at h
        split_ifs at h
      | some a2 =>
        rw [h1, h2] at h
        rw [hext id1 a1 h1, hext id2 a2 h2]
        exact h

theorem checkClause_ext (X : Externals) (g g2 : ProofGraph) (nid : Nat)
    (hext : ∀ x node, g.getNode x = some node → g2.getNode x = some node)
    (hroot : g2.root = g.root) (hsize : g.getGraphSize ≤ g2.getGraphSize)
    (h : checkClause X g nid = .ok ()) : checkClause X g2 nid = .ok () := by
  cases hn : g.getNode nid with
  | none => simp [checkClause, hn] at h
  | some n =>
    obtain ⟨h1, h2, h3⟩ := checkClause_ok_parts X g nid n hn h
    have hn2 := hext nid n hn
    have hsh : checkShape g2 nid n = .ok () := by
      unfold checkShape at h1 ⊢
      unfold ProofGraph.isRoot at h1 ⊢
      rw [hroot]
      rw [checkClauseSorting_eq g nid n hn] at h1
      rw [checkClauseSorting_eq g2 nid n hn2]
      exact h1
    have hd := checkDerivation_ext X g g2 nid n hext h2
    have hr : checkResolvents g2 nid n.resolvents = .ok () := by
      apply checkResolvents_ok_of
      intro r hr
      obtain ⟨hlt, res, hres, hant⟩ := checkResolvents_ok g nid _ h3 r hr
      exact ⟨by omega, res, hext r res hres, hant⟩
    simp only [checkClause, hn2, hsh, hd, hr]

theorem bottomUpStep_ext (X : Externals) (g g2 : ProofGraph) (b : Bool) (s s2 : BottomUp)
    (hext : ∀ x node, g.getNode x = some node → g2.getNode x = some node)
    (hroot : g2.root = g.root) (hsize : g.getGraphSize ≤ g2.getGraphSize)
    (h : bottomUpStep X g b s = .ok s2) : bottomUpStep X g2 b s = .ok s2 := by
  obtain ⟨id, q, node, hq, hn, hv, hcase⟩ := bottomUpStep_ok X g b s s2 h
  have hn2 := hext id node hn
  rcases hcase with ⟨hk, hq2⟩ | ⟨id1, id2, pivot, hk, hd, hck, hq2⟩
  · simp only [bottomUpStep, hq, hn2, hk]
    cases s2
    simp only at hv hq2
    rw [hv, hq2]
  · cases b with
    | false =>
      simp only [bottomUpStep, hq, hn2, hk, hd, ne_eq, not_false_eq_true, not_true_eq_false,
        if_false, Bool.false_eq_true]
      cases s2
      simp only at hv hq2
      rw [hv, hq2]
    | true =>
      have hc := checkClause_ext X g g2 id hext hroot hsize (hck rfl)
      simp only [bottomUpStep, hq, hn2, hk, hd, ne_eq, not_false_eq_true, not_true_eq_false,
        if_false, if_true, hc]
      cases s2
      simp only at hv hq2
      rw [hv, hq2]

theorem bottomUpLoop_ext (X : Externals) (g g2 : ProofGraph) (b : Bool)
    (hext : ∀ x node, g.getNode x = some node → g2.getNode x = some node)
    (hroot : g2.root = g.root) (hsize : g.getGraphSize ≤ g2.getGraphSize) :
    ∀ (fuel : Nat) (s bu : BottomUp), bottomUpLoop X g b fuel s = (.ok (), bu) →
      bottomUpLoop X g2 b (fuel + 1) s = (.ok (), bu) := by
  intro fuel
  induction fuel with
  | zero => intro s bu h; simp [bottomUpLoop] at h
  | succ k ih =>
    intro s bu h
    simp only [bottomUpLoop] at h
    cases hs : bottomUpStep X g b s with
    | error e => rw [hs] at h; simp at h
    | ok s2 =>
      rw [hs] at h
      simp only at h
      have hs2 := bottomUpStep_ext X g g2 b s s2 hext hroot hsize hs
      rw [bottomUpLoop, hs2]
      simp only
      by_cases hq : s2.q.isEmpty
      · rw [if_pos hq] at h ⊢
        exact h
      · rw [if_neg hq] at h ⊢
        exact ih s2 bu h

theorem bottomUp_visited_nodes (X : Externals) (g : ProofGraph) (b : Bool) (fuel : Nat)
    (bu : BottomUp)
    (h : bottomUpLoop X g b fuel { q := [g.root], visited_1 := [] } = (.ok (), bu)) :
    ∀ x ∈ bu.visited_1, x < g.getGraphSize := by
  have key := bottomUpLoop_invariant X g b
    (fun s => ∀ x ∈ s.visited_1, x < g.getGraphSize) ?_ fuel _ bu ?_ h
  · exact key.1
  · intro s s2 hP hs
    obtain ⟨id, q, node, _, hn, hv2, _⟩ := bottomUpStep_ok X g b s s2 hs
    rw [hv2]
    intro x hx
    rcases List.mem_cons.1 hx with rfl | hx
    · exact getNode_lt g x node hn
    · exact hP x hx
  · intro x hx; simp at hx

theorem consistencyLoop_append (v1 v2 : List Nat) : ∀ (l1 l2 : List Nat),
    consistencyLoop v1 v2 l1 = .ok () →
      consistencyLoop v1 v2 (l1 ++ l2) = consistencyLoop v1 v2 l2 := by
  intro l1
  induction l1 with
  | nil => intro l2 _; rfl
  | cons u rest ih =>
    intro l2 h
    unfold consistencyLoop at h
    simp only [List.cons_append]
    rw [consistencyLoop]
    split_ifs at h with c1 c2
    rw [if_neg c1, if_neg c2]
    exact ih l2 h

theorem consistencyLoop_congr (v1 v2 v3 : List Nat) : ∀ (l : List Nat),
    (∀ u ∈ l, (u ∈ v2 ↔ u ∈ v3)) →
      consistencyLoop v1 v2 l = consistencyLoop v1 v3 l := by
  intro l
  induction l with
  | nil => intro _; rfl
  | cons u rest ih =>
    intro h
    have hu := h u (List.mem_cons_self _ _)
    rw [consistencyLoop, consistencyLoop, ih (fun x hx => h x (List.mem_cons_of_mem _ hx))]
    simp only [hu]
theorem pushResolvents_ok_of (lv : List Nat) : ∀ (rs q : List Nat),
    (∀ r ∈ rs, lv[r]? = some 0) → pushResolvents lv q rs = .ok (q ++ rs) := by
  intro rs
  induction rs with
  | nil => intro q _; simp [pushResolvents]
  | cons r rest ih =>
    intro q h
    have hr := h r (List.mem_cons_self _ _)
    simp only [pushResolvents, hr, if_true]
    rw [ih (q ++ [r]) (fun x hx => h x (List.mem_cons_of_mem _ hx))]
    simp

theorem getElem?_append_one (lv : List Nat) (c i v : Nat) (h : lv[i]? = some v) :
    (lv ++ [c])[i]? = some v := by
  have hlt : i < lv.length := by
    by_contra hc
    rw [List.getElem?_eq_none (by omega)] at h
    cases h
  rw [List.getElem?_append_left hlt]
  exact h

theorem set_append_one (lv : List Nat) (c i v : Nat) (h : i < lv.length) :
    (lv ++ [c]).set i v = lv.set i v ++ [c] := by
  rw [List.set_append_left _ _ h]

/-- One iteration of the top-down loop on a graph is repeated, on the graph with one more
detached leaf, from any state whose queue starts with the same id, whose level vector has
one more entry and in which the popped id has the same marker. -/
theorem topDownStep_sim (g : ProofGraph) (l : Lit) (s t s2 : TopDown) (id c : Nat)
    (q q3 : List Nat) (hq : s.q = id :: q) (hq3 : t.q = id :: q3)
    (hlen : s.visit_level.length = g.getGraphSize)
    (hlv : t.visit_level = s.visit_level ++ [c])
    (hv : id ∈ t.visited_2 ↔ id ∈ s.visited_2)
    (h : topDownStep g s = .ok s2) :
    ∃ P t2, topDownStep (addDetachedLeaf g l) t = .ok t2 ∧ s2.q = q ++ P ∧ t2.q = q3 ++ P ∧
      t2.visit_level = s2.visit_level ++ [c] ∧ s2.visit_level.length = g.getGraphSize ∧
      ((s2.visited_2 = id :: s.visited_2 ∧ t2.visited_2 = id :: t.visited_2) ∨
       (s2.visited_2 = s.visited_2 ∧ t2.visited_2 = t.visited_2)) := by
  obtain ⟨id0, q0, n, hq0, hn, hcase⟩ := topDownStep_ok g s s2 h
  rw [hq] at hq0
  injection hq0 with hid hqq
  subst hid
  subst hqq
  have hn2 := getNode_addDetachedLeaf g l id n hn
  have hidlt : id < s.visit_level.length := by rw [hlen]; exact getNode_lt g id n hn
  rcases hcase with ⟨hnv, hk, hq2, hlv2, hv2⟩ | ⟨hnv, hleaf, hq2, hlv2, hv2⟩ |
    ⟨id1, id2, pivot, l1, l2, hin, hk, hl0, hq2, hres, h1, hl1, h2, hl2, hlv2, hv2⟩
  · have hnv3 : id ∉ t.visited_2 := fun hc => hnv (hv.1 hc)
    have hleaf : n.isLeaf = true := by simp [ProofNode.isLeaf, hk]
    refine ⟨n.resolvents, TopDown.mk (q3 ++ n.resolvents) (t.visit_level.set id 1)
      (id :: t.visited_2), ?_, hq2, rfl, ?_, ?_, Or.inl ⟨hv2, rfl⟩⟩
    · simp only [topDownStep, hq3, hn2, hnv3, not_false_eq_true, if_true, hleaf]
    · simp only
      rw [hlv, hlv2, set_append_one _ _ _ _ hidlt]
    · rw [hlv2, List.length_set]; exact hlen
  · have hnv3 : id ∉ t.visited_2 := fun hc => hnv (hv.1 hc)
    refine ⟨[], TopDown.mk q3 t.visit_level (id :: t.visited_2),
      ?_, by simp [hq2], by simp, ?_, ?_, Or.inl ⟨hv2, rfl⟩⟩
    · simp only [topDownStep, hq3, hn2, hnv3, not_false_eq_true, if_true, hleaf,
        Bool.false_eq_true, if_false]
    · simp only
      rw [hlv, hlv2]
    · rw [hlv2]; exact hlen
  · have hin3 : id ∈ t.visited_2 := hv.2 hin
    refine ⟨n.resolvents, TopDown.mk (q3 ++ n.resolvents)
      (t.visit_level.set id (if l1 > l2 then l1 + 1 else l2 + 1)) t.visited_2,
      ?_, hq2, rfl, ?_, ?_, Or.inr ⟨hv2, rfl⟩⟩
    · have e0 : t.visit_level[id]? = some 0 := by
        rw [hlv]; exact getElem?_append_one _ _ _ _ hl0
      have e1 : t.visit_level[id1]? = some l1 := by
        rw [hlv]; exact getElem?_append_one _ _ _ _ h1
      have e2 : t.visit_level[id2]? = some l2 := by
        rw [hlv]; exact getElem?_append_one _ _ _ _ h2
      have ep : pushResolvents t.visit_level q3 n.resolvents = .ok (q3 ++ n.resolvents) := by
        apply pushResolvents_ok_of
        intro r hr
        rw [hlv]; exact getElem?_append_one _ _ _ _ (hres r hr)
      have hl1' : ¬ ¬ l1 > 0 := not_not.2 hl1
      have hl2' : ¬ ¬ l2 > 0 := not_not.2 hl2
      simp only [topDownStep, hq3, hn2, hin3, not_true_eq_false, if_false, hk, e0, ep, e1, e2,
        hl1', hl2', ne_eq]
    · simp only
      rw [hlv, hlv2, set_append_one _ _ _ _ hidlt]
    · rw [hlv2, List.length_set]; exact hlen
theorem topDownStep_new_leaf (g : ProofGraph) (l : Lit) (t : TopDown) (B lv : List Nat)
    (hq : t.q = g.getGraphSize :: B) (hlv : t.visit_level = lv ++ [0])
    (hlen : lv.length = g.getGraphSize) (hv : g.getGraphSize ∉ t.visited_2) :
    topDownStep (addDetachedLeaf g l) t =
      .ok (TopDown.mk B (lv ++ [1]) (g.getGraphSize :: t.visited_2)) := by
  have hset : (lv ++ [0]).set g.getGraphSize 1 = lv ++ [1] := by
    rw [← hlen, List.set_append_right _ _ (Nat.le_refl _)]
    simp
  simp only [topDownStep, hq, getNode_addDetachedLeaf_new, hv, not_false_eq_true, if_true,
    ProofNode.isLeaf, hlv, hset, List.append_nil]

theorem topDownLoop_sim_after (g : ProofGraph) (l : Lit) : ∀ (fuel : Nat) (s t td : TopDown),
    t.q = s.q → t.visit_level = s.visit_level ++ [1] →
    s.visit_level.length = g.getGraphSize →
    (∀ x, x ∈ t.visited_2 ↔ x = g.getGraphSize ∨ x ∈ s.visited_2) →
    topDownLoop g fuel s = (.ok (), td) →
    ∃ td2, topDownLoop (addDetachedLeaf g l) fuel t = (.ok (), td2) ∧
      (∀ x, x ∈ td2.visited_2 ↔ x = g.getGraphSize ∨ x ∈ td.visited_2) := by
  intro fuel
  induction fuel with
  | zero => intro s t td _ _ _ _ h; simp [topDownLoop] at h
  | succ k ih =>
    intro s t td hq hlv hlen hv h
    simp only [topDownLoop] at h
    cases hs : topDownStep g s with
    | error e => rw [hs] at h; simp at h
    | ok s2 =>
      rw [hs] at h
      simp only at h
      obtain ⟨id, q, n, hsq, hn, _⟩ := topDownStep_ok g s s2 hs
      have hidne : id ≠ g.getGraphSize := by
        have := getNode_lt g id n hn
        omega
      obtain ⟨P, t2, ht, hq2, hq3, hlv2, hlen2, hvv⟩ := topDownStep_sim g l s t s2 id 1 q q
        hsq (by rw [hq, hsq]) hlen hlv (by rw [hv]; simp [hidne]) hs
      have hv2 : ∀ x, x ∈ t2.visited_2 ↔ x = g.getGraphSize ∨ x ∈ s2.visited_2 := by
        intro x
        rcases hvv with ⟨ha, hb⟩ | ⟨ha, hb⟩
        · rw [ha, hb, List.mem_cons, List.mem_cons, hv]
          tauto
        · rw [ha, hb, hv]
      have hqq : t2.q = s2.q := by rw [hq2, hq3]
      rw [topDownLoop, ht]
      simp only
      rw [hqq]
      by_cases hqe : s2.q.isEmpty
      · rw [if_pos hqe] at h ⊢
        simp only [Prod.mk.injEq, true_and] at h
        subst h
        exact ⟨t2, rfl, hv2⟩
      · rw [if_neg hqe] at h ⊢
        exact ih s2 t2 td hqq hlv2 hlen2 hv2 h

theorem topDownLoop_sim_before (g : ProofGraph) (l : Lit) :
    ∀ (fuel : Nat) (A B : List Nat) (s t td : TopDown),
    s.q = A ++ B → t.q = A ++ g.getGraphSize :: B →
    t.visit_level = s.visit_level ++ [0] → s.visit_level.length = g.getGraphSize →
    t.visited_2 = s.visited_2 → g.getGraphSize ∉ s.visited_2 →
    topDownLoop g fuel s = (.ok (), td) →
    ∃ td2, topDownLoop (addDetachedLeaf g l) (fuel + 1) t = (.ok (), td2) ∧
      (∀ x, x ∈ td2.visited_2 ↔ x = g.getGraphSize ∨ x ∈ td.visited_2) := by
  intro fuel
  induction fuel with
  | zero => intro A B s t td _ _ _ _ _ _ h; simp [topDownLoop] at h
  | succ k ih =>
    intro A B s t td hq hq3 hlv hlen hv hnv h
    have hfull := h
    simp only [topDownLoop] at h
    cases hs : topDownStep g s with
    | error e => rw [hs] at h; simp at h
    | ok s2 =>
      rw [hs] at h
      simp only at h
      obtain ⟨id, q, n, hsq, hn, _⟩ := topDownStep_ok g s s2 hs
      cases A with
      | nil =>
        simp only [List.nil_append] at hq hq3
        have hstep := topDownStep_new_leaf g l t B s.visit_level hq3 hlv hlen
          (by rw [hv]; exact hnv)
        have hB : B ≠ [] := by
          intro hc
          rw [hc] at hq
          rw [hq] at hsq
          cases hsq
        rw [topDownLoop, hstep]
        simp only
        have hne : ¬ B.isEmpty = true := by simpa using hB
        rw [if_neg hne]
        exact topDownLoop_sim_after g l (k + 1) s _ td hq.symm rfl hlen
          (by intro x; simp [hv]) hfull
      | cons a A2 =>
        simp only [List.cons_append] at hq hq3
        rw [hq] at hsq
        injection hsq with h1 h2
        subst h1
        subst h2
        have hidne : a ≠ g.getGraphSize := by
          have := getNode_lt g a n hn
          omega
        obtain ⟨P, t2, ht, hq2, hq4, hlv2, hlen2, hvv⟩ := topDownStep_sim g l s t s2 a 0
          (A2 ++ B) (A2 ++ g.getGraphSize :: B) hq hq3 hlen hlv (by rw [hv]) hs
        have hv2 : t2.visited_2 = s2.visited_2 := by
          rcases hvv with ⟨ha, hb⟩ | ⟨ha, hb⟩
          · rw [ha, hb, hv]
          · rw [ha, hb, hv]
        have hnv2 : g.getGraphSize ∉ s2.visited_2 := by
          rcases hvv with ⟨ha, _⟩ | ⟨ha, _⟩
          · rw [ha]
            intro hc
            rcases List.mem_cons.1 hc with hc | hc
            · exact hidne hc.symm
            · exact hnv hc
          · rw [ha]; exact hnv
        have hq5 : t2.q = A2 ++ g.getGraphSize :: (B ++ P) := by
          rw [hq4]; simp
        have hq6 : s2.q = A2 ++ (B ++ P) := by
          rw [hq2]; simp
        have hne : ¬ t2.q.isEmpty = true := by
          rw [hq5]; simp
        rw [topDownLoop, ht]
        simp only
        rw [if_neg hne]
        by_cases hqe : s2.q.isEmpty
        · rw [if_pos hqe] at h
          simp only [Prod.mk.injEq, true_and] at h
          subst h
          have hnil : s2.q = [] := by simpa using hqe
          rw [hnil] at hq6
          have hA2 : A2 = [] := (List.append_eq_nil.1 hq6.symm).1
          have hBP : B ++ P = [] := (List.append_eq_nil.1 hq6.symm).2
          rw [hA2, hBP] at hq5
          simp only [List.nil_append] at hq5
          have hstep := topDownStep_new_leaf g l t2 [] s2.visit_level hq5 hlv2 hlen2
            (by rw [hv2]; exact hnv2)
          rw [topDownLoop, hstep]
          simp only [List.isEmpty_nil, if_true]
          refine ⟨_, rfl, ?_⟩
          intro x
          simp [hv2]
        · rw [if_neg hqe] at h
          exact ih A2 (B ++ P) s2 t2 td hq6 hq5 hlv2 hlen2 hv2 hnv2 h
theorem bottomUp_visited_some (X : Externals) (g : ProofGraph) (b : Bool) (fuel : Nat)
    (bu : BottomUp)
    (h : bottomUpLoop X g b fuel { q := [g.root], visited_1 := [] } = (.ok (), bu)) :
    ∀ x ∈ bu.visited_1, ∃ node, g.getNode x = some node := by
  have key := bottomUpLoop_invariant X g b
    (fun s => ∀ x ∈ s.visited_1, ∃ node, g.getNode x = some node) ?_ fuel _ bu ?_ h
  · exact key.1
  · intro s s2 hP hs
    obtain ⟨id, q, node, _, hn, hv2, _⟩ := bottomUpStep_ok X g b s s2 hs
    rw [hv2]
    intro x hx
    rcases List.mem_cons.1 hx with rfl | hx
    · exact ⟨node, hn⟩
    · exact hP x hx
  · intro x hx; simp at hx

/-- C12 (as amended). When checkProof, entered with both marker sets clear, accepts a graph,
then on the graph with one more leaf node that is declared a leaf, has no resolvents and is
no antecedent of any node, checkProof (with one more unit of fuel, for the extra iteration
of the top-down loop) fails, and the failure raised is the unreachable-going-bottom-up
error for the new leaf, thrown by the consistency loop of lines 237-246 before the
detached-leaf loop is reached. -/
theorem checkProof_detached_leaf_unreachable (X : Externals) (fuel : Nat) (g : ProofGraph)
    (b : Bool) (l : Lit) (hv1 : g.visited_1 = []) (hv2 : g.visited_2 = [])
    (h : (checkProof X fuel g b).1 = .ok ()) :
    (checkProof X (fuel + 1) (addDetachedLeaf g l) b).1 =
      .error (.thrown (.unreachableBottomUp g.getGraphSize)) := by
  obtain ⟨td, bu, hA, hB, _, hC, _, _⟩ := checkProof_ok X fuel g b h
  rw [hv1] at hB
  have hinit : topDownLoop g fuel (topDownInit g) = (.ok (), td) := hA
  obtain ⟨td2, hA2, hvv⟩ := topDownLoop_sim_before g l fuel g.leaves_ids [] (topDownInit g)
    (topDownInit (addDetachedLeaf g l)) td (by simp [topDownInit]) rfl
    (by
      simp only [topDownInit, getGraphSize_addDetachedLeaf]
      rw [List.replicate_succ']) (by simp [topDownInit]) rfl
    (by simp [topDownInit, hv2]) hinit
  have hq2 := topDownLoop_ok_q _ _ _ td2 hA2
  have hroot : (addDetachedLeaf g l).root = g.root := rfl
  have hsome := bottomUp_visited_some X g b fuel bu hB
  have hall := (bottomUp_closed X g b fuel [] bu (by simp) (by simp) hB).1
  obtain ⟨rn, hrn⟩ := hsome g.root (hall g.root Relation.ReflTransGen.refl)
  have hrn2 := getNode_addDetachedLeaf g l g.root rn hrn
  have hB2 := bottomUpLoop_ext X g (addDetachedLeaf g l) b
    (fun x node hx => getNode_addDetachedLeaf g l x node hx) hroot
    (by rw [getGraphSize_addDetachedLeaf]; omega) fuel _ bu hB
  have hnot : g.getGraphSize ∉ bu.visited_1 := by
    intro hc
    obtain ⟨node, hnode⟩ := hsome _ hc
    have := getNode_lt g _ node hnode
    omega
  have hin : g.getGraphSize ∈ td2.visited_2 := (hvv _).2 (Or.inl rfl)
  have hC2 : consistencyLoop bu.visited_1 td2.visited_2
      (List.range (addDetachedLeaf g l).getGraphSize) =
      .error (.thrown (.unreachableBottomUp g.getGraphSize)) := by
    rw [getGraphSize_addDetachedLeaf, List.range_succ]
    have hsame : consistencyLoop bu.visited_1 td2.visited_2 (List.range g.getGraphSize) =
        .ok () := by
      rw [← hC]
      apply consistencyLoop_congr
      intro u hu
      have hult := List.mem_range.1 hu
      rw [hvv]
      constructor
      · rintro (hc | hc)
        · omega
        · exact hc
      · intro hc; exact Or.inr hc
    rw [consistencyLoop_append _ _ _ _ hsame]
    simp [consistencyLoop, hnot, hin]
  have hv1' : (addDetachedLeaf g l).visited_1 = [] := hv1
  unfold checkProof
  rw [hA2]
  simp only [hq2, List.reverse_nil, hroot, hrn2, hv1', hB2, hC2]

theorem checkProof_detached_leaf_unreachable_witness :
    (checkProof specExternals 9 (addDetachedLeaf chainGraph ⟨2, false⟩) true).1 =
      .error (.thrown (.unreachableBottomUp 5)) :=
  checkProof_detached_leaf_unreachable specExternals 8 chainGraph true ⟨2, false⟩ rfl rfl rfl

/-- C12 (as stated) fails: the acceptance graph is accepted by checkProof, and with the
extra declared leaf q (node 3, no resolvents, no node has it as an antecedent) checkProof
fails for both values of check_clauses with the unreachable-going-bottom-up error for
node 3, not with the detached-leaf error. -/
theorem checkProof_detached_leaf_not_reported :
    (checkProof specExternals 4 acceptanceGraph true).1 = .ok () ∧
    addDetachedLeaf acceptanceGraph ⟨1, false⟩ =
      { graph := [some { kind := .leaf, clause := [⟨0, true⟩], resolvents := [2] },
                  some { kind := .leaf, clause := [⟨0, false⟩], resolvents := [2] },
                  some { kind := .derived 0 1 0, clause := [], resolvents := [] },
                  some { kind := .leaf, clause := [⟨1, false⟩], resolvents := [] }],
        root := 2, leaves_ids := [0, 1, 3], visited_1 := [], visited_2 := [] } ∧
    (checkProof specExternals 5 (addDetachedLeaf acceptanceGraph ⟨1, false⟩) true).1 =
      .error (.thrown (.unreachableBottomUp 3)) ∧
    (checkProof specExternals 5 (addDetachedLeaf acceptanceGraph ⟨1, false⟩) false).1 =
      .error (.thrown (.unreachableBottomUp 3)) ∧
    (checkProof specExternals 5 (addDetachedLeaf acceptanceGraph ⟨1, false⟩) true).1 ≠
      .error (.thrown (.detachedLeaf 3)) :=
  ⟨rfl, rfl, rfl, rfl, by
    intro hc
    have h3 : (checkProof specExternals 5 (addDetachedLeaf acceptanceGraph ⟨1, false⟩) true).1 =
      .error (.thrown (.unreachableBottomUp 3)) := rfl
    rw [h3] at hc
    cases hc⟩

theorem expandedResolvents_append (E : List Nat) (node : ProofNode) (m : Nat) (hm : m ∉ E)
    (hL : node.resolvents.Nodup) :
    expandedResolvents (E ++ [m]) node =
      expandedResolvents E node + (if m ∈ node.resolvents then 1 else 0) := by
  unfold expandedResolvents
  generalize node.resolvents = L at hL
  induction L with
  | nil => simp
  | cons x L ih =>
    have hx : x ∉ L := (List.nodup_cons.1 hL).1
    have ih2 := ih (List.nodup_cons.1 hL).2
    simp only [List.filter_cons]
    by_cases hxm : x = m
    · subst hxm
      have h1 : decide (x ∈ E ++ [x]) = true := by simp
      have h2 : decide (x ∈ E) = false := by simp [hm]
      rw [h1, h2]
      simp only [if_true, List.length_cons, ih2]
      simp [hx]
    · have h1 : decide (x ∈ E ++ [m]) = decide (x ∈ E) := by simp [hxm]
      have h3 : (m ∈ x :: L) ↔ m ∈ L := by
        simp only [List.mem_cons]
        constructor
        · rintro (h | h)
          · exact absurd h.symm hxm
          · exact h
        · intro h; exact Or.inr h
      rw [h1]
      simp only [h3]
      by_cases hxE : x ∈ E
      · simp only [hxE, decide_True, if_true, List.length_cons, ih2]; omega
      · simp only [hxE, decide_False, Bool.false_eq_true, if_false]
        exact ih2

theorem expandedResolvents_le (E : List Nat) (node : ProofNode) :
    expandedResolvents E node ≤ node.getNumResolvents := by
  unfold expandedResolvents ProofNode.getNumResolvents
  exact List.length_filter_le _ _

theorem expandedResolvents_lt (E : List Nat) (node : ProofNode) (m : Nat)
    (hm : m ∈ node.resolvents) (hE : m ∉ E) :
    expandedResolvents E node < node.getNumResolvents := by
  unfold expandedResolvents ProofNode.getNumResolvents
  apply List.length_filter_lt_length_iff_exists.2
  exact ⟨m, hm, by simpa using hE⟩

theorem expandedResolvents_all (E : List Nat) (node : ProofNode)
    (h : node.getNumResolvents ≤ expandedResolvents E node) :
    ∀ m ∈ node.resolvents, m ∈ E := by
  intro m hm
  by_contra hE
  have := expandedResolvents_lt E node m hm hE
  omega

theorem expandedResolvents_full (E : List Nat) (node : ProofNode)
    (h : ∀ m ∈ node.resolvents, m ∈ E) :
    expandedResolvents E node = node.getNumResolvents := by
  unfold expandedResolvents ProofNode.getNumResolvents
  rw [List.filter_eq_self.2]
  intro a ha
  simpa using h a ha

theorem isAnt_derived (g : ProofGraph) (id : Nat) (node : ProofNode) (a b p : Nat)
    (hn : g.getNode id = some node) (hk : node.kind = .derived a b p) (n : Nat) :
    IsAnt g id n ↔ n = a ∨ n = b := by
  constructor
  · rintro ⟨node2, id1, id2, pv, h1, h2, h3⟩
    rw [hn] at h1
    cases h1
    rw [hk] at h2
    cases h2
    exact h3
  · intro h
    exact ⟨node, a, b, p, hn, hk, h⟩

theorem isAnt_leaf (g : ProofGraph) (id : Nat) (node : ProofNode)
    (hn : g.getNode id = some node) (hk : node.kind = .leaf) (n : Nat) :
    ¬ IsAnt g id n := by
  rintro ⟨node2, id1, id2, pv, h1, h2, _⟩
  rw [hn] at h1
  cases h1
  rw [hk] at h2
  cases h2

theorem collectGraph_ne_self (g : ProofGraph) (hg : CollectGraph g) (n m : Nat)
    (h : IsAnt g n m) : m ≠ n := by
  intro hc
  subst hc
  exact hg.acyclic m (Relation.TransGen.single h)

theorem collectGraph_ne_root (g : ProofGraph) (hg : CollectGraph g) (n m : Nat)
    (h : IsAnt g n m) : m ≠ g.root := by
  intro hc
  subst hc
  obtain ⟨r, hr, hres⟩ := hg.root
  have := (hg.back g.root n r hr).2 h
  rw [hres] at this
  simp at this

theorem collectGraph_numResolvents_pos (g : ProofGraph) (hg : CollectGraph g) (n : Nat)
    (node : ProofNode) (hn : g.getNode n = some node) (hne : n ≠ g.root) :
    1 ≤ node.getNumResolvents := by
  have hr : Relation.ReflTransGen (IsAnt g) g.root n := hg.reach n node hn
  rcases Relation.ReflTransGen.cases_tail hr with h | ⟨m, _, hm⟩
  · exact absurd h hne
  · have := (hg.back n m node hn).2 hm
    unfold ProofNode.getNumResolvents
    exact List.length_pos_of_mem this

theorem collectInv_length_le (g : ProofGraph) (s : Collect) (E : List Nat)
    (hI : CollectInv g s E) : E.length ≤ g.getGraphSize := by
  have hsub : E ⊆ List.range g.getGraphSize := by
    intro x hx
    obtain ⟨node, hnode⟩ := hI.nodes x hx
    exact List.mem_range.2 (getNode_lt g x node hnode)
  have := (hI.nodup.subperm hsub).length_le
  simpa using this

theorem getElem?_some_getD (l : List Nat) (n : Nat) (h : n < l.length) :
    l[n]? = some (l[n]?.getD 0) := by
  rw [List.getElem?_eq_getElem h]
  rfl

theorem getD_set (l : List Nat) (id v n : Nat) (h : id < l.length) :
    (l.set id v)[n]?.getD 0 = if n = id then v else l[n]?.getD 0 := by
  rw [List.getElem?_set]
  by_cases hn : id = n
  · subst hn
    simp [h]
  · have hn2 : ¬ n = id := fun hc => hn hc.symm
    simp [hn, hn2]

theorem order_append (g : ProofGraph) (E : List Nat) (id : Nat) (node : ProofNode)
    (hn : g.getNode id = some node)
    (hord : ∀ pre n post nd, E = pre ++ n :: post → g.getNode n = some nd →
      ∀ m ∈ nd.resolvents, m ∈ pre)
    (hall : ∀ m ∈ node.resolvents, m ∈ E) :
    ∀ pre n post nd, E ++ [id] = pre ++ n :: post → g.getNode n = some nd →
      ∀ m ∈ nd.resolvents, m ∈ pre := by
  intro pre n post nd hE hnd m hm
  rcases List.eq_nil_or_concat post with hp | ⟨post2, y, hp⟩
  · subst hp
    have h1 : E ++ [id] = pre ++ [n] := hE
    have h2 := List.append_inj' h1 rfl
    have h3 : id = n := by
      have := h2.2
      injection this
    subst h3
    rw [hn] at hnd
    cases hnd
    rw [← h2.1]
    exact hall m hm
  · subst hp
    have h1 : E ++ [id] = (pre ++ n :: post2) ++ [y] := by
      rw [hE]; simp
    have h2 := List.append_inj' h1 rfl
    exact hord pre n post2 nd h2.1 hnd m hm

theorem collectStep_inv (g : ProofGraph) (hg : CollectGraph g) (s : Collect) (E : List Nat)
    (hI : CollectInv g s E) (hq : s.q ≠ []) :
    ∃ s2, collectStep g s = .ok s2 ∧
      CollectInv g s2 (E ++ (collectExpander g s).toList) ∧
      s2.q.length + 2 * (g.getGraphSize - (E ++ (collectExpander g s).toList).length) + 1 ≤
        s.q.length + 2 * (g.getGraphSize - E.length) := by
  obtain ⟨id, q, hq2⟩ := List.exists_cons_of_ne_nil hq
  obtain ⟨node, hn⟩ := hI.qnodes id (by rw [hq2]; simp)
  have hlt := getNode_lt g id node hn
  have hlen := hI.len
  have hc := getElem?_some_getD s.visited_count id (by omega)
  generalize hcd : s.visited_count[id]?.getD 0 = c at hc
  have hvc : ∀ n, (s.visited_count.set id (c + 1))[n]?.getD 0 =
      if n = id then c + 1 else s.visited_count[n]?.getD 0 :=
    fun n => getD_set s.visited_count id (c + 1) n (by omega)
  have hcnt : ∀ n, s.q.count n = q.count n + (if n = id then 1 else 0) := by
    intro n
    rw [hq2, List.count_cons]
    by_cases h : id = n
    · subst h; simp
    · have h2 : ¬ n = id := fun hc => h hc.symm
      simp [h, h2]
  have hbid := hI.bal id node hn
  rw [hcd, hcnt id] at hbid
  simp only [if_true] at hbid
  have hle := expandedResolvents_le E node
  obtain ⟨r, hr, hres⟩ := hg.root
  have hqn : ∀ x ∈ q, ∃ nd, g.getNode x = some nd := fun x hx =>
    hI.qnodes x (by rw [hq2]; exact List.mem_cons_of_mem _ hx)
  by_cases hexp : id = g.root ∨ c + 1 = node.getNumResolvents
  · have hlog : collectExpander g s = some id := by
      simp only [collectExpander, hq2, hn, hc]
      rw [if_pos hexp]
    have hidE : id ∉ E := by
      by_cases hroot : id = g.root
      · intro hmem
        rw [hroot] at hmem
        have h1 := hI.expRoot.1 hmem
        rw [← hroot, hcd] at h1
        rw [hroot, hr] at hn
        cases hn
        have h0 : expandedResolvents E node = 0 := by
          unfold expandedResolvents; rw [hres]; rfl
        rw [if_pos hroot] at hbid
        omega
      · rcases hexp with h | h
        · exact absurd h hroot
        · intro hmem
          have := (hI.exp id node hn hroot).1 hmem
          omega
    have hall : ∀ m ∈ node.resolvents, m ∈ E := by
      by_cases hroot : id = g.root
      · rw [hroot, hr] at hn
        cases hn
        rw [hres]
        intro m hm
        cases hm
      · rcases hexp with h | h
        · exact absurd h hroot
        · rw [if_neg hroot] at hbid
          exact expandedResolvents_all E node (by omega)
    have hnodup2 : (E ++ [id]).Nodup := by
      rw [List.nodup_append]
      refine ⟨hI.nodup, List.nodup_singleton id, ?_⟩
      intro x hx hx2
      rw [List.mem_singleton] at hx2
      subst hx2
      exact hidE hx
    have hnodes2 : ∀ x ∈ E ++ [id], ∃ nd, g.getNode x = some nd := by
      intro x hx
      rcases List.mem_append.1 hx with h | h
      · exact hI.nodes x h
      · rw [List.mem_singleton] at h
        subst h
        exact ⟨node, hn⟩
    have hElen : E.length + 1 ≤ g.getGraphSize := by
      have hsub : E ++ [id] ⊆ List.range g.getGraphSize := by
        intro x hx
        obtain ⟨nd, hnd⟩ := hnodes2 x hx
        exact List.mem_range.2 (getNode_lt g x nd hnd)
      have := (hnodup2.subperm hsub).length_le
      simpa using this
    have hexp2 : ∀ n nd, g.getNode n = some nd → n ≠ g.root →
        (n ∈ E ++ [id] ↔ (s.visited_count.set id (c + 1))[n]?.getD 0 = nd.getNumResolvents) := by
      intro n nd hnd hnroot
      rw [hvc n]
      by_cases hnid : n = id
      · subst hnid
        rw [hn] at hnd
        cases hnd
        rw [if_pos rfl]
        rcases hexp with h | h
        · exact absurd h hnroot
        · simp [h]
      · rw [if_neg hnid]
        rw [← hI.exp n nd hnd hnroot]
        simp [hnid]
    have hexpRoot2 : g.root ∈ E ++ [id] ↔
        1 ≤ (s.visited_count.set id (c + 1))[g.root]?.getD 0 := by
      rw [hvc g.root]
      by_cases hroot : g.root = id
      · rw [if_pos hroot]
        simp [hroot]
      · rw [if_neg hroot, ← hI.expRoot]
        simp [hroot]
    have horder2 := order_append g E id node hn hI.order hall
    have hback : ∀ n nd, g.getNode n = some nd → (id ∈ nd.resolvents ↔ IsAnt g id n) :=
      fun n nd hnd => hg.back n id nd hnd
    rw [hlog]
    simp only [Option.toList_some]
    cases hk : node.kind with
    | leaf =>
      refine ⟨Collect.mk q (s.visited_count.set id (c + 1)) (s.proofleaves ++ [id]), ?_, ?_, ?_⟩
      · simp only [collectStep, hq2, hn, hc]
        rw [if_pos hexp]
        simp only [hk]
      · refine ⟨?_, hqn, hnodup2, hnodes2, ?_, hexp2, hexpRoot2, horder2, ?_⟩
        · simp only [List.length_set]; exact hlen
        · intro n nd hnd
          have hold := hI.bal n nd hnd
          rw [hcnt n] at hold
          rw [expandedResolvents_append E nd id hidE (hg.nodup n nd hnd)]
          have hno : ¬ id ∈ nd.resolvents := fun hc2 =>
            isAnt_leaf g id node hn hk n ((hback n nd hnd).1 hc2)
          rw [if_neg hno]
          show (s.visited_count.set id (c + 1))[n]?.getD 0 + q.count n = _
          rw [hvc n]
          by_cases hnid : n = id
          · subst hnid
            rw [if_pos rfl] at hold ⊢
            omega
          · rw [if_neg hnid] at hold ⊢
            omega
        · show s.proofleaves ++ [id] = _
          rw [List.filter_append, ← hI.leaves]
          simp [List.filter_cons, hn, ProofNode.isLeaf, hk]
      · show q.length + 2 * (g.getGraphSize - (E ++ [id]).length) + 1 ≤ _
        rw [hq2]
        simp only [List.length_append, List.length_cons, List.length_nil]
        omega
    | derived a b p =>
      have hab : a ≠ b := hg.distinct id node a b p hn hk
      have hant : ∀ n, IsAnt g id n ↔ n = a ∨ n = b := isAnt_derived g id node a b p hn hk
      have hpre : ∀ x, IsAnt g id x → ∃ nx, g.getNode x = some nx ∧
          (s.visited_count.set id (c + 1))[x]? = some (s.visited_count[x]?.getD 0) ∧
          s.visited_count[x]?.getD 0 < nx.getNumResolvents := by
        intro x hx
        obtain ⟨nx, hnx⟩ := hg.ants id x hx
        have hxid := collectGraph_ne_self g hg id x hx
        have hxroot := collectGraph_ne_root g hg id x hx
        have hxlt := getNode_lt g x nx hnx
        refine ⟨nx, hnx, ?_, ?_⟩
        · rw [getElem?_some_getD _ x (by simp only [List.length_set]; omega), hvc x,
            if_neg hxid]
        · have hold := hI.bal x nx hnx
          rw [if_neg hxroot] at hold
          have := expandedResolvents_lt E nx id ((hback x nx hnx).2 hx) hidE
          omega
      obtain ⟨na, hna, hva, hca⟩ := hpre a ((hant a).2 (Or.inl rfl))
      obtain ⟨nb, hnb, hvb, hcb⟩ := hpre b ((hant b).2 (Or.inr rfl))
      refine ⟨Collect.mk (b :: a :: q) (s.visited_count.set id (c + 1)) s.proofleaves,
        ?_, ?_, ?_⟩
      · simp only [collectStep, hq2, hn, hc]
        rw [if_pos hexp]
        simp only [hk, hna, hva, hnb, hvb]
        rw [if_neg (not_not.2 hca), if_neg (not_not.2 hcb)]
      · refine ⟨?_, ?_, hnodup2, hnodes2, ?_, hexp2, hexpRoot2, horder2, ?_⟩
        · simp only [List.length_set]; exact hlen
        · intro x hx
          rcases List.mem_cons.1 hx with h | hx
          · subst h; exact ⟨nb, hnb⟩
          · rcases List.mem_cons.1 hx with h | hx
            · subst h; exact ⟨na, hna⟩
            · exact hqn x hx
        · intro n nd hnd
          have hold := hI.bal n nd hnd
          rw [hcnt n] at hold
          rw [expandedResolvents_append E nd id hidE (hg.nodup n nd hnd)]
          have hida := collectGraph_ne_self g hg id a ((hant a).2 (Or.inl rfl))
          have hidb := collectGraph_ne_self g hg id b ((hant b).2 (Or.inr rfl))
          have hiff : id ∈ nd.resolvents ↔ n = a ∨ n = b := by
            rw [hback n nd hnd, hant n]
          have hcount : (b :: a :: q).count n =
              q.count n + (if n = a then 1 else 0) + (if n = b then 1 else 0) := by
            simp only [List.count_cons, beq_iff_eq, @eq_comm _ a n, @eq_comm _ b n]
          show (s.visited_count.set id (c + 1))[n]?.getD 0 + (b :: a :: q).count n = _
          rw [hvc n, hcount]
          by_cases hnid : n = id
          · have h1 : ¬ n = a := by omega
            have h2 : ¬ n = b := by omega
            have h3 : ¬ id ∈ nd.resolvents := by rw [hiff]; omega
            rw [if_pos hnid, if_neg h1, if_neg h2, if_neg h3]
            rw [if_pos hnid] at hold
            subst hnid
            omega
          · rw [if_neg hnid] at hold ⊢
            by_cases h1 : n = a
            · have h2 : ¬ n = b := by omega
              have h3 : id ∈ nd.resolvents := by rw [hiff]; exact Or.inl h1
              rw [if_pos h1, if_neg h2, if_pos h3]
              omega
            · by_cases h2 : n = b
              · have h3 : id ∈ nd.resolvents := by rw [hiff]; exact Or.inr h2
                rw [if_neg h1, if_pos h2, if_pos h3]
                omega
              · have h3 : ¬ id ∈ nd.resolvents := by rw [hiff]; omega
                rw [if_neg h1, if_neg h2, if_neg h3]
                omega
        · show s.proofleaves = _
          rw [List.filter_append, ← hI.leaves]
          simp [List.filter_cons, hn, ProofNode.isLeaf, hk]
      · show (b :: a :: q).length + 2 * (g.getGraphSize - (E ++ [id]).length) + 1 ≤ _
        rw [hq2]
        simp only [List.length_append, List.length_cons, List.length_nil]
        omega
  · have hlog : collectExpander g s = none := by
      simp only [collectExpander, hq2, hn, hc]
      rw [if_neg hexp]
    have hroot : id ≠ g.root := fun hc2 => hexp (Or.inl hc2)
    have hne : c + 1 ≠ node.getNumResolvents := fun hc2 => hexp (Or.inr hc2)
    rw [hlog]
    simp only [Option.toList_none, List.append_nil]
    refine ⟨Collect.mk q (s.visited_count.set id (c + 1)) s.proofleaves, ?_, ?_, ?_⟩
    · simp only [collectStep, hq2, hn, hc]
      rw [if_neg hexp]
    · refine ⟨?_, hqn, hI.nodup, hI.nodes, ?_, ?_, ?_, hI.order, hI.leaves⟩
      · simp only [List.length_set]; exact hlen
      · intro n nd hnd
        have hold := hI.bal n nd hnd
        rw [hcnt n] at hold
        show (s.visited_count.set id (c + 1))[n]?.getD 0 + q.count n = _
        rw [hvc n]
        by_cases hnid : n = id
        · subst hnid
          rw [if_pos rfl] at hold ⊢
          omega
        · rw [if_neg hnid] at hold ⊢
          omega
      · intro n nd hnd hnroot
        show n ∈ E ↔ (s.visited_count.set id (c + 1))[n]?.getD 0 = nd.getNumResolvents
        rw [hvc n]
        by_cases hnid : n = id
        · subst hnid
          rw [hn] at hnd
          cases hnd
          rw [if_pos rfl]
          rw [if_neg hroot] at hbid
          have hold := hI.exp n node hn hroot
          constructor
          · intro hmem
            have := hold.1 hmem
            omega
          · intro h; exact absurd h hne
        · rw [if_neg hnid]
          exact hI.exp n nd hnd hnroot
      · show g.root ∈ E ↔ 1 ≤ (s.visited_count.set id (c + 1))[g.root]?.getD 0
        rw [hvc g.root, if_neg (fun hc2 => hroot hc2.symm)]
        exact hI.expRoot
    · show q.length + 2 * (g.getGraphSize - E.length) + 1 ≤ _
      rw [hq2]
      simp only [List.length_cons]
      omega

theorem collectLoop_inv (g : ProofGraph) (hg : CollectGraph g) :
    ∀ (fuel : Nat) (s : Collect) (E : List Nat), CollectInv g s E → s.q ≠ [] →
      s.q.length + 2 * (g.getGraphSize - E.length) ≤ fuel →
      ∃ s2, collectLoop g fuel s = .ok s2 ∧ s2.q = [] ∧
        CollectInv g s2 (E ++ collectExpandLog g fuel s) := by
  intro fuel
  induction fuel with
  | zero =>
    intro s E _ hq hf
    have : 0 < s.q.length := List.length_pos.2 hq
    omega
  | succ fuel ih =>
    intro s E hI hq hf
    obtain ⟨s2, hstep, hI2, hm⟩ := collectStep_inv g hg s E hI hq
    by_cases hq2 : s2.q = []
    · refine ⟨s2, ?_, hq2, ?_⟩
      · simp only [collectLoop, hstep, hq2, List.isEmpty_nil, if_true]
      · simp only [collectExpandLog, hstep, hq2, List.isEmpty_nil, if_true, List.append_nil]
        exact hI2
    · have hne : s2.q.isEmpty = false := by
        cases hs : s2.q with
        | nil => exact absurd hs hq2
        | cons x xs => rfl
      obtain ⟨s3, hloop, hq3, hI3⟩ := ih s2 _ hI2 hq2 (by omega)
      refine ⟨s3, ?_, hq3, ?_⟩
      · simp only [collectLoop, hstep, hne]
        exact hloop
      · simp only [collectExpandLog, hstep, hne]
        rw [← List.append_assoc]
        exact hI3

theorem collectInv_init (g : ProofGraph) (hg : CollectGraph g) :
    CollectInv g { q := [g.root], visited_count := List.replicate g.getGraphSize 0,
                   proofleaves := [] } [] := by
  obtain ⟨r, hr, hres⟩ := hg.root
  have hget : ∀ n : Nat, (List.replicate g.getGraphSize 0)[n]?.getD 0 = 0 := by
    intro n
    rw [List.getElem?_replicate]
    split_ifs <;> rfl
  refine ⟨by simp, ?_, List.nodup_nil, ?_, ?_, ?_, ?_, ?_, rfl⟩
  · intro x hx
    rw [List.mem_singleton] at hx
    subst hx
    exact ⟨r, hr⟩
  · intro x hx; cases hx
  · intro n node hn
    show (List.replicate g.getGraphSize 0)[n]?.getD 0 + [g.root].count n = _
    rw [hget]
    have h0 : expandedResolvents [] node = 0 := by
      unfold expandedResolvents
      simp
    rw [h0]
    by_cases h : n = g.root
    · subst h; simp
    · have h2 : ¬ g.root = n := fun hc => h hc.symm
      simp [h, h2, List.count_cons]
  · intro n node hn hne
    show n ∈ [] ↔ (List.replicate g.getGraphSize 0)[n]?.getD 0 = _
    rw [hget]
    have := collectGraph_numResolvents_pos g hg n node hn hne
    constructor
    · intro h; cases h
    · intro h; omega
  · show g.root ∈ [] ↔ 1 ≤ (List.replicate g.getGraphSize 0)[g.root]?.getD 0
    rw [hget]
    constructor
    · intro h; cases h
    · intro h; omega
  · intro pre n post node hE
    cases pre <;> cases hE

theorem collectInv_final (g : ProofGraph) (hg : CollectGraph g) (s : Collect) (E : List Nat)
    (hI : CollectInv g s E) (hq : s.q = []) :
    ∀ n node, g.getNode n = some node → n ∈ E := by
  obtain ⟨r, hr, hres⟩ := hg.root
  have hrootE : g.root ∈ E := by
    rw [hI.expRoot]
    have := hI.bal g.root r hr
    rw [hq] at this
    simp only [List.count_nil, if_true] at this
    omega
  have wf : WellFounded (fun i j : Fin g.getGraphSize =>
      Relation.TransGen (IsAnt g) i.val j.val) := by
    haveI : IsTrans (Fin g.getGraphSize)
        (fun i j => Relation.TransGen (IsAnt g) i.val j.val) :=
      ⟨fun _ _ _ h1 h2 => Relation.TransGen.trans h1 h2⟩
    haveI : IsIrrefl (Fin g.getGraphSize)
        (fun i j => Relation.TransGen (IsAnt g) i.val j.val) :=
      ⟨fun a h => hg.acyclic a.val h⟩
    exact Finite.wellFounded_of_trans_of_irrefl _
  have key : ∀ i : Fin g.getGraphSize, ∀ node, g.getNode i.val = some node → i.val ∈ E := by
    intro i
    induction i using wf.induction with
    | _ i ih =>
      intro node hn
      by_cases hroot : i.val = g.root
      · rw [hroot]; exact hrootE
      · rw [hI.exp i.val node hn hroot]
        have hb := hI.bal i.val node hn
        rw [hq, if_neg hroot] at hb
        simp only [List.count_nil] at hb
        have hfull := expandedResolvents_full E node (by
          intro m hm
          have hant := (hg.back i.val m node hn).1 hm
          have hant2 := hant
          obtain ⟨nm, _, _, _, hnm, _, _⟩ := hant2
          have hmlt := getNode_lt g m nm hnm
          exact ih ⟨m, hmlt⟩ (Relation.TransGen.single hant) nm hnm)
        omega
  intro n node hn
  exact key ⟨n, getNode_lt g n node hn⟩ node hn

theorem acyclic_of_isAnt_lt (g : ProofGraph) (h : ∀ n m, IsAnt g n m → m < n) :
    ∀ n, ¬ Relation.TransGen (IsAnt g) n n := by
  have key : ∀ n m, Relation.TransGen (IsAnt g) n m → m < n := by
    intro n m hnm
    induction hnm with
    | single h1 => exact h _ _ h1
    | tail _ h2 ih => have := h _ _ h2; omega
  intro n hn
  have := key n n hn
  omega

theorem back_of_resolventsConsistent (g : ProofGraph) (h : resolventsConsistent g = true) :
    ∀ n m node, g.getNode n = some node → (m ∈ node.resolvents ↔ IsAnt g m n) := by
  intro n m node hn
  have hlt := getNode_lt g n node hn
  unfold resolventsConsistent at h
  rw [List.all_eq_true] at h
  have h1 := h n (List.mem_range.2 hlt)
  simp only [hn, Bool.and_eq_true, List.all_eq_true, decide_eq_true_eq, List.mem_range,
    beq_iff_eq] at h1
  rw [isAnt_iff_hasAnt]
  by_cases hm : m < g.getGraphSize
  · have := h1.2 m hm
    rw [← this]
    simp
  · constructor
    · intro hmem
      exact absurd (h1.1 m hmem) hm
    · intro hant
      unfold hasAnt at hant
      cases hgm : g.getNode m with
      | none => rw [hgm] at hant; cases hant
      | some nm => exact absurd (getNode_lt g m nm hgm) hm

theorem chainGraph_isAnt (n m : Nat) (h : IsAnt chainGraph n m) :
    m < n ∧ ∃ node, chainGraph.getNode m = some node := by
  obtain ⟨node, a, b, p, hn, hk, hm⟩ := h
  have hlt : n < 5 := getNode_lt chainGraph n node hn
  interval_cases n <;> simp [ProofGraph.getNode, chainGraph] at hn <;> subst hn <;>
    simp at hk <;> obtain ⟨rfl, rfl, rfl⟩ := hk <;> rcases hm with rfl | rfl <;>
    exact ⟨by omega, _, rfl⟩

theorem chainGraph_collectGraph : CollectGraph chainGraph := by
  refine ⟨⟨_, rfl, rfl⟩, acyclic_of_isAnt_lt _ (fun n m h => (chainGraph_isAnt n m h).1),
    ?_, back_of_resolventsConsistent _ rfl, ?_, ?_,
    fun n m h => (chainGraph_isAnt n m h).2⟩
  · intro n node hn
    have hlt : n < 5 := getNode_lt chainGraph n node hn
    have h42 : IsAnt chainGraph 4 2 := ⟨_, 2, 3, 1, rfl, rfl, Or.inl rfl⟩
    have h43 : IsAnt chainGraph 4 3 := ⟨_, 2, 3, 1, rfl, rfl, Or.inr rfl⟩
    have h20 : IsAnt chainGraph 2 0 := ⟨_, 0, 1, 0, rfl, rfl, Or.inl rfl⟩
    have h21 : IsAnt chainGraph 2 1 := ⟨_, 0, 1, 0, rfl, rfl, Or.inr rfl⟩
    have r4 : Reachable chainGraph 4 := Relation.ReflTransGen.refl
    have r2 : Reachable chainGraph 2 := Relation.ReflTransGen.tail r4 h42
    interval_cases n
    · exact Relation.ReflTransGen.tail r2 h20
    · exact Relation.ReflTransGen.tail r2 h21
    · exact r2
    · exact Relation.ReflTransGen.tail r4 h43
    · exact r4
  · intro n node a b p hn hk
    have hlt : n < 5 := getNode_lt chainGraph n node hn
    interval_cases n <;> simp [ProofGraph.getNode, chainGraph] at hn <;> subst hn <;>
      simp at hk <;> omega
  · intro n node hn
    have hlt : n < 5 := getNode_lt chainGraph n node hn
    interval_cases n <;> simp [ProofGraph.getNode, chainGraph] at hn <;> subst hn <;> simp

/-- C20 (as amended). On every graph whose root is a node without resolvents, that is
acyclic (no node reaches itself by one or more antecedent edges), in which every node is
reachable from the root, m is in the resolvent set of n exactly when n is an antecedent of
m, and in addition the two antecedents of every derived node are distinct (with the two
representation facts of the embedding: a resolvent set holds each id once, and the
antecedent ids are ids of nodes), the traversal of lines 19-44 of
verifyLeavesInconsistency, run with fuel for 1 + 2 * size iterations, stops with a result
and without a failed assertion; every node, so every derived node, is expanded exactly
once, and only nodes are expanded; when a node is expanded all of its resolvents have been
expanded before it; and proofleaves contains every leaf node, each reachable from the
root, exactly once and contains nothing but leaf nodes reachable from the root. -/
theorem collectLeaves_expands_in_resolvent_order (g : ProofGraph) (fuel : Nat)
    (hroot : ∃ r, g.getNode g.root = some r ∧ r.resolvents = [])
    (hacyclic : ∀ n, ¬ Relation.TransGen (IsAnt g) n n)
    (hreach : ∀ n node, g.getNode n = some node → Reachable g n)
    (hback : ∀ n m node, g.getNode n = some node → (m ∈ node.resolvents ↔ IsAnt g m n))
    (hdistinct : ∀ n node id1 id2 p, g.getNode n = some node →
      node.kind = .derived id1 id2 p → id1 ≠ id2)
    (hnodup : ∀ n node, g.getNode n = some node → node.resolvents.Nodup)
    (hants : ∀ n m, IsAnt g n m → ∃ node, g.getNode m = some node)
    (hfuel : 1 + 2 * g.getGraphSize ≤ fuel) :
    ∃ s, collectLeaves g fuel = .ok s ∧
      (∀ n node, g.getNode n = some node →
        (collectExpandLog g fuel (collectStart g)).count n = 1) ∧
      (∀ n, n ∈ collectExpandLog g fuel (collectStart g) →
        ∃ node, g.getNode n = some node) ∧
      (∀ pre n post node, collectExpandLog g fuel (collectStart g) =
          pre ++ n :: post → g.getNode n = some node → ∀ m ∈ node.resolvents, m ∈ pre) ∧
      (∀ x node, g.getNode x = some node → node.isLeaf = true →
        Reachable g x ∧ s.proofleaves.count x = 1) ∧
      (∀ x ∈ s.proofleaves, ∃ node, g.getNode x = some node ∧ node.isLeaf = true ∧
        Reachable g x) := by
  have hg : CollectGraph g := ⟨hroot, hacyclic, hreach, hback, hdistinct, hnodup, hants⟩
  obtain ⟨r, hr, _⟩ := hroot
  obtain ⟨s, hloop, hq, hI⟩ := collectLoop_inv g hg fuel _ [] (collectInv_init g hg)
    (by simp) (by simp only [List.length_singleton, List.length_nil]; omega)
  rw [List.nil_append] at hI
  have hall := collectInv_final g hg s _ hI hq
  have hpl : ∀ x, x ∈ s.proofleaves ↔ ∃ node, g.getNode x = some node ∧ node.isLeaf = true := by
    intro x
    rw [hI.leaves, List.mem_filter]
    constructor
    · rintro ⟨_, h2⟩
      cases hx : g.getNode x with
      | none => rw [hx] at h2; cases h2
      | some node => rw [hx] at h2; exact ⟨node, rfl, h2⟩
    · rintro ⟨node, hx, hl⟩
      refine ⟨hall x node hx, ?_⟩
      rw [hx]; exact hl
  have hplnd : s.proofleaves.Nodup := by
    rw [hI.leaves]
    exact hI.nodup.filter _
  refine ⟨s, ?_, ?_, hI.nodes, hI.order, ?_, ?_⟩
  · simp only [collectLeaves, hr]
    exact hloop
  · intro n node hn
    exact List.count_eq_one_of_mem hI.nodup (hall n node hn)
  · intro x node hx hl
    exact ⟨hreach x node hx, List.count_eq_one_of_mem hplnd ((hpl x).2 ⟨node, hx, hl⟩)⟩
  · intro x hx
    obtain ⟨node, hn, hl⟩ := (hpl x).1 hx
    exact ⟨node, hn, hl, hreach x node hn⟩

theorem collectLeaves_expands_in_resolvent_order_witness :
    CollectGraph chainGraph ∧
    collectExpandLog chainGraph 11 (collectStart chainGraph) = [4, 3, 2, 1, 0] ∧
    ∃ s, collectLeaves chainGraph 11 = .ok s ∧
      (∀ n node, chainGraph.getNode n = some node →
        (collectExpandLog chainGraph 11 (collectStart chainGraph)).count n = 1) ∧
      (∀ n, n ∈ collectExpandLog chainGraph 11 (collectStart chainGraph) →
        ∃ node, chainGraph.getNode n = some node) ∧
      (∀ pre n post node, collectExpandLog chainGraph 11 (collectStart chainGraph) =
          pre ++ n :: post → chainGraph.getNode n = some node →
          ∀ m ∈ node.resolvents, m ∈ pre) ∧
      (∀ x node, chainGraph.getNode x = some node → node.isLeaf = true →
        Reachable chainGraph x ∧ s.proofleaves.count x = 1) ∧
      (∀ x ∈ s.proofleaves, ∃ node, chainGraph.getNode x = some node ∧ node.isLeaf = true ∧
        Reachable chainGraph x) :=
  ⟨chainGraph_collectGraph, rfl,
    collectLeaves_expands_in_resolvent_order chainGraph 11 chainGraph_collectGraph.root
      chainGraph_collectGraph.acyclic chainGraph_collectGraph.reach
      chainGraph_collectGraph.back chainGraph_collectGraph.distinct
      chainGraph_collectGraph.nodup chainGraph_collectGraph.ants (by decide)⟩

theorem sharedAntecedentGraph_isAnt (n m : Nat) (h : IsAnt sharedAntecedentGraph n m) :
    m < n := by
  obtain ⟨node, a, b, p, hn, hk, hm⟩ := h
  have hlt : n < 5 := getNode_lt sharedAntecedentGraph n node hn
  interval_cases n <;> simp [ProofGraph.getNode, sharedAntecedentGraph] at hn <;>
    subst hn <;> simp at hk <;> obtain ⟨rfl, rfl, rfl⟩ := hk <;> rcases hm with rfl | rfl <;>
    omega

/-- C20 (as stated) fails when a derived node names one node twice as antecedent. The
graph sharedAntecedentGraph meets every stated condition: its root (node 4) is a node
without resolvents, no node reaches itself by antecedent edges, every node is reachable
from the root, and m is in the resolvent set of n exactly when n is an antecedent of m.
The traversal expands the root and node 2, counts leaf 0 twice for the two pushes of node
2 and collects it, and then, when node 3 is expanded, the assertion of line 36 fails
because the counter of leaf 0 already equals the size 2 of its resolvent set: with fuel
for five or more iterations the outcome is the failed assertion, and with less fuel the
traversal has not finished. -/
theorem collectLeaves_shared_antecedent_fails :
    (∃ r, sharedAntecedentGraph.getNode sharedAntecedentGraph.root = some r ∧
      r.resolvents = []) ∧
    (∀ n, ¬ Relation.TransGen (IsAnt sharedAntecedentGraph) n n) ∧
    (∀ n node, sharedAntecedentGraph.getNode n = some node →
      Reachable sharedAntecedentGraph n) ∧
    (∀ n m node, sharedAntecedentGraph.getNode n = some node →
      (m ∈ node.resolvents ↔ IsAnt sharedAntecedentGraph m n)) ∧
    collectLeaves sharedAntecedentGraph 11 = .error (.assertion 36) ∧
    (∀ k, collectLeaves sharedAntecedentGraph (k + 5) = .error (.assertion 36)) ∧
    (∀ fuel s, collectLeaves sharedAntecedentGraph fuel ≠ .ok s) := by
  refine ⟨⟨_, rfl, rfl⟩, acyclic_of_isAnt_lt _ sharedAntecedentGraph_isAnt, ?_,
    back_of_resolventsConsistent _ rfl, rfl, fun k => rfl, ?_⟩
  · intro n node hn
    have hlt : n < 5 := getNode_lt sharedAntecedentGraph n node hn
    have h43 : IsAnt sharedAntecedentGraph 4 3 := ⟨_, 3, 2, 0, rfl, rfl, Or.inl rfl⟩
    have h42 : IsAnt sharedAntecedentGraph 4 2 := ⟨_, 3, 2, 0, rfl, rfl, Or.inr rfl⟩
    have h30 : IsAnt sharedAntecedentGraph 3 0 := ⟨_, 0, 1, 0, rfl, rfl, Or.inl rfl⟩
    have h31 : IsAnt sharedAntecedentGraph 3 1 := ⟨_, 0, 1, 0, rfl, rfl, Or.inr rfl⟩
    have r4 : Reachable sharedAntecedentGraph 4 := Relation.ReflTransGen.refl
    have r3 : Reachable sharedAntecedentGraph 3 := Relation.ReflTransGen.tail r4 h43
    interval_cases n
    · exact Relation.ReflTransGen.tail r3 h30
    · exact Relation.ReflTransGen.tail r3 h31
    · exact Relation.ReflTransGen.tail r4 h42
    · exact r3
    · exact r4
  · intro fuel s hc
    have h5 : ∀ k, collectLeaves sharedAntecedentGraph (k + 5) = .error (.assertion 36) :=
      fun k => rfl
    by_cases hf : fuel < 5
    · interval_cases fuel <;> cases hc
    · obtain ⟨k, rfl⟩ : ∃ k, fuel = k + 5 := ⟨fuel - 5, by omega⟩
      rw [h5 k] at hc
      cases hc

end opensmt
